import Mathlib

/-!
# ZXString: a reference-counted, copy-on-write string buffer

A shallow embedding of `src/ztl/zstr.h`.

* A C++ `int` (lengths, capacities, byte lengths, the reference count) is an
  `Int`.  Overflow of a signed `int` is undefined behaviour in C++, so the
  embedding describes the executions in which every `int` stays in range,
  where the C++ arithmetic is the arithmetic of `Int`; on the byte lengths
  that occur there, which are not negative, the unsigned division by
  `sizeof(T)` is the division of `Int`.
* An element of type `T` (`char` or `wchar_t`) is its character code, a
  `Nat`; the terminator is `0`.
* A `const T*` argument is `Option (List Nat)`: `none` is the null pointer,
  `some mem` lists the elements readable at the pointer.  Reading past the
  end of `mem` yields `0`.
* The blocks handed out by the allocator live in a `Heap`, addressed by the
  order of allocation.  A handle holds the address of its block, as the C++
  handle holds a pointer into it.  A block that was freed stays in the heap;
  the calls of `s_Free` are recorded.
* The loop of `_Cat` need not end, so `_Cat` and `Cat` take the number of
  iterations they may run as `fuel` and return `none` when it is used up.
-/

namespace ZStrUtil

/-- The element types the templates are specialised for. -/
inductive CharT where
  | char
  | wchar_t
deriving DecidableEq, Repr

/-- The value of `sizeof(T)`. -/
def CharT.sizeof : CharT → Nat
  | .char => 1
  | .wchar_t => 2

/-- `ZStrUtil::Len` (`strlen`, `wcslen`): the number of elements before the
first terminator. -/
def Len : List Nat → Nat
  | [] => 0
  | c :: cs => if c = 0 then 0 else Len cs + 1

/-- The characters of the C string stored in `mem`: those before the first
terminator. -/
def cstr : List Nat → List Nat
  | [] => []
  | c :: cs => if c = 0 then [] else c :: cstr cs

/-- The search of `strstr` over the characters of the two strings: the
offset of the first occurrence of `pat` in `hay`. -/
def search (pat : List Nat) : List Nat → Option Nat
  | [] => if pat.isPrefixOf [] then some 0 else none
  | c :: cs =>
    if pat.isPrefixOf (c :: cs) then some 0
    else (search pat cs).map (· + 1)

/-- `ZStrUtil::Str` (`strstr`, `wcsstr`): the offset from `sSource` of the
first occurrence of the string `sPattern` in the string `sSource`, `none`
for the null pointer the C function returns when there is none. -/
def Str (sSource sPattern : List Nat) : Option Nat :=
  search (cstr sPattern) (cstr sSource)

end ZStrUtil

open ZStrUtil

/-- The header of a block followed by its inline storage `pStr()`. -/
structure _ZXStringData where
  nRef : Int
  nCap : Int
  nByteLen : Int
  pStr : List Nat
deriving DecidableEq, Repr, Inhabited

/-- Modelled from the spec: the allocator collaborator `ZAllocEx` of
`zalloc.h`, which supplies raw blocks (`s_Alloc`) and takes them back
(`s_Free`).  `mem a` is the block at address `a`, `next` the number of
`s_Alloc` calls so far (the next fresh address), `freed` the addresses
passed to `s_Free`, latest first, and `garbage a i` the uninitialised
element `i` of a block freshly allocated at `a`. -/
structure Heap where
  mem : Nat → _ZXStringData
  next : Nat
  freed : List Nat
  garbage : Nat → Nat → Nat

/-- A string handle: `_m_pStr` is null (`none`) or points into the block at
the given address.  `this` is the address of the handle object itself. -/
structure ZXString where
  this : Nat
  _m_pStr : Option Nat
deriving DecidableEq, Repr

namespace ZXString

/-- Overwrite the block at `p`. -/
def store (h : Heap) (p : Nat) (d : _ZXStringData) : Heap :=
  { h with mem := Function.update h.mem p d }

/-- The elements `memcpy` reads: `n` elements at `src`. -/
def readN (src : List Nat) (n : Nat) : List Nat :=
  (src ++ List.replicate n 0).take n

/-- The storage `dst` after `vals` is written at offset `off`; a write
past the end of the storage is not modelled. -/
def writeAt (dst : List Nat) (off : Nat) (vals : List Nat) : List Nat :=
  (dst.take off ++ vals ++ dst.drop (off + vals.length)).take dst.length

/-- `memcpy(&dst[off], src, n * sizeof(T))`. -/
def memcpy (dst : List Nat) (off : Int) (src : List Nat) (n : Int) : List Nat :=
  if 0 ≤ off then writeAt dst off.toNat (readN src n.toNat) else dst

/-- `dst[i] = v`. -/
def poke (dst : List Nat) (i : Int) (v : Nat) : List Nat :=
  if 0 ≤ i then dst.set i.toNat v else dst

/-- `_Free`: hand the block back to the allocator. -/
def _Free (h : Heap) (pFree : Nat) : Heap :=
  { h with freed := pFree :: h.freed }

/-- `_Alloc`: a fresh block of `nCap + 1` uninitialised elements with its
capacity recorded.  The header fields `nRef` and `nByteLen`, which
`GetBuffer` sets before anything reads them, start at `0`. -/
def _Alloc (h : Heap) (nCap : Int) : Heap × Nat :=
  let a := h.next
  ({ h with
      mem := Function.update h.mem a
        { nRef := 0, nCap := nCap, nByteLen := 0,
          pStr := (List.range (nCap + 1).toNat).map (h.garbage a) }
      next := a + 1 }, a)

/-- `_Release`: decrement the reference count and free the block when it
reaches zero. -/
def _Release (h : Heap) (pData : Nat) : Heap :=
  let d := h.mem pData
  let h1 := store h pData { d with nRef := d.nRef - 1 }
  if d.nRef - 1 ≤ 0 then _Free h1 pData else h1

/-- `GetLength`: the number of elements in use. -/
def GetLength (T : CharT) (h : Heap) (self : ZXString) : Int :=
  match self._m_pStr with
  | some p => (h.mem p).nByteLen / T.sizeof
  | none => 0

/-- `IsEmpty`: no buffer, or a terminator as the first element. -/
def IsEmpty (h : Heap) (self : ZXString) : Bool :=
  match self._m_pStr with
  | some p => (h.mem p).pStr.getD 0 0 == 0
  | none => true

/-- The second half of `GetBuffer`: allocate a block of capacity
`max nCap nMinLength`, attach the handle to it, fill it from the old block
`pData` or with an empty string, and release the old block. -/
def GetBuffer.fresh (T : CharT) (h : Heap) (self : ZXString) (pData : Option Nat)
    (nCap nMinLength : Int) (bRetain : Bool) : Heap × ZXString :=
  let nCap := if nCap < nMinLength then nMinLength else nCap
  let (h1, pAlloc) := _Alloc h nCap
  let h2 := store h1 pAlloc { h1.mem pAlloc with nRef := -1 }
  let self1 := { self with _m_pStr := some pAlloc }
  let h3 :=
    match bRetain, pData with
    | true, some p =>
      let old := h2.mem p
      store h2 pAlloc
        { h2.mem pAlloc with
          pStr := memcpy (h2.mem pAlloc).pStr 0 old.pStr ((old.nByteLen + T.sizeof) / T.sizeof)
          nByteLen := old.nByteLen }
    | _, _ =>
      store h2 pAlloc
        { h2.mem pAlloc with nByteLen := 0, pStr := poke (h2.mem pAlloc).pStr 0 0 }
  let h4 :=
    match pData with
    | some p => _Release h3 p
    | none => h3
  (h4, self1)

/-- `GetBuffer(nMinLength, bRetain)`: check the storage out for writing.  The
returned pointer is the `_m_pStr` of the returned handle. -/
def GetBuffer (T : CharT) (h : Heap) (self : ZXString) (nMinLength : Int)
    (bRetain : Bool) : Heap × ZXString :=
  match self._m_pStr with
  | some p =>
    let pData := h.mem p
    if pData.nRef ≤ 1 ∧ pData.nCap ≥ nMinLength then
      (store h p { pData with nRef := -1 }, self)
    else
      GetBuffer.fresh T h self (some p) (pData.nByteLen / T.sizeof) nMinLength bRetain
  | none => GetBuffer.fresh T h self none 0 nMinLength bRetain

/-- `ReleaseBuffer(nLength)`: commit the storage with the given length.  The
C++ function is only called on a handle that owns a buffer. -/
def ReleaseBuffer (T : CharT) (h : Heap) (self : ZXString) (nLength : Int) : Heap :=
  match self._m_pStr with
  | some p =>
    let pData := h.mem p
    if nLength = -1 then
      store h p { pData with nRef := 1, nByteLen := Len pData.pStr * T.sizeof }
    else
      store h p
        { pData with nRef := 1, pStr := poke pData.pStr nLength 0,
                     nByteLen := nLength * T.sizeof }
  | none => h

/-- Write `n` elements of `src` into the handle's storage at offset `off`. -/
def copyIn (h : Heap) (self : ZXString) (off : Int) (src : List Nat) (n : Int) : Heap :=
  match self._m_pStr with
  | some p => store h p { h.mem p with pStr := memcpy (h.mem p).pStr off src n }
  | none => h

/-- `Assign(s, n)`; `n = -1` asks for the length to be scanned. -/
def Assign (T : CharT) (h : Heap) (self : ZXString) (s : Option (List Nat)) (n : Int) :
    Heap × ZXString :=
  match s with
  | some src =>
    let nLength : Int := if n = -1 then Len src else n
    let (h1, self1) := GetBuffer T h self nLength false
    let h2 := copyIn h1 self1 0 src nLength
    (ReleaseBuffer T h2 self1 nLength, self1)
  | none =>
    match self._m_pStr with
    | some p => (_Release h p, { self with _m_pStr := none })
    | none => (h, self)

/-- The constructor `ZXString(const T* s, int n)` for the object at `addr`. -/
def ofPtr (T : CharT) (h : Heap) (addr : Nat) (s : Option (List Nat)) (n : Int) :
    Heap × ZXString :=
  Assign T h { this := addr, _m_pStr := none } s n

/-- The destructor. -/
def destroy (h : Heap) (self : ZXString) : Heap :=
  match self._m_pStr with
  | some p => _Release h p
  | none => h

/-- `operator=(const T* s)`. -/
def assignPtr (T : CharT) (h : Heap) (self : ZXString) (s : List Nat) : Heap × ZXString :=
  Assign T h self (some s) (Len s)

/-- `operator=(const ZXString<T>& s)`. -/
def assign (T : CharT) (h : Heap) (self s : ZXString) : Heap × ZXString :=
  if self.this = s.this then (h, self)
  else
    match s._m_pStr with
    | some q =>
      let pData := h.mem q
      if pData.nRef = -1 then assignPtr T h self pData.pStr
      else
        let h1 := store h q { pData with nRef := pData.nRef + 1 }
        let h2 :=
          match self._m_pStr with
          | some p => _Release h1 p
          | none => h1
        (h2, { self with _m_pStr := some q })
    | none =>
      match self._m_pStr with
      | some p => (_Release h p, { self with _m_pStr := none })
      | none => (h, self)

/-- The copy constructor `ZXString(const ZXString<T>& s)` for the object at
`addr`. -/
def copy (T : CharT) (h : Heap) (addr : Nat) (s : ZXString) : Heap × ZXString :=
  assign T h { this := addr, _m_pStr := none } s

/-- The loop `while (nCap < nReq) nCap *= 2` of `_Cat`; `none` when `fuel`
iterations do not end it. -/
def _Cat.grow : Nat → Int → Int → Option Int
  | 0, nCap, nReq => if nCap < nReq then none else some nCap
  | fuel + 1, nCap, nReq => if nCap < nReq then _Cat.grow fuel (nCap * 2) nReq else some nCap

/-- `_Cat(s, n)`: append `n` elements of `s`. -/
def _Cat (fuel : Nat) (T : CharT) (h : Heap) (self : ZXString) (s : Option (List Nat))
    (n : Int) : Option (Heap × ZXString) :=
  if n ≠ 0 then
    if IsEmpty h self then
      let (h1, self1) := GetBuffer T h self n false
      let h2 := copyIn h1 self1 0 (s.getD []) n
      some (ReleaseBuffer T h2 self1 n, self1)
    else
      let nReq := GetLength T h self + n
      let nCap0 :=
        match self._m_pStr with
        | some p => (h.mem p).nCap
        | none => 0
      match _Cat.grow fuel nCap0 nReq with
      | some nCap =>
        let (h1, self1) := GetBuffer T h self nCap true
        let h2 := copyIn h1 self1 (GetLength T h1 self1) (s.getD []) n
        some (ReleaseBuffer T h2 self1 nReq, self1)
      | none => none
  else some (h, self)

/-- `Cat(const T* s)`. -/
def Cat (fuel : Nat) (T : CharT) (h : Heap) (self : ZXString) (s : List Nat) :
    Option (Heap × ZXString) :=
  _Cat fuel T h self (some s) (Len s)

/-- `Find(s, nStart)`. -/
def Find (T : CharT) (h : Heap) (self : ZXString) (s : Option (List Nat)) (nStart : Int) :
    Int :=
  match self._m_pStr with
  | none =>
    match s with
    | some (c :: _) => if c = 0 then 0 else -1
    | _ => 0
  | some p =>
    match s with
    | some (c :: cs) =>
      if c = 0 then GetLength T h self
      else
        match Str ((h.mem p).pStr.drop nStart.toNat) (c :: cs) with
        | some off => nStart + off
        | none => -1
    | _ => GetLength T h self

/-- One pass through the body of the loop of `_FormatV` with loop variable
`i`, on the local handle `s`.  `Format i` is the bounded-write primitive
`ZStrUtil::Format` applied to a buffer of size `i` with the format string and
arguments of the call: its return value and the elements it writes at the
start of the buffer. -/
def _FormatV.body (T : CharT) (Format : Int → Int × List Nat) (h : Heap) (s : ZXString)
    (i : Int) : Heap × ZXString :=
  let (h1, s1) := GetBuffer T h s i false
  let h2 := copyIn h1 s1 0 (Format i).2 (Format i).2.length
  (ReleaseBuffer T h2 s1 (if (Format i).1 < 0 then 0 else (Format i).1), s1)

/-- The loop of `_FormatV`, entered with loop variable `i`, the last result
`result`, the local handle `s` and the sizes tried so far; `none` when
`fuel` iterations do not end the loop. -/
def _FormatV.loop (T : CharT) (Format : Int → Int × List Nat) :
    Nat → Int → Int → Heap → ZXString → List Int → Option (Heap × ZXString × List Int)
  | fuel, i, result, h, s, tried =>
    if i ≤ 1024 then
      if result ≥ 0 then some (h, s, tried)
      else
        match fuel with
        | 0 => none
        | fuel + 1 =>
          _FormatV.loop T Format fuel (i * 2) (Format i).1
            (_FormatV.body T Format h s i).1 (_FormatV.body T Format h s i).2 (tried ++ [i])
    else some (h, s, tried)

/-- The run of the loop of `_FormatV` from its initial state: `i = 16`,
`result = -1` and an empty local handle `s`, a fresh object. -/
def _FormatV.run (T : CharT) (Format : Int → Int × List Nat) (h : Heap) (self : ZXString) :
    Option (Heap × ZXString × List Int) :=
  _FormatV.loop T Format 1024 16 (-1) h { this := self.this + 1, _m_pStr := none } []

/-- `_FormatV`: the loop, then `*this = s`, then the destructor of the local
`s`. -/
def _FormatV (T : CharT) (Format : Int → Int × List Nat) (h : Heap) (self : ZXString) :
    Option (Heap × ZXString) :=
  match _FormatV.run T Format h self with
  | some (h1, s, _) =>
    let (h2, self1) := assign T h1 self s
    some (destroy h2 s, self1)
  | none => none

/-- The sizes `_FormatV` passes to the primitive, in order. -/
def _FormatV.tried (T : CharT) (Format : Int → Int × List Nat) (h : Heap) (self : ZXString) :
    Option (List Int) :=
  (_FormatV.run T Format h self).map (fun r => r.2.2)

/-- `Format(sFormat, ...)`. -/
def Format (T : CharT) (Format : Int → Int × List Nat) (h : Heap) (self : ZXString) :
    Option (Heap × ZXString) :=
  _FormatV T Format h self

/-- The primitive `_vsnprintf_s(sBuffer, uSize, _TRUNCATE, ...)` for a format
string and arguments whose full output is `out`: the output and a terminator
when they fit in `uSize` elements, with the length of the output returned;
otherwise the first `uSize - 1` elements and a terminator, with `-1`
returned. -/
def vsnprintf_s (out : List Nat) (uSize : Int) : Int × List Nat :=
  if (out.length : Int) < uSize then (out.length, out ++ [0])
  else (-1, out.take (uSize - 1).toNat ++ [0])

/-- The elements in use: the first `GetLength()` elements of the storage. -/
def content (T : CharT) (h : Heap) (self : ZXString) : List Nat :=
  match self._m_pStr with
  | some p => (h.mem p).pStr.take (GetLength T h self).toNat
  | none => []

/-- The element at offset `i` of the handle's storage. -/
def elemAt (h : Heap) (self : ZXString) (i : Int) : Option Nat :=
  match self._m_pStr with
  | some p => if 0 ≤ i then (h.mem p).pStr.get? i.toNat else none
  | none => none

/-- An empty heap whose allocator hands out blocks filled with `7`. -/
def heap0 : Heap :=
  { mem := fun _ => default, next := 0, freed := [], garbage := fun _ _ => 7 }

/-- A handle object at address `0` that owns no buffer. -/
def null0 : ZXString := { this := 0, _m_pStr := none }

/-- The handle's pointer is null or points into a block the allocator handed
out, whose storage has the `nCap + 1` elements `_Alloc` asks for. -/
def Valid (h : Heap) (self : ZXString) : Prop :=
  match self._m_pStr with
  | some p => p < h.next ∧ ((h.mem p).pStr.length : Int) = (h.mem p).nCap + 1
  | none => True

/-- The invariants of a block (section 3 of the specification) for the block
of a handle: the layout of `Valid`, a byte length that is a whole number of
elements and at most the capacity, and a terminator after the last element
in use. -/
def WellFormed (T : CharT) (h : Heap) (self : ZXString) : Prop :=
  match self._m_pStr with
  | some p =>
    p < h.next ∧ ((h.mem p).pStr.length : Int) = (h.mem p).nCap + 1 ∧
      0 ≤ (h.mem p).nByteLen ∧ (h.mem p).nByteLen % T.sizeof = 0 ∧
      (h.mem p).nByteLen ≤ (h.mem p).nCap * T.sizeof ∧
      (h.mem p).pStr.get? ((h.mem p).nByteLen / T.sizeof).toNat = some 0
  | none => True

/-- The uninitialised storage of a block of capacity `nCap` allocated at
`a`. -/
def raw (h : Heap) (a : Nat) (nCap : Int) : List Nat :=
  (List.range (nCap + 1).toNat).map (h.garbage a)

/-- A heap with one block, at address `0`: the string "ab" in a block of
capacity `2` owned by one handle. -/
def heap1 : Heap :=
  { mem := fun a =>
      if a = 0 then { nRef := 1, nCap := 2, nByteLen := 2, pStr := [97, 98, 0] } else default
    next := 1, freed := [], garbage := fun _ _ => 7 }

/-- The heap `heap1` with its block shared by two handles. -/
def heap2 : Heap :=
  { mem := fun a =>
      if a = 0 then { nRef := 2, nCap := 2, nByteLen := 2, pStr := [97, 98, 0] } else default
    next := 1, freed := [], garbage := fun _ _ => 7 }

/-- A handle object at address `0` attached to the block at address `0`. -/
def owner0 : ZXString := { this := 0, _m_pStr := some 0 }

/-- A handle object at address `1` that owns no buffer. -/
def null1 : ZXString := { this := 1, _m_pStr := none }

/-- Copy-construct a handle from `a` at each of the given addresses, in
order. -/
def copyEach (T : CharT) (h : Heap) (a : ZXString) : List Nat → Heap × List ZXString
  | [] => (h, [])
  | addr :: rest =>
    ((copyEach T (copy T h addr a).1 a rest).1,
      (copy T h addr a).2 :: (copyEach T (copy T h addr a).1 a rest).2)

/-- Destroy the handles of the list, first to last. -/
def destroyAll (h : Heap) : List ZXString → Heap
  | [] => h
  | x :: xs => destroyAll (destroy h x) xs

/-- The string `p` occurs in `c` at position `i`. -/
def occursAt (p c : List Nat) (i : Nat) : Prop :=
  p <+: c.drop i

/-- The result the specification asks of `Find(p, start)` on a handle with
content `c`: the least index from `start` on, counted from the beginning of
`c`, at which `p` occurs, and `-1` exactly when there is none. -/
def FindSpec (p c : List Nat) (start : Nat) (r : Int) : Prop :=
  (r = -1 ∧ ∀ i, start ≤ i → ¬ occursAt p c i) ∨
    ∃ i : Nat, r = i ∧ start ≤ i ∧ occursAt p c i ∧
      ∀ k, start ≤ k → k < i → ¬ occursAt p c k

/-- The state of the local handle `s` of `_FormatV` before the pass with
loop variable `i`: it owns no buffer, or a block of its own of capacity less
than `i` whose byte length is within the capacity. -/
def _FormatV.Inv (T : CharT) (h : Heap) (s : ZXString) (i : Int) : Prop :=
  match s._m_pStr with
  | some q =>
    q < h.next ∧ (h.mem q).nRef = 1 ∧ (h.mem q).nCap < i ∧
      (h.mem q).nByteLen ≤ (h.mem q).nCap * T.sizeof
  | none => True

/-- Append the elements of the list one at a time: `Cat` of the one-element
string `c` for each `c`, in order. -/
def appendEach (fuel : Nat) (T : CharT) : List Nat → Heap → ZXString → Option (Heap × ZXString)
  | [], h, self => some (h, self)
  | c :: cs, h, self =>
    match Cat fuel T h self [c, 0] with
    | some r => appendEach fuel T cs r.1 r.2
    | none => none

/-- The state of a handle after the elements `cs` were appended one at a
time to a handle without buffer: it alone owns a block whose capacity is the
least power of two that holds `cs`, with `cs` as content. -/
def Grown (T : CharT) (h : Heap) (self : ZXString) (cs : List Nat) : Prop :=
  ∃ q, self._m_pStr = some q ∧ q < h.next ∧ (h.mem q).nRef = 1 ∧
    (h.mem q).nCap = 2 ^ Nat.clog 2 cs.length ∧
    (h.mem q).nByteLen = (cs.length : Int) * T.sizeof ∧
    ((h.mem q).pStr.length : Int) = (h.mem q).nCap + 1 ∧
    (h.mem q).pStr.take cs.length = cs

instance Valid.decidable (h : Heap) (self : ZXString) : Decidable (Valid h self) := by
  unfold Valid
  split <;> infer_instance

instance WellFormed.decidable (T : CharT) (h : Heap) (self : ZXString) :
    Decidable (WellFormed T h self) := by
  unfold WellFormed
  split <;> infer_instance

instance occursAt.decidable (p c : List Nat) (i : Nat) : Decidable (occursAt p c i) := by
  unfold occursAt
  infer_instance

instance _FormatV.Inv.decidable (T : CharT) (h : Heap) (s : ZXString) (i : Int) :
    Decidable (_FormatV.Inv T h s i) := by
  unfold _FormatV.Inv
  split <;> infer_instance


/-- A heap with one block, at address `0`: the wide string "abc" in a block of capacity
`3` owned by one handle. -/
def heapW : Heap :=
  { mem := fun a =>
      if a = 0 then { nRef := 1, nCap := 3, nByteLen := 6, pStr := [97, 98, 99, 0] } else default
    next := 1, freed := [], garbage := fun _ _ => 7 }

/-- The invariants of a block: a capacity that is not negative, a byte length within the
capacity, and a terminator at the element offset `nByteLen / sizeof(T)`. -/
def BlockInv (T : CharT) (d : _ZXStringData) : Prop :=
  0 ≤ d.nCap ∧ d.nByteLen ≤ d.nCap * T.sizeof ∧
    0 ≤ d.nByteLen / T.sizeof ∧ d.pStr.get? (d.nByteLen / T.sizeof).toNat = some 0

/-- Every live block, one that was allocated and not freed, satisfies the invariants. -/
def HeapInv (T : CharT) (h : Heap) : Prop :=
  ∀ p, p < h.next → p ∉ h.freed → BlockInv T (h.mem p)

/-- The block of the handle, if it has one, was not freed. -/
def Live (h : Heap) (self : ZXString) : Prop :=
  match self._m_pStr with
  | some p => p ∉ h.freed
  | none => True

/-- The write cycle the mutating operations share: check the storage out with
`GetBuffer(m, b)`, copy `k` elements of `src` to offset `off`, commit the length `c` with
`ReleaseBuffer`. -/
def cycle (T : CharT) (h : Heap) (self : ZXString) (m : Int) (b : Bool) (off : Int)
    (src : List Nat) (k c : Int) : Heap × ZXString :=
  (ReleaseBuffer T (copyIn (GetBuffer T h self m b).1 (GetBuffer T h self m b).2 off src k)
    (GetBuffer T h self m b).2 c, (GetBuffer T h self m b).2)

instance BlockInv.decidable (T : CharT) (d : _ZXStringData) : Decidable (BlockInv T d) := by
  unfold BlockInv
  infer_instance

instance HeapInv.decidable (T : CharT) (h : Heap) : Decidable (HeapInv T h) := by
  unfold HeapInv
  infer_instance

instance Live.decidable (h : Heap) (self : ZXString) : Decidable (Live h self) := by
  unfold Live
  split <;> infer_instance

/-- The number of handles of the list attached to the block `p`. -/
def sharers (hs : List ZXString) (p : Nat) : Nat :=
  hs.countP (fun x => decide (x._m_pStr = some p))

/-- The reference counts agree with the handles `hs` alive: a block was freed exactly
when it was allocated and no handle is attached to it, the count of an allocated block
is the number of handles attached to it, and no handle points to a block that was not
allocated. -/
def RcInv (h : Heap) (hs : List ZXString) : Prop :=
  ∀ p, (p ∈ h.freed ↔ p < h.next ∧ sharers hs p = 0) ∧
    (p < h.next → (h.mem p).nRef = sharers hs p) ∧
    (h.next ≤ p → sharers hs p = 0)

/-- The states reached from no handles by completed handle operations: the heap and the
handles alive.  An operation works on any handle alive; a new handle is an object at an
address no handle alive has. -/
inductive Reachable (T : CharT) : Heap → List ZXString → Prop
  | start (h : Heap) : h.next = 0 → h.freed = [] → Reachable T h []
  | constructed (h : Heap) (hs : List ZXString) (addr : Nat) :
    Reachable T h hs → (∀ y ∈ hs, y.this ≠ addr) →
    Reachable T h ({ this := addr, _m_pStr := none } :: hs)
  | fromPtr (h : Heap) (hs : List ZXString) (addr : Nat) (s : Option (List Nat)) (n : Int) :
    Reachable T h hs → (∀ y ∈ hs, y.this ≠ addr) →
    Reachable T (ofPtr T h addr s n).1 ((ofPtr T h addr s n).2 :: hs)
  | copied (h : Heap) (hs : List ZXString) (addr : Nat) (a : ZXString) :
    Reachable T h hs → (∀ y ∈ hs, y.this ≠ addr) → a ∈ hs →
    Reachable T (copy T h addr a).1 ((copy T h addr a).2 :: hs)
  | assigned (h : Heap) (hs : List ZXString) (x : ZXString) (rest : List ZXString)
    (s : Option (List Nat)) (n : Int) :
    Reachable T h hs → hs.Perm (x :: rest) →
    Reachable T (Assign T h x s n).1 ((Assign T h x s n).2 :: rest)
  | copyFrom (h : Heap) (hs : List ZXString) (x : ZXString) (rest : List ZXString)
    (a : ZXString) :
    Reachable T h hs → hs.Perm (x :: rest) → a ∈ hs →
    Reachable T (assign T h x a).1 ((assign T h x a).2 :: rest)
  | appended (h : Heap) (hs : List ZXString) (x : ZXString) (rest : List ZXString)
    (fuel : Nat) (s : Option (List Nat)) (n : Int) (r : Heap × ZXString) :
    Reachable T h hs → hs.Perm (x :: rest) → _Cat fuel T h x s n = some r →
    Reachable T r.1 (r.2 :: rest)
  | formatted (h : Heap) (hs : List ZXString) (x : ZXString) (rest : List ZXString)
    (P : Int → Int × List Nat) (r : Heap × ZXString) :
    Reachable T h hs → hs.Perm (x :: rest) → Format T P h x = some r →
    Reachable T r.1 (r.2 :: rest)
  | destroyed (h : Heap) (hs : List ZXString) (x : ZXString) (rest : List ZXString) :
    Reachable T h hs → hs.Perm (x :: rest) → Reachable T (destroy h x) rest

end ZXString

namespace CRTTI

/-- The `k`-th ancestor of the descriptor at `x`: `x` itself for `k = 0`,
and `none` when the chain ends before.  The descriptors of `src/wvs/rtti.h`
live at addresses; `m_pPrev a` is the field `m_pPrev` of the descriptor at
address `a`, `none` for the null pointer. -/
def ancestor (m_pPrev : Nat → Option Nat) : Nat → Nat → Option Nat
  | 0, x => some x
  | k + 1, x =>
    match m_pPrev x with
    | some p => ancestor m_pPrev k p
    | none => none

/-- The loop of `IsKindOf`, entered with `result.m_pPrev = cur`; `none` when `fuel`
iterations do not end it, or when it follows a null pointer. -/
def IsKindOf.loop (m_pPrev : Nat → Option Nat) : Nat → Option Nat → Option Nat → Option Int
  | fuel, cur, pRTTI =>
    if cur ≠ pRTTI then
      match fuel, cur with
      | 0, _ => none
      | _ + 1, none => none
      | fuel + 1, some c =>
        if m_pPrev c = none then some 0
        else IsKindOf.loop m_pPrev fuel (m_pPrev c) pRTTI
    else some 1

/-- `IsKindOf(pRTTI)` on the descriptor at address `this`. -/
def IsKindOf (fuel : Nat) (m_pPrev : Nat → Option Nat) (this : Nat) (pRTTI : Option Nat) :
    Option Int :=
  IsKindOf.loop m_pPrev fuel (some this) pRTTI

/-- The chain `0 → 1 → 2` of three descriptors; every other address holds a root. -/
def chain3 : Nat → Option Nat :=
  fun a => if a = 0 then some 1 else if a = 1 then some 2 else none

end CRTTI

open CRTTI

/-! ## Auxiliary lemmas -/

/-- The length of a string stored with its terminator. -/
theorem ZStrUtil.Len_append_zero (s tl : List Nat) (hs : ∀ c ∈ s, c ≠ 0) :
    Len (s ++ 0 :: tl) = s.length := by
  induction s with
  | nil => simp [Len]
  | cons c cs ih =>
    have hc : c ≠ 0 := hs c (by simp)
    have := ih (fun x hx => hs x (by simp [hx]))
    simp [Len, hc, this]

theorem ZStrUtil.Len_le_length (s : List Nat) : Len s ≤ s.length := by
  induction s with
  | nil => simp [Len]
  | cons c cs ih =>
    simp only [Len]; split <;> simp; omega

theorem ZXString.readN_eq_take (src : List Nat) (n : Nat) (hn : n ≤ src.length) :
    readN src n = src.take n := by
  simp [readN, List.take_append_of_le_length hn]

theorem ZXString.length_readN (src : List Nat) (n : Nat) : (readN src n).length = n := by
  simp [readN]

theorem ZXString.length_writeAt (dst : List Nat) (off : Nat) (vals : List Nat) :
    (writeAt dst off vals).length = dst.length := by
  simp [writeAt]; omega

theorem ZXString.writeAt_eq (dst : List Nat) (off : Nat) (vals : List Nat)
    (hle : off + vals.length ≤ dst.length) :
    writeAt dst off vals = dst.take off ++ vals ++ dst.drop (off + vals.length) := by
  unfold writeAt
  apply List.take_of_length_le
  simp; omega

theorem ZStrUtil.CharT.sizeof_pos (T : CharT) : 0 < T.sizeof := by
  cases T <;> decide

theorem ZStrUtil.CharT.mul_sizeof_ediv (T : CharT) (n : Int) :
    n * (T.sizeof : Int) / (T.sizeof : Int) = n := by
  have h : (T.sizeof : Int) ≠ 0 := by
    have := T.sizeof_pos
    omega
  exact Int.mul_ediv_cancel n h

/-- The storage after `n` elements of `src` are copied to offset `off` and the length
`off + n` is committed. -/
theorem ZXString.commit_mem (T : CharT) (h : Heap) (self : ZXString) (q off n : Nat)
    (src : List Nat) (hq : self._m_pStr = some q) (hn : n ≤ src.length)
    (hlen : off + n + 1 ≤ (h.mem q).pStr.length) :
    (ReleaseBuffer T (copyIn h self off src n) self ((off + n : Nat) : Int)).mem q =
      { nRef := 1, nCap := (h.mem q).nCap, nByteLen := ((off + n : Nat) : Int) * T.sizeof,
        pStr := (h.mem q).pStr.take off ++ src.take n ++ 0 :: (h.mem q).pStr.drop (off + n + 1) } := by
  have hne : ((off + n : Nat) : Int) ≠ -1 := by omega
  simp only [ReleaseBuffer, copyIn, hq, store, hne, if_false, Function.update_same, memcpy, poke]
  have h0 : (0 : Int) ≤ (off : Int) := by omega
  have h1 : (0 : Int) ≤ ((off + n : Nat) : Int) := by omega
  simp only [h0, h1, if_true, Int.toNat_ofNat, _ZXStringData.mk.injEq, true_and]
  rw [readN_eq_take _ _ hn, writeAt_eq _ _ _ (by simp; omega)]
  simp only [List.length_take, Nat.min_eq_left hn]
  rw [List.append_assoc, List.set_append_right _ _ (by simp)]
  simp only [List.length_take]
  rw [Nat.min_eq_left (by omega)]
  rw [List.set_append_right _ _ (by simp)]
  simp only [List.length_take, Nat.min_eq_left hn, Nat.add_sub_cancel_left, Nat.sub_self]
  rw [List.drop_eq_getElem_cons (by omega : off + n < (h.mem q).pStr.length)]
  simp only [List.set_cons_zero, List.append_assoc]

/-- The second half of `GetBuffer` for a handle that owns a block, as an update of the heap. -/
theorem ZXString.fresh_some (T : CharT) (h : Heap) (self : ZXString) (p : Nat) (c n : Int)
    (b : Bool) (hp : p ≠ h.next) :
    GetBuffer.fresh T h self (some p) c n b =
      ({ mem := Function.update (Function.update h.mem h.next
            { nRef := -1, nCap := if c < n then n else c,
              nByteLen := if b then (h.mem p).nByteLen else 0,
              pStr := if b then memcpy (raw h h.next (if c < n then n else c)) 0 (h.mem p).pStr
                          (((h.mem p).nByteLen + T.sizeof) / T.sizeof)
                      else poke (raw h h.next (if c < n then n else c)) 0 0 })
            p { h.mem p with nRef := (h.mem p).nRef - 1 },
          next := h.next + 1,
          freed := if (h.mem p).nRef - 1 ≤ 0 then p :: h.freed else h.freed,
          garbage := h.garbage },
       { this := self.this, _m_pStr := some h.next }) := by
  cases b <;>
  simp [GetBuffer.fresh, _Alloc, store, _Release, _Free, Function.update_noteq hp, raw] <;>
  split <;> simp

/-- The second half of `GetBuffer` for a handle without buffer, as an update of the heap. -/
theorem ZXString.fresh_none (T : CharT) (h : Heap) (self : ZXString) (c n : Int) (b : Bool) :
    GetBuffer.fresh T h self none c n b =
      ({ mem := Function.update h.mem h.next
            { nRef := -1, nCap := if c < n then n else c, nByteLen := 0,
              pStr := poke (raw h h.next (if c < n then n else c)) 0 0 },
          next := h.next + 1, freed := h.freed, garbage := h.garbage },
       { this := self.this, _m_pStr := some h.next }) := by
  cases b <;> simp [GetBuffer.fresh, _Alloc, store, raw]

theorem ZXString.length_memcpy (dst : List Nat) (off : Int) (src : List Nat) (n : Int) :
    (memcpy dst off src n).length = dst.length := by
  unfold memcpy; split <;> simp [length_writeAt]

theorem ZXString.length_poke (dst : List Nat) (i : Int) (v : Nat) :
    (poke dst i v).length = dst.length := by
  unfold poke; split <;> simp

theorem ZXString.length_raw (h : Heap) (a : Nat) (nCap : Int) :
    (raw h a nCap).length = (nCap + 1).toNat := by
  simp [raw]

/-- After `GetBuffer(n, b)` the handle points into a block with room for `n` elements and
a terminator. -/
theorem ZXString.GetBuffer_room (T : CharT) (h : Heap) (self : ZXString) (n : Int) (b : Bool)
    (hv : Valid h self) (hn : 0 ≤ n) :
    ∃ q, (GetBuffer T h self n b).2 = { this := self.this, _m_pStr := some q } ∧
      n + 1 ≤ (((GetBuffer T h self n b).1.mem q).pStr.length : Int) := by
  unfold GetBuffer
  cases hp : self._m_pStr with
  | none =>
    refine ⟨h.next, ?_, ?_⟩
    · simp [fresh_none]
    · simp only [fresh_none, Function.update_same, length_poke, length_raw]
      split <;> omega
  | some p =>
    simp only [Valid, hp] at hv
    have hne : p ≠ h.next := by omega
    simp only
    split
    · next hc =>
      refine ⟨p, ?_, ?_⟩
      · cases self; simp_all
      · simp only [store, Function.update_same]; omega
    · refine ⟨h.next, ?_, ?_⟩
      · simp [fresh_some _ _ _ _ _ _ _ hne]
      · simp only [fresh_some _ _ _ _ _ _ _ hne, Function.update_noteq hne.symm,
          Function.update_same]
        cases b <;>
          simp only [length_poke, length_memcpy, length_raw, reduceIte, Bool.false_eq_true] <;>
          split <;> omega

/-- The doubling loop ends within the fuel when the capacity is positive. -/
theorem ZXString.grow_spec (fuel : Nat) (nCap nReq : Int) (hc : 1 ≤ nCap)
    (hf : nReq - nCap ≤ fuel) :
    ∃ j : Nat, _Cat.grow fuel nCap nReq = some (nCap * 2 ^ j) ∧ nReq ≤ nCap * 2 ^ j ∧
      ∀ i < j, nCap * 2 ^ i < nReq := by
  induction fuel generalizing nCap with
  | zero =>
    refine ⟨0, ?_, ?_, ?_⟩
    · have : ¬ nCap < nReq := by simp at hf; omega
      simp [_Cat.grow, this]
    · simp at hf ⊢; omega
    · intro i hi; omega
  | succ f ih =>
    by_cases hlt : nCap < nReq
    · obtain ⟨j, h1, h2, h3⟩ := ih (nCap * 2) (by omega) (by push_cast at hf; omega)
      refine ⟨j + 1, ?_, ?_, ?_⟩
      · simp only [_Cat.grow, hlt, if_true, h1, pow_succ]
        congr 1; ring
      · rw [pow_succ]; linarith [h2, mul_assoc nCap 2 (2 ^ j : Int), mul_comm (2 : Int) (2 ^ j)]
      · intro i hi
        cases i with
        | zero => simpa using hlt
        | succ i =>
          have := h3 i (by omega)
          rw [pow_succ]; linarith [this, mul_assoc nCap 2 (2 ^ i : Int), mul_comm (2 : Int) (2 ^ i)]
    · refine ⟨0, ?_, ?_, ?_⟩
      · simp [_Cat.grow, hlt]
      · simp; omega
      · intro i hi; omega
theorem ZXString.GetLength_eq (T : CharT) (h : Heap) (self : ZXString) (p len : Nat)
    (hq : self._m_pStr = some p) (hb : (h.mem p).nByteLen = (len : Int) * T.sizeof) :
    GetLength T h self = len := by
  simp only [GetLength, hq, hb, CharT.mul_sizeof_ediv]

/-- The elements carried over by a retaining `GetBuffer`: the `len` elements in use and the
element after them. -/
theorem ZXString.memcpy_retain (T : CharT) (G P : List Nat) (len : Nat)
    (hP : len + 1 ≤ P.length) (hG : len + 1 ≤ G.length) :
    memcpy G 0 P (((len : Int) * T.sizeof + T.sizeof) / T.sizeof) =
      P.take (len + 1) ++ G.drop (len + 1) := by
  have hs : ((len : Int) * T.sizeof + T.sizeof) / T.sizeof = ((len + 1 : Nat) : Int) := by
    have : ((len : Int) * T.sizeof + T.sizeof) = ((len + 1 : Nat) : Int) * T.sizeof := by
      push_cast; ring
    rw [this, CharT.mul_sizeof_ediv]
  rw [hs]
  simp only [memcpy, le_refl, if_true, Int.toNat_zero, Int.toNat_ofNat]
  rw [readN_eq_take _ _ hP, writeAt_eq _ _ _ (by simp; omega)]
  simp [Nat.min_eq_left hP]

/-- A retaining `GetBuffer` that cannot reuse the block in place. -/
theorem ZXString.GetBuffer_realloc_retain (T : CharT) (h : Heap) (self : ZXString)
    (p len : Nat) (m : Int) (hq : self._m_pStr = some p) (hp : p < h.next)
    (hno : ¬ ((h.mem p).nRef ≤ 1 ∧ (h.mem p).nCap ≥ m))
    (hb : (h.mem p).nByteLen = (len : Int) * T.sizeof) (hm : (len : Int) ≤ m)
    (hP : len + 1 ≤ (h.mem p).pStr.length) :
    GetBuffer T h self m true =
      ({ mem := Function.update (Function.update h.mem h.next
            { nRef := -1, nCap := m, nByteLen := (len : Int) * T.sizeof,
              pStr := (h.mem p).pStr.take (len + 1) ++ (raw h h.next m).drop (len + 1) })
            p { h.mem p with nRef := (h.mem p).nRef - 1 },
          next := h.next + 1,
          freed := if (h.mem p).nRef - 1 ≤ 0 then p :: h.freed else h.freed,
          garbage := h.garbage },
       { this := self.this, _m_pStr := some h.next }) := by
  have hne : p ≠ h.next := by omega
  have hcap : (if (len : Int) < m then m else (len : Int)) = m := by
    split <;> omega
  simp only [GetBuffer, hq, hno, if_false, fresh_some _ _ _ _ _ _ _ hne, hb,
    CharT.mul_sizeof_ediv, hcap, if_true]
  rw [memcpy_retain T _ _ len hP (by rw [length_raw]; omega)]
/-- Copying into the handle's storage and committing, as an update of the heap. -/
theorem ZXString.commit_eq (T : CharT) (h : Heap) (self : ZXString) (q off n : Nat)
    (src : List Nat) (hq : self._m_pStr = some q) (hn : n ≤ src.length)
    (hlen : off + n + 1 ≤ (h.mem q).pStr.length) :
    ReleaseBuffer T (copyIn h self off src n) self ((off + n : Nat) : Int) =
      { mem := Function.update h.mem q
          { nRef := 1, nCap := (h.mem q).nCap, nByteLen := ((off + n : Nat) : Int) * T.sizeof,
            pStr := (h.mem q).pStr.take off ++ src.take n ++
              0 :: (h.mem q).pStr.drop (off + n + 1) },
        next := h.next, freed := h.freed, garbage := h.garbage } := by
  have hm := commit_mem T h self q off n src hq hn hlen
  have hne : ((off + n : Nat) : Int) ≠ -1 := by omega
  simp only [ReleaseBuffer, copyIn, hq, store, hne, if_false, Function.update_same,
    Function.update_idem] at hm ⊢
  rw [hm]

/-- Appending to a non-empty handle whose block cannot be reused in place: the block is
shared, or too small. -/
theorem ZXString.Cat_realloc (fuel : Nat) (T : CharT) (h : Heap) (self : ZXString)
    (p len n : Nat) (src : List Nat)
    (hq : self._m_pStr = some p) (hp : p < h.next)
    (hl : ((h.mem p).pStr.length : Int) = (h.mem p).nCap + 1)
    (hb : (h.mem p).nByteLen = (len : Int) * T.sizeof) (hle : (len : Int) ≤ (h.mem p).nCap)
    (hne : IsEmpty h self = false) (hc : 1 ≤ (h.mem p).nCap)
    (hno : 2 ≤ (h.mem p).nRef ∨ (h.mem p).nCap < len + n)
    (hn0 : 0 < n) (hn : n ≤ src.length) (hf : (len : Int) + n - (h.mem p).nCap ≤ fuel) :
    ∃ j : Nat, ((len : Int) + n ≤ (h.mem p).nCap * 2 ^ j ∧
        ∀ i < j, (h.mem p).nCap * 2 ^ i < (len : Int) + n) ∧
      _Cat fuel T h self (some src) n =
        some ({ mem := Function.update (Function.update h.mem h.next
                  { nRef := 1, nCap := (h.mem p).nCap * 2 ^ j,
                    nByteLen := ((len + n : Nat) : Int) * T.sizeof,
                    pStr := (h.mem p).pStr.take len ++ src.take n ++
                      0 :: (raw h h.next ((h.mem p).nCap * 2 ^ j)).drop (len + n + 1) })
                  p { h.mem p with nRef := (h.mem p).nRef - 1 },
                next := h.next + 1,
                freed := if (h.mem p).nRef - 1 ≤ 0 then p :: h.freed else h.freed,
                garbage := h.garbage },
              { this := self.this, _m_pStr := some h.next }) := by
  obtain ⟨j, hj, hreq, hmin⟩ := grow_spec fuel (h.mem p).nCap ((len : Int) + n) hc hf
  refine ⟨j, ⟨hreq, hmin⟩, ?_⟩
  have hne' : p ≠ h.next := by omega
  have hn0' : (n : Int) ≠ 0 := by omega
  have hgl := GetLength_eq T h self p len hq hb
  have hno' : ¬ ((h.mem p).nRef ≤ 1 ∧ (h.mem p).nCap ≥ (h.mem p).nCap * 2 ^ j) := by
    rintro ⟨h1, h2⟩
    rcases hno with h3 | h3
    · omega
    · omega
  have hgb := GetBuffer_realloc_retain T h self p len ((h.mem p).nCap * 2 ^ j) hq hp hno' hb
    (by omega) (by omega)
  simp only [_Cat, hn0', ne_eq, not_false_eq_true, if_true, hne, Bool.false_eq_true, if_false,
    hgl, hq, hj, hgb, Option.getD_some]
  rw [GetLength_eq T _ _ h.next len rfl
    (by simp only [Function.update_noteq hne'.symm, Function.update_same])]
  have hcast : (len : Int) + n = ((len + n : Nat) : Int) := by push_cast; rfl
  rw [hcast, commit_eq T _ _ h.next len n src rfl hn
    (by simp only [Function.update_noteq hne'.symm, Function.update_same, List.length_append,
          List.length_take, List.length_drop, length_raw]; omega)]
  simp only [Function.update_noteq hne'.symm, Function.update_same, Option.some.injEq,
    Prod.mk.injEq, and_true, Heap.mk.injEq, true_and]
  rw [Function.update_comm hne', Function.update_idem]
  have hP : len + 1 ≤ (h.mem p).pStr.length := by omega
  have e1 : List.take len (List.take (len + 1) (h.mem p).pStr ++
      List.drop (len + 1) (raw h h.next ((h.mem p).nCap * 2 ^ j))) =
      List.take len (h.mem p).pStr := by
    rw [List.take_append_of_le_length (by simp; omega), List.take_take]
    congr 1; omega
  have e2 : List.drop (len + n + 1) (List.take (len + 1) (h.mem p).pStr ++
      List.drop (len + 1) (raw h h.next ((h.mem p).nCap * 2 ^ j))) =
      List.drop (len + n + 1) (raw h h.next ((h.mem p).nCap * 2 ^ j)) := by
    rw [List.drop_append_eq_append_drop, List.drop_eq_nil_of_le (by simp),
      List.nil_append, List.drop_drop, List.length_take, Nat.min_eq_left hP]
    congr 1; omega
  rw [e1, e2]
/-- What well-formedness says of the block of a handle that owns one. -/
theorem ZXString.WellFormed.unpack {T : CharT} {h : Heap} {self : ZXString} {p : Nat}
    (hwf : WellFormed T h self) (hq : self._m_pStr = some p) :
    ∃ len : Nat, p < h.next ∧ ((h.mem p).pStr.length : Int) = (h.mem p).nCap + 1 ∧
      (h.mem p).nByteLen = (len : Int) * T.sizeof ∧ (len : Int) ≤ (h.mem p).nCap ∧
      (h.mem p).pStr.get? len = some 0 ∧ GetLength T h self = len := by
  simp only [WellFormed, hq] at hwf
  obtain ⟨h1, h2, h3, h4, h5, h6⟩ := hwf
  have hs := T.sizeof_pos
  have hs' : (0 : Int) < T.sizeof := by omega
  have hdiv : (h.mem p).nByteLen / (T.sizeof : Int) * T.sizeof = (h.mem p).nByteLen :=
    Int.ediv_mul_cancel (Int.dvd_of_emod_eq_zero h4)
  have hnn : 0 ≤ (h.mem p).nByteLen / (T.sizeof : Int) := Int.ediv_nonneg h3 (by omega)
  refine ⟨((h.mem p).nByteLen / (T.sizeof : Int)).toNat, h1, h2, ?_, ?_, h6, ?_⟩
  · rw [Int.toNat_of_nonneg hnn, hdiv]
  · rw [Int.toNat_of_nonneg hnn]
    by_contra hlt
    push_neg at hlt
    have : ((h.mem p).nCap + 1) * (T.sizeof : Int) ≤
        (h.mem p).nByteLen / (T.sizeof : Int) * T.sizeof :=
      Int.mul_le_mul_of_nonneg_right (by omega) (by omega)
    rw [hdiv] at this
    nlinarith
  · simp only [GetLength, hq, Int.toNat_of_nonneg hnn]

/-- A non-empty well-formed handle has at least one element in use. -/
theorem ZXString.WellFormed.len_pos {h : Heap} {self : ZXString} {p len : Nat}
    (hq : self._m_pStr = some p) (hne : IsEmpty h self = false)
    (ht : (h.mem p).pStr.get? len = some 0) : 0 < len := by
  rcases Nat.eq_zero_or_pos len with h0 | h0
  · subst h0
    simp only [IsEmpty, hq] at hne
    cases hP : (h.mem p).pStr with
    | nil => simp [hP] at ht
    | cons c cs => simp [hP] at ht hne; omega
  · exact h0

/-- Sharing assignment: the source block is in a committed state. -/
theorem ZXString.assign_share (T : CharT) (h : Heap) (a b : ZXString) (p : Nat)
    (hab : b.this ≠ a.this) (hq : a._m_pStr = some p) (hr : 1 ≤ (h.mem p).nRef)
    (hb : b._m_pStr = some p → 2 ≤ (h.mem p).nRef) :
    (assign T h b a).2 = { this := b.this, _m_pStr := some p } ∧
      (assign T h b a).1.next = h.next ∧
      (∃ r, 2 ≤ r ∧ (assign T h b a).1.mem p = { h.mem p with nRef := r }) ∧
      (assign T h b a).1.freed.count p = h.freed.count p := by
  have h1 : (h.mem p).nRef ≠ -1 := by omega
  cases hbp : b._m_pStr with
  | none =>
    refine ⟨?_, ?_, ⟨(h.mem p).nRef + 1, by omega, ?_⟩, ?_⟩ <;>
      simp [assign, hab, hq, h1, hbp, store]
  | some p' =>
    by_cases hpp : p' = p
    · subst hpp
      have := hb hbp
      have hnf : ¬ ((h.mem p').nRef ≤ 0) := by omega
      refine ⟨?_, ?_, ⟨(h.mem p').nRef, by omega, ?_⟩, ?_⟩ <;>
        simp [assign, hab, hq, h1, hbp, _Release, store, hnf]
    · have hpp' : p ≠ p' := fun e => hpp e.symm
      refine ⟨?_, ?_, ⟨(h.mem p).nRef + 1, by omega, ?_⟩, ?_⟩ <;>
        simp only [assign, hab, hq, h1, hbp, _Release, store, _Free, if_false]
      · split <;> rfl
      · split <;> simp [Function.update_noteq hpp']
      · split <;> simp [List.count_cons, hpp]

/-! ## Assignment -/

/-- C1: for a handle in any state (no buffer, a uniquely owned buffer or a shared
one) and a string `s` without terminator, stored at the source pointer followed by
its terminator, `Assign(s)` with the length left to be scanned gives
`GetLength() = length(s)`, the elements of `s` as the elements in use, and a
terminator after them. -/
theorem ZXString.Assign_scanned_content (T : CharT) (h : Heap) (self : ZXString)
    (s tl : List Nat) (hv : Valid h self) (hs : ∀ c ∈ s, c ≠ 0) :
    GetLength T (Assign T h self (some (s ++ 0 :: tl)) (-1)).1
        (Assign T h self (some (s ++ 0 :: tl)) (-1)).2 = s.length ∧
      content T (Assign T h self (some (s ++ 0 :: tl)) (-1)).1
        (Assign T h self (some (s ++ 0 :: tl)) (-1)).2 = s ∧
      elemAt (Assign T h self (some (s ++ 0 :: tl)) (-1)).1
        (Assign T h self (some (s ++ 0 :: tl)) (-1)).2 s.length = some 0 := by
  obtain ⟨q, hq, hroom⟩ := GetBuffer_room T h self (s.length : Int) false hv (by omega)
  have hm := commit_mem T (GetBuffer T h self s.length false).1
    (GetBuffer T h self s.length false).2 q 0 s.length (s ++ 0 :: tl) (by rw [hq]) (by simp)
    (by omega)
  simp only [Nat.zero_add, Nat.cast_zero, hq] at hm
  simp only [Assign, Len_append_zero s tl hs, if_true, GetLength, content, elemAt, hq, hm]
  refine ⟨CharT.mul_sizeof_ediv T _, ?_, ?_⟩
  · rw [CharT.mul_sizeof_ediv]; simp
  · simp [List.getElem_append_right]

/-- Witness of C1: "ab" assigned to the handle of `heap1`, alone on its block. -/
theorem ZXString.Assign_scanned_content_witness :
    GetLength .char (Assign .char heap1 owner0 (some ([97, 98] ++ 0 :: [])) (-1)).1
        (Assign .char heap1 owner0 (some ([97, 98] ++ 0 :: [])) (-1)).2 = ([97, 98] : List Nat).length ∧
      content .char (Assign .char heap1 owner0 (some ([97, 98] ++ 0 :: [])) (-1)).1
        (Assign .char heap1 owner0 (some ([97, 98] ++ 0 :: [])) (-1)).2 = [97, 98] ∧
      elemAt (Assign .char heap1 owner0 (some ([97, 98] ++ 0 :: [])) (-1)).1
        (Assign .char heap1 owner0 (some ([97, 98] ++ 0 :: [])) (-1)).2
        (([97, 98] : List Nat).length) = some 0 :=
  ZXString.Assign_scanned_content .char heap1 owner0 [97, 98] []
    (by decide) (by decide)

/-! ## Copy independence -/

/-- C2: let `a` be a non-empty well-formed handle on the block `p`, in a committed
state (reference count at least 1, and at least 2 when `b` is attached to it too),
and `x` a non-empty string without terminator.  After `b = a` and `b.Cat(x)` the
block of `a` has the same elements, byte length and capacity and has not been freed,
so `a` has the length and content it had, and `b` holds the content of `a` followed
by `x`, with length `|c| + |x|` and a terminator after it. -/
theorem ZXString.copy_Cat_independent (fuel : Nat) (T : CharT) (h : Heap) (a b : ZXString)
    (p : Nat)
    (x tl : List Nat)
    (hq : a._m_pStr = some p) (hwf : WellFormed T h a) (hne : ZXString.IsEmpty h a = false)
    (hr : 1 ≤ (h.mem p).nRef) (hb : b._m_pStr = some p → 2 ≤ (h.mem p).nRef)
    (hab : b.this ≠ a.this) (hx : x ≠ []) (hx0 : ∀ c ∈ x, c ≠ 0)
    (hf : GetLength T h a + x.length ≤ fuel) :
    ∃ h' b', Cat fuel T (assign T h b a).1 (assign T h b a).2 (x ++ 0 :: tl) = some (h', b') ∧
      GetLength T h' a = GetLength T h a ∧ content T h' a = content T h a ∧
      (h'.mem p).pStr = (h.mem p).pStr ∧ (h'.mem p).nByteLen = (h.mem p).nByteLen ∧
      (h'.mem p).nCap = (h.mem p).nCap ∧ h'.freed.count p = h.freed.count p ∧
      content T h' b' = content T h a ++ x ∧
      GetLength T h' b' = GetLength T h a + x.length ∧
      elemAt h' b' (GetLength T h' b') = some 0 := by
  obtain ⟨len, hp, hl, hbl, hle, ht, hgl⟩ := hwf.unpack hq
  have hpos := WellFormed.len_pos hq hne ht
  obtain ⟨hb1, hnext, ⟨r, hr2, hmem⟩, hfreed⟩ := assign_share T h a b p hab hq hr hb
  have hxl : 0 < x.length := List.length_pos.mpr hx
  rcases hR : assign T h b a with ⟨⟨m1, n1, f1, g1⟩, b1⟩
  simp only [hR] at hb1 hnext hmem hfreed ⊢
  subst hnext hb1
  have hne1 : ZXString.IsEmpty { mem := m1, next := h.next, freed := f1, garbage := g1 }
      { this := b.this, _m_pStr := some p } = false := by
    simp only [ZXString.IsEmpty, hmem]
    simpa only [ZXString.IsEmpty, hq] using hne
  obtain ⟨j, -, hcat⟩ := Cat_realloc fuel T { mem := m1, next := h.next, freed := f1, garbage := g1 }
    { this := b.this, _m_pStr := some p } p len x.length
    (x ++ 0 :: tl) rfl hp (by simp only [hmem]; exact hl) (by simp only [hmem]; exact hbl)
    (by simp only [hmem]; exact hle) hne1 (by simp only [hmem]; omega)
    (Or.inl (by simp only [hmem]; exact hr2)) hxl (by simp)
    (by simp only [hmem]; omega)
  have hpn : p ≠ h.next := by omega
  have hnf : ¬ (r - 1 ≤ 0) := by omega
  simp only [Cat, Len_append_zero x tl hx0]
  rw [hcat]
  refine ⟨_, _, rfl, ?_⟩
  simp only [GetLength, content, elemAt, hq, hmem, Function.update_same,
    Function.update_noteq hpn.symm, hnf, if_false, hfreed, true_and, hbl,
    CharT.mul_sizeof_ediv, Int.toNat_ofNat]
  have hlen : len ≤ (h.mem p).pStr.length := by omega
  refine ⟨?_, ?_, ?_⟩
  · rw [List.take_append_of_le_length (by simp; omega)]
    simp [List.take_append_eq_append_take, Nat.min_eq_left hlen]
  · push_cast; rfl
  · have h0 : (0 : Int) ≤ ((len + x.length : Nat) : Int) := by omega
    simp only [h0, if_true]
    rw [List.get?_eq_getElem?, List.getElem?_append_right (by simp)]
    simp [Nat.min_eq_left hlen]

/-- Witness of C2: `null1 = owner0` on `heap1`, then "c" appended. -/
theorem ZXString.copy_Cat_independent_witness :
    ∃ h' b', Cat 3 .char (assign .char heap1 null1 owner0).1 (assign .char heap1 null1 owner0).2
        ([99] ++ 0 :: []) = some (h', b') ∧
      GetLength .char h' owner0 = GetLength .char heap1 owner0 ∧
      content .char h' owner0 = content .char heap1 owner0 ∧
      (h'.mem 0).pStr = (heap1.mem 0).pStr ∧ (h'.mem 0).nByteLen = (heap1.mem 0).nByteLen ∧
      (h'.mem 0).nCap = (heap1.mem 0).nCap ∧ h'.freed.count 0 = heap1.freed.count 0 ∧
      content .char h' b' = content .char heap1 owner0 ++ [99] ∧
      GetLength .char h' b' = GetLength .char heap1 owner0 + ([99] : List Nat).length ∧
      elemAt h' b' (GetLength .char h' b') = some 0 :=
  ZXString.copy_Cat_independent 3 .char heap1 owner0 null1 0 [99] [] rfl
    (by decide) (by decide) (by decide)
    (by decide) (by decide) (by decide) (by decide) (by decide)

/-! ## Reference counting -/

/-- The constructor from a non-null pointer attaches the handle to a fresh block with
reference count 1 and frees nothing. -/
theorem ZXString.ofPtr_spec (T : CharT) (h : Heap) (addr : Nat) (src : List Nat) (n : Int) :
    (ofPtr T h addr (some src) n).2 = { this := addr, _m_pStr := some h.next } ∧
      (ofPtr T h addr (some src) n).1.next = h.next + 1 ∧
      (ofPtr T h addr (some src) n).1.freed = h.freed ∧
      ((ofPtr T h addr (some src) n).1.mem h.next).nRef = 1 := by
  refine ⟨?_, ?_, ?_, ?_⟩ <;>
    simp only [ofPtr, Assign, GetBuffer, fresh_none, ReleaseBuffer, copyIn, store] <;>
    split <;> simp

/-- Copy construction from a handle on a committed block adds one reference per copy. -/
theorem ZXString.copyEach_spec (T : CharT) (a : ZXString) (p : Nat) (hq : a._m_pStr = some p)
    (addrs : List Nat) (hd : ∀ x ∈ addrs, x ≠ a.this) (h : Heap) (hr : 1 ≤ (h.mem p).nRef) :
    (copyEach T h a addrs).1.freed = h.freed ∧
      (copyEach T h a addrs).1.next = h.next ∧
      ((copyEach T h a addrs).1.mem p).nRef = (h.mem p).nRef + addrs.length ∧
      (copyEach T h a addrs).2.length = addrs.length ∧
      ∀ b ∈ (copyEach T h a addrs).2, b._m_pStr = some p := by
  induction addrs generalizing h with
  | nil => simp [copyEach]
  | cons x xs ih =>
    have hx : x ≠ a.this := hd x (by simp)
    have hne : (h.mem p).nRef ≠ -1 := by omega
    have hc : copy T h x a =
        (store h p { h.mem p with nRef := (h.mem p).nRef + 1 },
          { this := x, _m_pStr := some p }) := by
      simp [copy, assign, hx, hq, hne]
    obtain ⟨h1, h2, h3, h4, h5⟩ := ih (fun y hy => hd y (by simp [hy]))
      (store h p { h.mem p with nRef := (h.mem p).nRef + 1 })
      (by simp only [store, Function.update_same]; omega)
    simp only [copyEach, hc]
    refine ⟨h1, h2, ?_, ?_, ?_⟩
    · rw [h3]; simp only [store, Function.update_same, List.length_cons]; push_cast; ring
    · simp [h4]
    · intro b hb
      rcases List.mem_cons.mp hb with rfl | hb
      · rfl
      · exact h5 b hb

/-- Destroying handles that all point at one block: nothing is freed while references
are left, and the block is freed by the destruction that drops the last one. -/
theorem ZXString.destroyAll_spec (p : Nat) (xs : List ZXString)
    (hall : ∀ x ∈ xs, x._m_pStr = some p) (h : Heap) :
    (((xs.length : Int) < (h.mem p).nRef →
        (destroyAll h xs).freed = h.freed ∧
          ((destroyAll h xs).mem p).nRef = (h.mem p).nRef - xs.length)) ∧
      (0 < xs.length → (xs.length : Int) = (h.mem p).nRef →
        (destroyAll h xs).freed = p :: h.freed) := by
  induction xs generalizing h with
  | nil => simp [destroyAll]
  | cons x xs ih =>
    have hx : x._m_pStr = some p := hall x (by simp)
    obtain ⟨ih1, ih2⟩ := ih (fun y hy => hall y (by simp [hy])) (destroy h x)
    constructor
    · intro hlt
      simp only [List.length_cons] at hlt
      push_cast at hlt
      have hnf : ¬ ((h.mem p).nRef - 1 ≤ 0) := by omega
      have hd : destroy h x = store h p { h.mem p with nRef := (h.mem p).nRef - 1 } := by
        simp [destroy, hx, _Release, hnf]
      rw [hd] at ih1
      simp only [store, Function.update_same] at ih1
      obtain ⟨e1, e2⟩ := ih1 (by omega)
      simp only [destroyAll, hd, store, List.length_cons]
      refine ⟨e1, ?_⟩
      rw [e2]; push_cast; ring
    · intro _ heq
      simp only [List.length_cons] at heq
      push_cast at heq
      rcases Nat.eq_zero_or_pos xs.length with h0 | h0
      · have hnil : xs = [] := List.length_eq_zero.mp h0
        subst hnil
        have hf : (h.mem p).nRef - 1 ≤ 0 := by simp at heq; omega
        simp [destroyAll, destroy, hx, _Release, hf, _Free, store]
      · have hnf : ¬ ((h.mem p).nRef - 1 ≤ 0) := by omega
        have hd : destroy h x = store h p { h.mem p with nRef := (h.mem p).nRef - 1 } := by
          simp [destroy, hx, _Release, hnf]
        rw [hd] at ih2
        simp only [store, Function.update_same] at ih2
        have := ih2 h0 (by omega)
        simp only [destroyAll, hd, store]
        exact this

/-- C3: a handle created from a string owns a fresh block with reference count 1;
after `n` copy constructions from it the count of the block is `n + 1`; and when the
`n + 1` handles are destroyed in any order `hs`, nothing is freed by the first `j`
destructions for `j < n + 1` (the count is then `n + 1 - j`), and after the last one
the allocator has been asked to free exactly that block, once. -/
theorem ZXString.refcount_integrity (T : CharT) (h : Heap) (addr : Nat) (src : List Nat)
    (n : Int)
    (addrs : List Nat) (hs : List ZXString) (hd : ∀ x ∈ addrs, x ≠ addr)
    (hperm : hs.Perm ((ofPtr T h addr (some src) n).2 ::
      (copyEach T (ofPtr T h addr (some src) n).1 (ofPtr T h addr (some src) n).2 addrs).2)) :
    (ofPtr T h addr (some src) n).2._m_pStr = some h.next ∧
    ((copyEach T (ofPtr T h addr (some src) n).1 (ofPtr T h addr (some src) n).2 addrs).1.mem
        h.next).nRef = addrs.length + 1 ∧
      (∀ j, j < addrs.length + 1 →
        (destroyAll (copyEach T (ofPtr T h addr (some src) n).1
            (ofPtr T h addr (some src) n).2 addrs).1 (hs.take j)).freed = h.freed ∧
          ((destroyAll (copyEach T (ofPtr T h addr (some src) n).1
            (ofPtr T h addr (some src) n).2 addrs).1 (hs.take j)).mem h.next).nRef =
            addrs.length + 1 - j) ∧
      (destroyAll (copyEach T (ofPtr T h addr (some src) n).1
          (ofPtr T h addr (some src) n).2 addrs).1 hs).freed = h.next :: h.freed := by
  obtain ⟨ha, hnext, hfreed, href⟩ := ofPtr_spec T h addr src n
  have hq : (ofPtr T h addr (some src) n).2._m_pStr = some h.next := by rw [ha]
  obtain ⟨c1, c2, c3, c4, c5⟩ := copyEach_spec T (ofPtr T h addr (some src) n).2 h.next hq addrs
    (by rw [ha]; exact hd) (ofPtr T h addr (some src) n).1 (by omega)
  rw [href] at c3
  rw [hfreed] at c1
  have hall : ∀ x ∈ hs, x._m_pStr = some h.next := by
    intro x hx
    rcases List.mem_cons.mp ((hperm.mem_iff).mp hx) with rfl | hx'
    · exact hq
    · exact c5 x hx'
  have hlen : hs.length = addrs.length + 1 := by
    rw [hperm.length_eq, List.length_cons, c4]
  refine ⟨hq, by rw [c3]; ring, ?_, ?_⟩
  · intro j hj
    have hj' : (hs.take j).length = j := by simp; omega
    obtain ⟨d1, -⟩ := destroyAll_spec h.next (hs.take j)
      (fun x hx => hall x (List.mem_of_mem_take hx))
      (copyEach T (ofPtr T h addr (some src) n).1 (ofPtr T h addr (some src) n).2 addrs).1
    rw [hj', c3, c1] at d1
    obtain ⟨e1, e2⟩ := d1 (by omega)
    exact ⟨e1, by rw [e2]; ring⟩
  · obtain ⟨-, d2⟩ := destroyAll_spec h.next hs hall
      (copyEach T (ofPtr T h addr (some src) n).1 (ofPtr T h addr (some src) n).2 addrs).1
    rw [hlen, c3, c1] at d2
    exact d2 (by omega) (by push_cast; ring)

/-- Witness of C3: two copies of a handle on "a", destroyed in the reverse order of
their creation. -/
theorem ZXString.refcount_integrity_witness :
    (ofPtr .char heap0 0 (some [97, 0]) (-1)).2._m_pStr = some heap0.next ∧
    ((copyEach .char (ofPtr .char heap0 0 (some [97, 0]) (-1)).1
        (ofPtr .char heap0 0 (some [97, 0]) (-1)).2 [1, 2]).1.mem heap0.next).nRef =
        ([1, 2] : List Nat).length + 1 ∧
      (∀ j, j < ([1, 2] : List Nat).length + 1 →
        (destroyAll (copyEach .char (ofPtr .char heap0 0 (some [97, 0]) (-1)).1
            (ofPtr .char heap0 0 (some [97, 0]) (-1)).2 [1, 2]).1
            ((List.reverse ((ofPtr .char heap0 0 (some [97, 0]) (-1)).2 ::
              (copyEach .char (ofPtr .char heap0 0 (some [97, 0]) (-1)).1
                (ofPtr .char heap0 0 (some [97, 0]) (-1)).2 [1, 2]).2)).take j)).freed =
            heap0.freed ∧
          ((destroyAll (copyEach .char (ofPtr .char heap0 0 (some [97, 0]) (-1)).1
            (ofPtr .char heap0 0 (some [97, 0]) (-1)).2 [1, 2]).1
            ((List.reverse ((ofPtr .char heap0 0 (some [97, 0]) (-1)).2 ::
              (copyEach .char (ofPtr .char heap0 0 (some [97, 0]) (-1)).1
                (ofPtr .char heap0 0 (some [97, 0]) (-1)).2 [1, 2]).2)).take j)).mem
            heap0.next).nRef = ([1, 2] : List Nat).length + 1 - j) ∧
      (destroyAll (copyEach .char (ofPtr .char heap0 0 (some [97, 0]) (-1)).1
          (ofPtr .char heap0 0 (some [97, 0]) (-1)).2 [1, 2]).1
          (List.reverse ((ofPtr .char heap0 0 (some [97, 0]) (-1)).2 ::
            (copyEach .char (ofPtr .char heap0 0 (some [97, 0]) (-1)).1
              (ofPtr .char heap0 0 (some [97, 0]) (-1)).2 [1, 2]).2))).freed =
        heap0.next :: heap0.freed :=
  ZXString.refcount_integrity .char heap0 0 [97, 0] (-1) [1, 2] _ (by decide)
    (List.reverse_perm _)

/-! ## Search -/

/-- The characters of a string stored with its terminator. -/
theorem ZStrUtil.cstr_append_zero (s tl : List Nat) (hs : ∀ c ∈ s, c ≠ 0) :
    cstr (s ++ 0 :: tl) = s := by
  induction s with
  | nil => simp [cstr]
  | cons c cs ih =>
    have hc : c ≠ 0 := hs c (by simp)
    simp [cstr, hc, ih (fun x hx => hs x (by simp [hx]))]

/-- What `search` finds: nothing when `pat` occurs nowhere in `hay`, and otherwise the
offset of the first occurrence. -/
theorem ZStrUtil.search_spec (pat hay : List Nat) :
    (search pat hay = none ∧ ∀ i, ¬ pat <+: hay.drop i) ∨
      ∃ i, search pat hay = some i ∧ pat <+: hay.drop i ∧ ∀ k < i, ¬ pat <+: hay.drop k := by
  induction hay with
  | nil =>
    by_cases hp : pat = []
    · right; exact ⟨0, by simp [search, hp], by simp [hp], by simp⟩
    · left; exact ⟨by simp [search, hp], by simp [hp]⟩
  | cons c cs ih =>
    by_cases hpre : pat <+: c :: cs
    · right
      refine ⟨0, ?_, by simpa using hpre, by simp⟩
      simp [search, List.isPrefixOf_iff_prefix, hpre]
    · have hb : pat.isPrefixOf (c :: cs) = false := by
        rw [Bool.eq_false_iff]; intro hh; exact hpre (List.isPrefixOf_iff_prefix.mp hh)
      rcases ih with ⟨hn, hall⟩ | ⟨i, hi, hocc, hmin⟩
      · left
        refine ⟨by simp [search, hb, hn], ?_⟩
        intro i
        cases i with
        | zero => simpa using hpre
        | succ i => simpa using hall i
      · right
        refine ⟨i + 1, by simp [search, hb, hi], by simpa using hocc, ?_⟩
        intro k hk
        cases k with
        | zero => simpa using hpre
        | succ k => simpa using hmin k (by omega)

/-- The storage of a well-formed block: the content, a terminator, and the rest. -/
theorem ZXString.pStr_split (P : List Nat) (len : Nat) (ht : P.get? len = some 0) :
    P = P.take len ++ 0 :: P.drop (len + 1) := by
  rw [List.get?_eq_getElem?] at ht
  obtain ⟨hlt, hget⟩ := List.getElem?_eq_some_iff.mp ht
  conv_lhs => rw [← List.take_append_drop len P, List.drop_eq_getElem_cons hlt, hget]

/-- C4, amended: for a well-formed handle that owns a buffer and whose content `c`
has no zero element, a non-empty pattern `pat` without terminator and a start with
`0 ≤ start ≤ length(c)`, `Find(pat, start)` returns the least index `i ≥ start`,
counted from the beginning of `c`, at which `pat` occurs in `c`, and `-1` exactly
when there is no such index. -/
theorem ZXString.Find_first_occurrence (T : CharT) (h : Heap) (self : ZXString) (p : Nat)
    (pat tl : List Nat)
    (start : Nat) (hq : self._m_pStr = some p) (hwf : WellFormed T h self)
    (hc : ∀ x ∈ content T h self, x ≠ 0) (hpat : pat ≠ []) (hpat0 : ∀ x ∈ pat, x ≠ 0)
    (hs : (start : Int) ≤ GetLength T h self) :
    FindSpec pat (content T h self) start (Find T h self (some (pat ++ 0 :: tl)) start) := by
  obtain ⟨len, hp, hl, hbl, hle, ht, hgl⟩ := hwf.unpack hq
  have hcon : content T h self = (h.mem p).pStr.take len := by
    simp only [content, hq, hgl, Int.toNat_ofNat]
  rw [hcon] at hc ⊢
  rw [hgl] at hs
  have hsl : start ≤ len := by omega
  have hlen : len < (h.mem p).pStr.length := by omega
  have hlen' : ((h.mem p).pStr.take len).length = len := by simp; omega
  obtain ⟨x, xs, rfl⟩ := List.exists_cons_of_ne_nil hpat
  have hx : x ≠ 0 := hpat0 x (by simp)
  have hdrop : (h.mem p).pStr.drop start =
      ((h.mem p).pStr.take len).drop start ++ 0 :: (h.mem p).pStr.drop (len + 1) := by
    conv_lhs => rw [pStr_split _ len ht]
    rw [List.drop_append_of_le_length (by omega)]
  have hstr : Str ((h.mem p).pStr.drop start) (x :: xs ++ 0 :: tl) =
      search (x :: xs) (((h.mem p).pStr.take len).drop start) := by
    rw [Str, hdrop, cstr_append_zero _ _ (fun c hc' => hc c (List.mem_of_mem_drop hc')),
      cstr_append_zero _ _ hpat0]
  simp only [Find, hq, List.cons_append, hx, if_false, Int.toNat_ofNat]
  rw [← List.cons_append, hstr]
  rcases search_spec (x :: xs) (((h.mem p).pStr.take len).drop start) with
    ⟨hn, hall⟩ | ⟨i, hi, hocc, hmin⟩
  · left
    refine ⟨by rw [hn], ?_⟩
    intro i hi hocc
    apply hall (i - start)
    simpa [occursAt, List.drop_drop, Nat.add_sub_cancel' hi, Nat.sub_add_cancel hi] using hocc
  · right
    refine ⟨start + i, by rw [hi]; push_cast; rfl, by omega, ?_, ?_⟩
    · simpa [occursAt, List.drop_drop, Nat.add_comm] using hocc
    · intro k hk1 hk2 hocc'
      apply hmin (k - start) (by omega)
      simpa [occursAt, List.drop_drop, Nat.add_sub_cancel' hk1, Nat.sub_add_cancel hk1]
        using hocc'

/-- Witness of C4, amended: `Find("bc", 0)` on the handle assigned "abcabc". -/
theorem ZXString.Find_first_occurrence_witness :
    FindSpec [98, 99]
      (content .char (Assign .char heap0 null0 (some [97, 98, 99, 97, 98, 99, 0]) (-1)).1
        (Assign .char heap0 null0 (some [97, 98, 99, 97, 98, 99, 0]) (-1)).2) 0
      (Find .char (Assign .char heap0 null0 (some [97, 98, 99, 97, 98, 99, 0]) (-1)).1
        (Assign .char heap0 null0 (some [97, 98, 99, 97, 98, 99, 0]) (-1)).2
        (some ([98, 99] ++ 0 :: [])) ((0 : Nat) : Int)) :=
  ZXString.Find_first_occurrence .char
    (Assign .char heap0 null0 (some [97, 98, 99, 97, 98, 99, 0]) (-1)).1
    (Assign .char heap0 null0 (some [97, 98, 99, 97, 98, 99, 0]) (-1)).2 0 [98, 99] [] 0
    (by decide) (by decide) (by decide) (by decide) (by decide) (by decide)

/-- The example of the specification: `Find("bc", 0)` on "abcabc" is `1`. -/
theorem ZXString.Find_bc_in_abcabc :
    Find .char (Assign .char heap0 null0 (some [97, 98, 99, 97, 98, 99, 0]) (-1)).1
      (Assign .char heap0 null0 (some [97, 98, 99, 97, 98, 99, 0]) (-1)).2
      (some [98, 99, 0]) 0 = 1 := by
  decide

/-- C4 as stated fails on content with an embedded terminator: the handle assigned the
four elements `a 0 b c` is well-formed and has them as its content, "bc" occurs in
the content at index 2, and `Find("bc", 0)` returns `-1`. -/
theorem ZXString.Find_embedded_terminator :
    (Assign .char heap0 null0 (some [97, 0, 98, 99]) 4).2._m_pStr = some 0 ∧
      WellFormed .char (Assign .char heap0 null0 (some [97, 0, 98, 99]) 4).1
        (Assign .char heap0 null0 (some [97, 0, 98, 99]) 4).2 ∧
      content .char (Assign .char heap0 null0 (some [97, 0, 98, 99]) 4).1
        (Assign .char heap0 null0 (some [97, 0, 98, 99]) 4).2 = [97, 0, 98, 99] ∧
      Find .char (Assign .char heap0 null0 (some [97, 0, 98, 99]) 4).1
        (Assign .char heap0 null0 (some [97, 0, 98, 99]) 4).2 (some [98, 99, 0]) 0 = -1 ∧
      occursAt [98, 99] [97, 0, 98, 99] 2 ∧
      ¬ FindSpec [98, 99]
        (content .char (Assign .char heap0 null0 (some [97, 0, 98, 99]) 4).1
          (Assign .char heap0 null0 (some [97, 0, 98, 99]) 4).2) 0
        (Find .char (Assign .char heap0 null0 (some [97, 0, 98, 99]) 4).1
          (Assign .char heap0 null0 (some [97, 0, 98, 99]) 4).2 (some [98, 99, 0]) 0) := by
  have hc : content .char (Assign .char heap0 null0 (some [97, 0, 98, 99]) 4).1
        (Assign .char heap0 null0 (some [97, 0, 98, 99]) 4).2 = [97, 0, 98, 99] := by decide
  have hf : Find .char (Assign .char heap0 null0 (some [97, 0, 98, 99]) 4).1
        (Assign .char heap0 null0 (some [97, 0, 98, 99]) 4).2 (some [98, 99, 0]) 0 = -1 := by
    decide
  have ho : occursAt [98, 99] [97, 0, 98, 99] 2 := by decide
  refine ⟨by decide, by decide, hc, hf, ho, ?_⟩
  rw [hc, hf]
  rintro (⟨-, hall⟩ | ⟨i, hi, -⟩)
  · exact hall 2 (by omega) ho
  · omega

/-- A well-formed handle whose content has no zero element is empty, in the sense of
`IsEmpty()`, exactly when its length is zero. -/
theorem ZXString.IsEmpty_iff_GetLength (T : CharT) (h : Heap) (self : ZXString)
    (hwf : WellFormed T h self) (hc : ∀ x ∈ content T h self, x ≠ 0) :
    ZXString.IsEmpty h self = true ↔ GetLength T h self = 0 := by
  cases hq : self._m_pStr with
  | none => simp [ZXString.IsEmpty, GetLength, hq]
  | some p =>
    obtain ⟨len, hp, hl, hbl, hle, ht, hgl⟩ := hwf.unpack hq
    have hcon : content T h self = (h.mem p).pStr.take len := by
      simp only [content, hq, hgl, Int.toNat_ofNat]
    rw [hcon] at hc
    rw [hgl]
    simp only [ZXString.IsEmpty, hq]
    cases hP : (h.mem p).pStr with
    | nil => simp [hP] at hl; omega
    | cons c cs =>
      rw [hP] at hc ht
      cases len with
      | zero => simp at ht; simp [ht]
      | succ m =>
        have : c ≠ 0 := hc c (by simp)
        simp [this]
        omega

/-- C5: for a null or empty pattern and every `start`, `Find` returns the current
length `GetLength()`, which is `0` on an empty handle: one that owns no buffer, one
of length zero, or a well-formed one without zero element in its content for which
`IsEmpty()` holds.  For a non-empty pattern on a handle that owns no buffer `Find`
returns `-1`. -/
theorem ZXString.Find_empty_pattern (T : CharT) (h : Heap) (self : ZXString) (start : Int) :
    (∀ s : Option (List Nat), (s = none ∨ s = some [] ∨ ∃ tl, s = some (0 :: tl)) →
      Find T h self s start = GetLength T h self ∧
        (self._m_pStr = none → Find T h self s start = 0) ∧
        (GetLength T h self = 0 → Find T h self s start = 0) ∧
        (ZXString.IsEmpty h self = true → WellFormed T h self →
          (∀ x ∈ content T h self, x ≠ 0) → Find T h self s start = 0)) ∧
      (∀ c cs, c ≠ 0 → self._m_pStr = none → Find T h self (some (c :: cs)) start = -1) := by
  constructor
  · intro s hs
    have hfind : Find T h self s start = GetLength T h self := by
      rcases hs with rfl | rfl | ⟨tl, rfl⟩ <;>
        cases hq : self._m_pStr <;> simp [Find, GetLength, hq]
    refine ⟨hfind, ?_, ?_, ?_⟩
    · intro hq; rw [hfind]; simp [GetLength, hq]
    · intro h0; rw [hfind, h0]
    · intro he hwf hc
      rw [hfind]
      exact (IsEmpty_iff_GetLength T h self hwf hc).mp he
  · intro c cs hc hq
    simp [Find, hq, hc]

/-! ## Formatted write -/

theorem ZStrUtil.CharT.ediv_lt_of_le_mul (T : CharT) (b c i : Int)
    (hb : b ≤ c * T.sizeof) (hc : c < i) : b / (T.sizeof : Int) < i := by
  have hs := T.sizeof_pos
  have hs' : (0 : Int) < T.sizeof := by omega
  have h1 : b / (T.sizeof : Int) ≤ c * T.sizeof / (T.sizeof : Int) :=
    Int.ediv_le_ediv hs' hb
  rw [CharT.mul_sizeof_ediv] at h1
  omega

/-- One pass through the body of the loop of `_FormatV`: a fresh block of capacity `i`
is allocated, written by the primitive and committed. -/
theorem ZXString.body_spec (T : CharT) (P : Int → Int × List Nat) (h : Heap) (s : ZXString)
    (i : Int) (hinv : _FormatV.Inv T h s i) (hi : 0 ≤ i) :
    (_FormatV.body T P h s i).2 = { this := s.this, _m_pStr := some h.next } ∧
      (_FormatV.body T P h s i).1.next = h.next + 1 ∧
      (_FormatV.body T P h s i).1.mem h.next =
        { nRef := 1, nCap := i,
          nByteLen := (if (P i).1 < 0 then 0 else (P i).1) * T.sizeof,
          pStr := poke (memcpy (poke (raw h h.next i) 0 0) 0 (P i).2 (P i).2.length)
            (if (P i).1 < 0 then 0 else (P i).1) 0 } := by
  have hr : (if (P i).1 < 0 then 0 else (P i).1) ≠ -1 := by split <;> omega
  cases hq : s._m_pStr with
  | none =>
    have hcap : (if (0 : Int) < i then i else 0) = i := by split <;> omega
    refine ⟨?_, ?_, ?_⟩ <;>
      simp [_FormatV.body, GetBuffer, hq, fresh_none, copyIn, ReleaseBuffer, store, hr, hcap]
  | some q =>
    simp only [_FormatV.Inv, hq] at hinv
    obtain ⟨h1, h2, h3, h4⟩ := hinv
    have hne : q ≠ h.next := by omega
    have hno : ¬ ((h.mem q).nRef ≤ 1 ∧ (h.mem q).nCap ≥ i) := by omega
    have hlt := T.ediv_lt_of_le_mul _ _ _ h4 h3
    refine ⟨?_, ?_, ?_⟩ <;>
      simp [_FormatV.body, GetBuffer, hq, hno, fresh_some _ _ _ _ _ _ _ hne, copyIn,
        ReleaseBuffer, store, hr, hlt, Function.update_noteq hne.symm]

/-- The invariant of the local handle holds again after a pass whose committed length is
at most the size tried. -/
theorem ZXString.body_inv (T : CharT) (P : Int → Int × List Nat) (h : Heap) (s : ZXString)
    (i : Int) (hinv : _FormatV.Inv T h s i) (hi : 0 < i)
    (hr : (if (P i).1 < 0 then 0 else (P i).1) ≤ i) :
    _FormatV.Inv T (_FormatV.body T P h s i).1 (_FormatV.body T P h s i).2 (i * 2) := by
  obtain ⟨b1, b2, b3⟩ := body_spec T P h s i hinv (by omega)
  simp only [_FormatV.Inv, b1, b2, b3]
  have hs := T.sizeof_pos
  refine ⟨by omega, trivial, by omega, ?_⟩
  exact Int.mul_le_mul_of_nonneg_right hr (by omega)

/-- The loop of `_FormatV` runs its body while the last result is negative and the size is
at most 1024. -/
theorem ZXString.loop_succ (T : CharT) (P : Int → Int × List Nat) (fuel : Nat)
    (i result : Int) (h : Heap) (s : ZXString) (tried : List Int) (hi : i ≤ 1024)
    (hres : result < 0) :
    _FormatV.loop T P (fuel + 1) i result h s tried =
      _FormatV.loop T P fuel (i * 2) (P i).1 (_FormatV.body T P h s i).1
        (_FormatV.body T P h s i).2 (tried ++ [i]) := by
  have : ¬ result ≥ 0 := by omega
  rw [_FormatV.loop]
  simp only [hi, if_true, this, if_false]

/-- The loop of `_FormatV` ends on a result that is not negative, or past the size 1024. -/
theorem ZXString.loop_stop (T : CharT) (P : Int → Int × List Nat) (fuel : Nat)
    (i result : Int) (h : Heap) (s : ZXString) (tried : List Int)
    (hstop : 0 ≤ result ∨ 1024 < i) :
    _FormatV.loop T P fuel i result h s tried = some (h, s, tried) := by
  by_cases hi : i ≤ 1024
  · have : result ≥ 0 := by omega
    cases fuel <;> simp [_FormatV.loop, hi, this]
  · cases fuel <;> simp [_FormatV.loop, hi]

/-- The loop of `_FormatV` after `m` failing attempts followed by an attempt that ends
it: the result is the state left by the body at the last size. -/
theorem ZXString.loop_spec (T : CharT) (P : Int → Int × List Nat) (m : Nat) :
    ∀ (fuel : Nat) (i result : Int) (h : Heap) (s : ZXString) (tried : List Int),
      _FormatV.Inv T h s i → 0 < i → result < 0 → i * 2 ^ m ≤ 1024 →
      (∀ k < m, (P (i * 2 ^ k)).1 < 0) →
      (0 ≤ (P (i * 2 ^ m)).1 ∨ 1024 < i * 2 ^ (m + 1)) → m < fuel →
      ∃ hL sL, _FormatV.Inv T hL sL (i * 2 ^ m) ∧ h.next ≤ hL.next ∧ sL.this = s.this ∧
        _FormatV.loop T P fuel i result h s tried =
          some ((_FormatV.body T P hL sL (i * 2 ^ m)).1, (_FormatV.body T P hL sL (i * 2 ^ m)).2,
            tried ++ (List.range (m + 1)).map (fun k => i * 2 ^ k)) := by
  induction m with
  | zero =>
    intro fuel i result h s tried hinv hi hres hle _ hstop hf
    obtain ⟨f, rfl⟩ : ∃ f, fuel = f + 1 := ⟨fuel - 1, by omega⟩
    simp only [pow_zero, mul_one, zero_add, pow_one] at hle hstop ⊢
    refine ⟨h, s, hinv, le_refl _, rfl, ?_⟩
    rw [loop_succ T P f i result h s tried hle hres, loop_stop T P f _ _ _ _ _ hstop]
    simp [List.range_succ]
  | succ m ih =>
    intro fuel i result h s tried hinv hi hres hle hfail hstop hf
    obtain ⟨f, rfl⟩ : ∃ f, fuel = f + 1 := ⟨fuel - 1, by omega⟩
    have hpow : ∀ k : Nat, i * 2 * 2 ^ k = i * 2 ^ (k + 1) := by
      intro k; rw [pow_succ]; ring
    have h0 : (P i).1 < 0 := by simpa using hfail 0 (by omega)
    have hpos : (0 : Int) < 2 ^ (m + 1) := by positivity
    have hi1024 : i ≤ 1024 := by nlinarith
    have hinv' := body_inv T P h s i hinv hi (by simp only [h0, if_true]; omega)
    obtain ⟨b1, b2, b3⟩ := body_spec T P h s i hinv (by omega)
    obtain ⟨hL, sL, l1, l2, l3, l4⟩ := ih f (i * 2) (P i).1 (_FormatV.body T P h s i).1
      (_FormatV.body T P h s i).2 (tried ++ [i]) hinv' (by omega) h0
      (by rw [hpow]; exact hle)
      (fun k hk => by rw [hpow]; exact hfail (k + 1) (by omega))
      (by rw [hpow, hpow]; exact hstop) (by omega)
    rw [hpow] at l1 l4
    refine ⟨hL, sL, l1, by rw [b2] at l2; omega, by rw [l3, b1], ?_⟩
    rw [loop_succ T P f i result h s tried hi1024 hres, l4]
    congr 3
    rw [List.append_assoc, List.range_succ_eq_map (m + 1), List.map_cons, List.map_map]
    simp only [pow_zero, mul_one, List.singleton_append]
    refine congrArg (fun l => tried ++ i :: l) (List.map_congr_left ?_)
    intro k _
    simp only [Function.comp, hpow, Nat.succ_eq_add_one]

/-- Assigning from a local handle that alone owns its block, then destroying the local
handle, hands the block over unchanged. -/
theorem ZXString.assign_destroy_local (T : CharT) (h : Heap) (self s : ZXString) (q : Nat)
    (hne : self.this ≠ s.this) (hq : s._m_pStr = some q) (hr : (h.mem q).nRef = 1)
    (hp : ∀ p, self._m_pStr = some p → p ≠ q) :
    (assign T h self s).2 = { this := self.this, _m_pStr := some q } ∧
      (destroy (assign T h self s).1 s).mem q = h.mem q := by
  have h1 : ¬ ((h.mem q).nRef = -1) := by omega
  have h2 : ¬ ((h.mem q).nRef + 1 - 1 ≤ 0) := by omega
  have h3 : (h.mem q).nRef + 1 - 1 = (h.mem q).nRef := by omega
  have h4 : ¬ ((h.mem q).nRef ≤ 0) := by omega
  cases hs : self._m_pStr with
  | none =>
    refine ⟨?_, ?_⟩ <;>
      simp [assign, hne, hq, h1, hs, destroy, _Release, store, h2, h3, h4]
  | some p =>
    have hpq := hp p hs
    have hqp : q ≠ p := fun e => hpq e.symm
    refine ⟨?_, ?_⟩
    · simp [assign, hne, hq, h1, hs]
    · simp only [assign, hne, hq, h1, hs, destroy, _Release, store, _Free, if_false]
      split <;> simp [Function.update_noteq hqp, h2, h3, h4]

/-- The result of `Format` when the first `m` attempts fail and the attempt at size
`16 * 2 ^ m` ends the loop: the handle is attached to the block of that attempt, which
nothing else refers to. -/
theorem ZXString.Format_spec (T : CharT) (P : Int → Int × List Nat) (h : Heap)
    (self : ZXString) (m : Nat) (hv : Valid h self) (hm : m ≤ 6)
    (hfail : ∀ k < m, (P (16 * 2 ^ k)).1 < 0)
    (hstop : 0 ≤ (P (16 * 2 ^ m)).1 ∨ m = 6) :
    _FormatV.tried T P h self = some ((List.range (m + 1)).map (fun k => (16 : Int) * 2 ^ k)) ∧
      ∃ h' q G, Format T P h self = some (h', { this := self.this, _m_pStr := some q }) ∧
        (G.length : Int) = 16 * 2 ^ m + 1 ∧
        h'.mem q =
          { nRef := 1, nCap := 16 * 2 ^ m,
            nByteLen := (if (P (16 * 2 ^ m)).1 < 0 then 0 else (P (16 * 2 ^ m)).1) * T.sizeof,
            pStr := poke (memcpy G 0 (P (16 * 2 ^ m)).2 (P (16 * 2 ^ m)).2.length)
              (if (P (16 * 2 ^ m)).1 < 0 then 0 else (P (16 * 2 ^ m)).1) 0 } := by
  have hpow : (2 : Int) ^ m ≤ 2 ^ 6 := pow_le_pow_right₀ (by norm_num) hm
  have hpos : (0 : Int) < 2 ^ m := by positivity
  have hstop' : 0 ≤ (P (16 * 2 ^ m)).1 ∨ (1024 : Int) < 16 * 2 ^ (m + 1) := by
    rcases hstop with h1 | rfl
    · exact Or.inl h1
    · right; norm_num
  obtain ⟨hL, sL, l1, l2, l3, l4⟩ := loop_spec T P m 1024 16 (-1) h
    { this := self.this + 1, _m_pStr := none } [] trivial (by norm_num) (by norm_num)
    (by norm_num at hpow ⊢; omega) hfail hstop' (by omega)
  obtain ⟨b1, b2, b3⟩ := body_spec T P hL sL (16 * 2 ^ m) l1 (by omega)
  have hrun : _FormatV.run T P h self = some ((_FormatV.body T P hL sL (16 * 2 ^ m)).1,
      (_FormatV.body T P hL sL (16 * 2 ^ m)).2,
      (List.range (m + 1)).map (fun k => (16 : Int) * 2 ^ k)) := by
    rw [_FormatV.run, l4]; simp
  refine ⟨by simp [_FormatV.tried, hrun], ?_⟩
  have hne1 : self.this ≠ (_FormatV.body T P hL sL (16 * 2 ^ m)).2.this := by
    rw [b1, l3]; simp
  obtain ⟨a1, a2⟩ := assign_destroy_local T (_FormatV.body T P hL sL (16 * 2 ^ m)).1 self
    (_FormatV.body T P hL sL (16 * 2 ^ m)).2 hL.next hne1 (by rw [b1]) (by rw [b3])
    (by
      intro p hp
      simp only [Valid, hp] at hv
      omega)
  refine ⟨destroy (assign T (_FormatV.body T P hL sL (16 * 2 ^ m)).1 self
      (_FormatV.body T P hL sL (16 * 2 ^ m)).2).1 (_FormatV.body T P hL sL (16 * 2 ^ m)).2,
    hL.next, poke (raw hL hL.next (16 * 2 ^ m)) 0 0, ?_, ?_, ?_⟩
  · simp only [Format, _FormatV, hrun, a1]
  · rw [length_poke, length_raw]; omega
  · rw [a2, b3]

/-- The elements in use after the primitive wrote `w` and the length `r` was committed. -/
theorem ZXString.written_content (G w : List Nat) (r : Nat) (hr : r < G.length)
    (hw : r ≤ w.length) :
    (poke (memcpy G 0 w w.length) r 0).take r = w.take r ∧
      (poke (memcpy G 0 w w.length) r 0).get? r = some 0 := by
  have h0 : (0 : Int) ≤ (r : Int) := by omega
  simp only [poke, memcpy, h0, le_refl, if_true, Int.toNat_ofNat, Int.toNat_zero,
    readN_eq_take w w.length (le_refl _), List.take_length, writeAt, List.take_zero,
    List.nil_append, Nat.zero_add]
  constructor
  · rw [List.set_take, List.take_take, Nat.min_eq_left (by omega),
      List.take_append_of_le_length hw, List.set_eq_of_length_le (by simp)]
  · rw [List.get?_eq_getElem?, List.getElem?_set_self (by simp; omega)]

/-- `Format` when the attempt at size `16 * 2 ^ m` is the first to succeed, with a result
`r` below the size that counts elements the primitive wrote. -/
theorem ZXString.Format_success (T : CharT) (P : Int → Int × List Nat) (h : Heap)
    (self : ZXString) (m : Nat) (hv : Valid h self) (hm : m ≤ 6)
    (hfail : ∀ k < m, (P (16 * 2 ^ k)).1 < 0) (hok : 0 ≤ (P (16 * 2 ^ m)).1)
    (hlt : (P (16 * 2 ^ m)).1 < 16 * 2 ^ m)
    (hw : (P (16 * 2 ^ m)).1 ≤ (P (16 * 2 ^ m)).2.length) :
    _FormatV.tried T P h self = some ((List.range (m + 1)).map (fun k => (16 : Int) * 2 ^ k)) ∧
      ∃ h' self', Format T P h self = some (h', self') ∧
        GetLength T h' self' = (P (16 * 2 ^ m)).1 ∧
        content T h' self' = (P (16 * 2 ^ m)).2.take (P (16 * 2 ^ m)).1.toNat ∧
        elemAt h' self' (P (16 * 2 ^ m)).1 = some 0 := by
  obtain ⟨ht, h', q, G, hF, hG, hmem⟩ := Format_spec T P h self m hv hm hfail (Or.inl hok)
  refine ⟨ht, h', _, hF, ?_⟩
  have hnot : ¬ (P (16 * 2 ^ m)).1 < 0 := by omega
  simp only [hnot, if_false] at hmem
  obtain ⟨r, hr⟩ : ∃ r : Nat, (P (16 * 2 ^ m)).1 = r := ⟨_, (Int.toNat_of_nonneg hok).symm⟩
  rw [hr] at hmem hlt hw ⊢
  obtain ⟨w1, w2⟩ := written_content G (P (16 * 2 ^ m)).2 r (by omega) (by omega)
  have h0 : (0 : Int) ≤ (r : Int) := by omega
  simp only [GetLength, content, elemAt, hmem, CharT.mul_sizeof_ediv, Int.toNat_ofNat, h0,
    if_true, w1, w2, and_self]

/-- C6: `Format` passes the sizes 16, 32, ..., 1024 to the primitive in that order
and stops at the first size `16 * 2 ^ m` whose result `r` is not negative: the sizes
tried are exactly `16, ..., 16 * 2 ^ m`.  When `r` is below that size and counts
elements the primitive wrote, the handle afterwards has `GetLength() = r`, the first
`r` elements written by that attempt as content, and a terminator after them.  In
particular an output of fewer than 16 elements, written by the truncating primitive,
is stored by the first attempt. -/
theorem ZXString.Format_first_success (T : CharT) (P : Int → Int × List Nat) (h : Heap)
    (self : ZXString) (m : Nat) (hv : Valid h self) (hm : m ≤ 6)
    (hfail : ∀ k < m, (P (16 * 2 ^ k)).1 < 0) (hok : 0 ≤ (P (16 * 2 ^ m)).1)
    (hlt : (P (16 * 2 ^ m)).1 < 16 * 2 ^ m)
    (hw : (P (16 * 2 ^ m)).1 ≤ (P (16 * 2 ^ m)).2.length) :
    (_FormatV.tried T P h self =
        some ((List.range (m + 1)).map (fun k => (16 : Int) * 2 ^ k)) ∧
      ∃ h' self', Format T P h self = some (h', self') ∧
        GetLength T h' self' = (P (16 * 2 ^ m)).1 ∧
        content T h' self' = (P (16 * 2 ^ m)).2.take (P (16 * 2 ^ m)).1.toNat ∧
        elemAt h' self' (P (16 * 2 ^ m)).1 = some 0) ∧
      ∀ out : List Nat, out.length < 16 →
        _FormatV.tried T (vsnprintf_s out) h self = some [16] ∧
        ∃ h' self', Format T (vsnprintf_s out) h self = some (h', self') ∧
          GetLength T h' self' = out.length ∧ content T h' self' = out := by
  refine ⟨Format_success T P h self m hv hm hfail hok hlt hw, ?_⟩
  intro out hout
  have hv16 : vsnprintf_s out (16 * 2 ^ 0) = ((out.length : Int), out ++ [0]) := by
    have : (out.length : Int) < 16 * 2 ^ 0 := by norm_num; omega
    simp only [vsnprintf_s, this, if_true]
  obtain ⟨ht, h', self', hF, h1, h2, -⟩ := Format_success T (vsnprintf_s out) h self 0 hv
    (by omega) (by intro k hk; omega) (by rw [hv16]; simp) (by rw [hv16]; norm_num; omega)
    (by rw [hv16]; simp)
  refine ⟨by simpa [List.range_succ] using ht, h', self', hF, ?_, ?_⟩
  · rw [h1, hv16]
  · rw [h2, hv16]; simp

/-- The least size of the loop of `_FormatV` that exceeds `L`. -/
theorem ZXString.least_size (L : Nat) (hL : L ≤ 1023) :
    ∃ m : Nat, m ≤ 6 ∧ (L : Int) < 16 * 2 ^ m ∧ ∀ k < m, (16 : Int) * 2 ^ k ≤ L := by
  have hex : ∃ m : Nat, L < 16 * 2 ^ m := ⟨6, by norm_num; omega⟩
  refine ⟨Nat.find hex, ?_, ?_, ?_⟩
  · exact Nat.find_min' hex (by norm_num; omega)
  · exact_mod_cast Nat.find_spec hex
  · intro k hk
    have := Nat.find_min hex hk
    push_neg at this
    exact_mod_cast this

/-- C7: if the primitive reports a negative result at each of the seven sizes, the
handle is an empty string after `Format` (length 0, a terminator as first element),
whatever it held before.  With the truncating primitive an output of at most 1023
elements is stored in full, and an output of 1024 elements or more fails at every
size and leaves the empty string. -/
theorem ZXString.Format_ceiling (T : CharT) (h : Heap) (self : ZXString) (hv : Valid h self) :
    (∀ P : Int → Int × List Nat, (∀ k ≤ 6, (P (16 * 2 ^ k)).1 < 0) →
      ∃ h' self', Format T P h self = some (h', self') ∧ GetLength T h' self' = 0 ∧
        content T h' self' = [] ∧ elemAt h' self' 0 = some 0) ∧
    (∀ out : List Nat, out.length ≤ 1023 →
      ∃ h' self', Format T (vsnprintf_s out) h self = some (h', self') ∧
        GetLength T h' self' = out.length ∧ content T h' self' = out) ∧
    (∀ out : List Nat, 1024 ≤ out.length →
      (∀ k ≤ 6, (vsnprintf_s out (16 * 2 ^ k)).1 < 0) ∧
      ∃ h' self', Format T (vsnprintf_s out) h self = some (h', self') ∧
        GetLength T h' self' = 0 ∧ content T h' self' = [] ∧
        elemAt h' self' 0 = some 0) := by
  have hall : ∀ P : Int → Int × List Nat, (∀ k ≤ 6, (P (16 * 2 ^ k)).1 < 0) →
      ∃ h' self', Format T P h self = some (h', self') ∧ GetLength T h' self' = 0 ∧
        content T h' self' = [] ∧ elemAt h' self' 0 = some 0 := by
    intro P hP
    obtain ⟨-, h', q, G, hF, hG, hmem⟩ := Format_spec T P h self 6 hv (le_refl _)
      (fun k hk => hP k (by omega)) (Or.inr rfl)
    simp only [hP 6 (le_refl _), if_true] at hmem
    obtain ⟨-, w2⟩ := written_content G (P (16 * 2 ^ 6)).2 0 (by norm_num at hG; omega)
      (by omega)
    refine ⟨h', _, hF, ?_⟩
    simp only [GetLength, content, elemAt, hmem, zero_mul, Int.zero_ediv, Int.toNat_zero,
      List.take_zero, le_refl, if_true, true_and]
    exact w2
  refine ⟨hall, ?_, ?_⟩
  · intro out hout
    obtain ⟨m, hm, hlt, hmin⟩ := least_size out.length hout
    have hvm : vsnprintf_s out (16 * 2 ^ m) = ((out.length : Int), out ++ [0]) := by
      simp only [vsnprintf_s, hlt, if_true]
    obtain ⟨-, h', self', hF, h1, h2, -⟩ := Format_success T (vsnprintf_s out) h self m hv hm
      (by
        intro k hk
        have : ¬ (out.length : Int) < 16 * 2 ^ k := by have := hmin k hk; omega
        simp only [vsnprintf_s, this, if_false]
        norm_num)
      (by rw [hvm]; simp) (by rw [hvm]; exact hlt) (by rw [hvm]; simp)
    refine ⟨h', self', hF, by rw [h1, hvm], by rw [h2, hvm]; simp⟩
  · intro out hout
    have hneg : ∀ k ≤ 6, (vsnprintf_s out (16 * 2 ^ k)).1 < 0 := by
      intro k hk
      have hpow : (2 : Int) ^ k ≤ 2 ^ 6 := pow_le_pow_right₀ (by norm_num) hk
      have : ¬ (out.length : Int) < 16 * 2 ^ k := by norm_num at hpow; omega
      simp only [vsnprintf_s, this, if_false]
      norm_num
    exact ⟨hneg, hall _ hneg⟩

/-- Witness of C6: the output "1-2" of `Format("%d-%d", 1, 2)`. -/
theorem ZXString.Format_first_success_witness :
    (_FormatV.tried .char (vsnprintf_s [49, 45, 50]) heap0 null0 =
        some ((List.range (0 + 1)).map (fun k => (16 : Int) * 2 ^ k)) ∧
      ∃ h' self', Format .char (vsnprintf_s [49, 45, 50]) heap0 null0 = some (h', self') ∧
        GetLength .char h' self' = (vsnprintf_s [49, 45, 50] (16 * 2 ^ 0)).1 ∧
        content .char h' self' = (vsnprintf_s [49, 45, 50] (16 * 2 ^ 0)).2.take
          (vsnprintf_s [49, 45, 50] (16 * 2 ^ 0)).1.toNat ∧
        elemAt h' self' (vsnprintf_s [49, 45, 50] (16 * 2 ^ 0)).1 = some 0) ∧
      ∀ out : List Nat, out.length < 16 →
        _FormatV.tried .char (vsnprintf_s out) heap0 null0 = some [16] ∧
        ∃ h' self', Format .char (vsnprintf_s out) heap0 null0 = some (h', self') ∧
          GetLength .char h' self' = out.length ∧ content .char h' self' = out :=
  ZXString.Format_first_success .char (vsnprintf_s [49, 45, 50]) heap0 null0 0
    (by decide) (by decide) (by intro k hk; omega) (by decide) (by decide)
    (by decide)

/-- The example of the specification: `Format("%d-%d", 1, 2)`, whose output is "1-2",
leaves the handle with the content "1-2". -/
theorem ZXString.Format_one_two :
    (Format .char (vsnprintf_s [49, 45, 50]) heap0 null0).map
      (fun r => (GetLength .char r.1 r.2, content .char r.1 r.2)) =
      some (3, [49, 45, 50]) := by
  decide

/-- Witness of C7: `Format` on a handle that held "ab". -/
theorem ZXString.Format_ceiling_witness :
    (∀ P : Int → Int × List Nat, (∀ k ≤ 6, (P (16 * 2 ^ k)).1 < 0) →
      ∃ h' self', Format .char P heap1 owner0 = some (h', self') ∧
        GetLength .char h' self' = 0 ∧
        content .char h' self' = [] ∧ elemAt h' self' 0 = some 0) ∧
    (∀ out : List Nat, out.length ≤ 1023 →
      ∃ h' self', Format .char (vsnprintf_s out) heap1 owner0 = some (h', self') ∧
        GetLength .char h' self' = out.length ∧ content .char h' self' = out) ∧
    (∀ out : List Nat, 1024 ≤ out.length →
      (∀ k ≤ 6, (vsnprintf_s out (16 * 2 ^ k)).1 < 0) ∧
      ∃ h' self', Format .char (vsnprintf_s out) heap1 owner0 = some (h', self') ∧
        GetLength .char h' self' = 0 ∧ content .char h' self' = [] ∧
        elemAt h' self' 0 = some 0) :=
  ZXString.Format_ceiling .char heap1 owner0 (by decide)

/-! ## In-place reuse and copy on write -/

/-- The doubling loop does not run when the capacity already holds the required length. -/
theorem ZXString.grow_done (fuel : Nat) (nCap nReq : Int) (h : nReq ≤ nCap) :
    _Cat.grow fuel nCap nReq = some nCap := by
  have : ¬ nCap < nReq := by omega
  cases fuel <;> simp [_Cat.grow, this]

/-- C8: for a handle whose block `p` has reference count 1, `GetBuffer(m, b)` with
`m` at most the capacity calls neither `_Alloc` nor `_Free`, returns the storage the
handle already has, leaves capacity, byte length and elements as they are and sets the
count to `-1`.  So `Assign(s, n)` with a length that fits the capacity, and `Cat` with
the current length plus the appended length within the capacity, leave the handle on
the same block with the same capacity, without a call of the allocator. -/
theorem ZXString.inplace_no_realloc (T : CharT) (h : Heap) (self : ZXString) (p : Nat)
    (hq : self._m_pStr = some p) (hr : (h.mem p).nRef = 1) :
    (∀ (m : Int) (b : Bool), m ≤ (h.mem p).nCap →
      GetBuffer T h self m b = (store h p { h.mem p with nRef := -1 }, self) ∧
      (GetBuffer T h self m b).1.next = h.next ∧
      (GetBuffer T h self m b).1.freed = h.freed ∧
      ((GetBuffer T h self m b).1.mem p).nRef = -1 ∧
      ((GetBuffer T h self m b).1.mem p).nCap = (h.mem p).nCap ∧
      ((GetBuffer T h self m b).1.mem p).nByteLen = (h.mem p).nByteLen ∧
      ((GetBuffer T h self m b).1.mem p).pStr = (h.mem p).pStr) ∧
    (∀ (src : List Nat) (n : Int), (if n = -1 then (Len src : Int) else n) ≤ (h.mem p).nCap →
      (Assign T h self (some src) n).2 = self ∧
      (Assign T h self (some src) n).1.next = h.next ∧
      (Assign T h self (some src) n).1.freed = h.freed ∧
      ((Assign T h self (some src) n).1.mem p).nCap = (h.mem p).nCap) ∧
    (∀ (fuel : Nat) (src : List Nat), 0 ≤ (h.mem p).nByteLen →
      GetLength T h self + Len src ≤ (h.mem p).nCap →
      ∃ h', Cat fuel T h self src = some (h', self) ∧ h'.next = h.next ∧
        h'.freed = h.freed ∧ (h'.mem p).nCap = (h.mem p).nCap) := by
  have hgb : ∀ (m : Int) (b : Bool), m ≤ (h.mem p).nCap →
      GetBuffer T h self m b = (store h p { h.mem p with nRef := -1 }, self) := by
    intro m b hm
    have : (h.mem p).nRef ≤ 1 ∧ (h.mem p).nCap ≥ m := ⟨by omega, hm⟩
    simp only [GetBuffer, hq, this, and_self, if_true]
  refine ⟨?_, ?_, ?_⟩
  · intro m b hm
    rw [hgb m b hm]
    simp [store]
  · intro src n hn
    refine ⟨?_, ?_, ?_, ?_⟩ <;>
      simp only [Assign, hgb _ false hn, copyIn, ReleaseBuffer, hq, store] <;>
      split <;> simp
  · intro fuel src hb hle
    have hs := T.sizeof_pos
    have hgl : 0 ≤ GetLength T h self := by
      simp only [GetLength, hq]
      exact Int.ediv_nonneg hb (by omega)
    unfold Cat _Cat
    by_cases hn0 : (Len src : Int) = 0
    · simp [hn0]
    · simp only [ne_eq, hn0, not_false_eq_true, if_true]
      by_cases he : ZXString.IsEmpty h self = true
      · simp only [he, if_true, hgb _ false (by omega : (Len src : Int) ≤ (h.mem p).nCap),
          copyIn, ReleaseBuffer, hq, store]
        refine ⟨_, rfl, ?_, ?_, ?_⟩ <;> split <;> simp
      · simp only [he, Bool.false_eq_true, if_false, hq, grow_done fuel _ _ hle,
          hgb _ true (le_refl _), copyIn, ReleaseBuffer, store]
        refine ⟨_, rfl, ?_, ?_, ?_⟩ <;> split <;> simp

/-- Witness of C8: the handle of `heap1`, alone on its block. -/
theorem ZXString.inplace_no_realloc_witness :
    (∀ (m : Int) (b : Bool), m ≤ (heap1.mem 0).nCap →
      GetBuffer .char heap1 owner0 m b =
        (store heap1 0 { heap1.mem 0 with nRef := -1 }, owner0) ∧
      (GetBuffer .char heap1 owner0 m b).1.next = heap1.next ∧
      (GetBuffer .char heap1 owner0 m b).1.freed = heap1.freed ∧
      ((GetBuffer .char heap1 owner0 m b).1.mem 0).nRef = -1 ∧
      ((GetBuffer .char heap1 owner0 m b).1.mem 0).nCap = (heap1.mem 0).nCap ∧
      ((GetBuffer .char heap1 owner0 m b).1.mem 0).nByteLen = (heap1.mem 0).nByteLen ∧
      ((GetBuffer .char heap1 owner0 m b).1.mem 0).pStr = (heap1.mem 0).pStr) ∧
    (∀ (src : List Nat) (n : Int),
      (if n = -1 then (Len src : Int) else n) ≤ (heap1.mem 0).nCap →
      (Assign .char heap1 owner0 (some src) n).2 = owner0 ∧
      (Assign .char heap1 owner0 (some src) n).1.next = heap1.next ∧
      (Assign .char heap1 owner0 (some src) n).1.freed = heap1.freed ∧
      ((Assign .char heap1 owner0 (some src) n).1.mem 0).nCap = (heap1.mem 0).nCap) ∧
    (∀ (fuel : Nat) (src : List Nat), 0 ≤ (heap1.mem 0).nByteLen →
      GetLength .char heap1 owner0 + Len src ≤ (heap1.mem 0).nCap →
      ∃ h', Cat fuel .char heap1 owner0 src = some (h', owner0) ∧ h'.next = heap1.next ∧
        h'.freed = heap1.freed ∧ (h'.mem 0).nCap = (heap1.mem 0).nCap) :=
  ZXString.inplace_no_realloc .char heap1 owner0 0 rfl (by decide)

/-- C9: for a handle whose block `p` has reference count `r > 1`, `GetBuffer(m, b)`
allocates a fresh block and attaches the handle to it for every `m`, also one within
the capacity, and so do `Assign` of a string and every `Cat` of a non-empty string on
a well-formed handle.  Nothing is freed, and the old block keeps its elements, byte
length and capacity, with reference count `r - 1`. -/
theorem ZXString.shared_always_realloc (T : CharT) (h : Heap) (self : ZXString) (p : Nat)
    (hq : self._m_pStr = some p) (hp : p < h.next) (hr : 1 < (h.mem p).nRef) :
    (∀ (m : Int) (b : Bool),
      (GetBuffer T h self m b).2 = { this := self.this, _m_pStr := some h.next } ∧
      (GetBuffer T h self m b).1.next = h.next + 1 ∧
      (GetBuffer T h self m b).1.freed = h.freed ∧
      (GetBuffer T h self m b).1.mem p = { h.mem p with nRef := (h.mem p).nRef - 1 }) ∧
    (∀ (src : List Nat) (n : Int),
      (Assign T h self (some src) n).2 = { this := self.this, _m_pStr := some h.next } ∧
      (Assign T h self (some src) n).1.next = h.next + 1 ∧
      (Assign T h self (some src) n).1.freed = h.freed ∧
      (Assign T h self (some src) n).1.mem p = { h.mem p with nRef := (h.mem p).nRef - 1 }) ∧
    (∀ (fuel : Nat) (src : List Nat), Len src ≠ 0 → WellFormed T h self →
      GetLength T h self + Len src ≤ fuel →
      ∃ h', Cat fuel T h self src = some (h', { this := self.this, _m_pStr := some h.next }) ∧
        h'.next = h.next + 1 ∧ h'.freed = h.freed ∧
        h'.mem p = { h.mem p with nRef := (h.mem p).nRef - 1 }) := by
  have hne : p ≠ h.next := by omega
  have hnf : ¬ ((h.mem p).nRef - 1 ≤ 0) := by omega
  have hgb : ∀ (m : Int) (b : Bool), GetBuffer T h self m b =
      GetBuffer.fresh T h self (some p) ((h.mem p).nByteLen / T.sizeof) m b := by
    intro m b
    have : ¬ ((h.mem p).nRef ≤ 1 ∧ (h.mem p).nCap ≥ m) := by omega
    simp only [GetBuffer, hq, this, if_false]
  refine ⟨?_, ?_, ?_⟩
  · intro m b
    rw [hgb, fresh_some _ _ _ _ _ _ _ hne]
    simp [hnf]
  · intro src n
    simp only [Assign, hgb, fresh_some _ _ _ _ _ _ _ hne, copyIn, ReleaseBuffer, store, hnf,
      if_false]
    refine ⟨trivial, ?_, ?_, ?_⟩ <;> split <;> simp [Function.update_noteq hne]
  · intro fuel src hn0 hwf hf
    obtain ⟨len, -, hl, hbl, hle, ht, hgl⟩ := hwf.unpack hq
    rw [hgl] at hf
    by_cases he : ZXString.IsEmpty h self = true
    · have hn0' : (Len src : Int) ≠ 0 := by exact_mod_cast hn0
      simp only [Cat, _Cat, ne_eq, hn0', not_false_eq_true, if_true, he, hgb,
        fresh_some _ _ _ _ _ _ _ hne, copyIn, ReleaseBuffer, store, hnf, if_false]
      refine ⟨_, rfl, ?_, ?_, ?_⟩ <;> split <;> simp [Function.update_noteq hne]
    · have he' : ZXString.IsEmpty h self = false := by simpa using he
      have hpos := WellFormed.len_pos hq he' ht
      obtain ⟨j, -, hcat⟩ := Cat_realloc fuel T h self p len (Len src) src hq hp hl hbl hle he'
        (by omega) (Or.inl (by omega)) (by omega) (Len_le_length src) (by omega)
      rw [Cat, hcat]
      refine ⟨_, rfl, rfl, ?_, ?_⟩
      · simp [hnf]
      · simp

/-- Witness of C9: the handle of `heap2`, whose block a second handle shares. -/
theorem ZXString.shared_always_realloc_witness :
    (∀ (m : Int) (b : Bool),
      (GetBuffer .char heap2 owner0 m b).2 =
        { this := owner0.this,
          _m_pStr := some heap2.next } ∧
      (GetBuffer .char heap2 owner0 m b).1.next =
        heap2.next + 1 ∧
      (GetBuffer .char heap2 owner0 m b).1.freed =
        heap2.freed ∧
      (GetBuffer .char heap2 owner0 m b).1.mem 0 =
        { heap2.mem 0 with
          nRef := (heap2.mem 0).nRef - 1 }) ∧
    (∀ (src : List Nat) (n : Int),
      (Assign .char heap2 owner0 (some src) n).2 =
        { this := owner0.this,
          _m_pStr := some heap2.next } ∧
      (Assign .char heap2 owner0 (some src) n).1.next =
        heap2.next + 1 ∧
      (Assign .char heap2 owner0 (some src) n).1.freed =
        heap2.freed ∧
      (Assign .char heap2 owner0 (some src) n).1.mem 0 =
        { heap2.mem 0 with
          nRef := (heap2.mem 0).nRef - 1 }) ∧
    (∀ (fuel : Nat) (src : List Nat), Len src ≠ 0 →
      WellFormed .char heap2 owner0 →
      GetLength .char heap2 owner0 + Len src ≤ fuel →
      ∃ h', Cat fuel .char heap2 owner0 src =
          some (h', { this := owner0.this, _m_pStr := some heap2.next }) ∧
        h'.next = heap2.next + 1 ∧
        h'.freed = heap2.freed ∧
        h'.mem 0 =
          { heap2.mem 0 with
            nRef := (heap2.mem 0).nRef - 1 }) :=
  ZXString.shared_always_realloc .char heap2 owner0 0
    rfl (by decide) (by decide)

/-! ## Amortized growth -/

/-- Appending to a non-empty handle that alone owns a block with room for the result: the
block is written in place. -/
theorem ZXString.Cat_inplace (fuel : Nat) (T : CharT) (h : Heap) (self : ZXString)
    (p len n : Nat) (src : List Nat)
    (hq : self._m_pStr = some p)
    (hl : ((h.mem p).pStr.length : Int) = (h.mem p).nCap + 1)
    (hb : (h.mem p).nByteLen = (len : Int) * T.sizeof)
    (hne : ZXString.IsEmpty h self = false) (hr : (h.mem p).nRef = 1)
    (hfit : (len : Int) + n ≤ (h.mem p).nCap)
    (hn0 : 0 < n) (hn : n ≤ src.length) :
    _Cat fuel T h self (some src) n =
      some ({ mem := Function.update h.mem p
                { nRef := 1, nCap := (h.mem p).nCap,
                  nByteLen := ((len + n : Nat) : Int) * T.sizeof,
                  pStr := (h.mem p).pStr.take len ++ src.take n ++
                    0 :: (h.mem p).pStr.drop (len + n + 1) },
              next := h.next, freed := h.freed, garbage := h.garbage }, self) := by
  have hn0' : (n : Int) ≠ 0 := by omega
  have hgl := GetLength_eq T h self p len hq hb
  have hin : (h.mem p).nRef ≤ 1 ∧ (h.mem p).nCap ≥ (h.mem p).nCap := ⟨by omega, le_refl _⟩
  simp only [_Cat, hn0', ne_eq, not_false_eq_true, if_true, hne, Bool.false_eq_true, if_false,
    hgl, hq, grow_done fuel _ _ hfit, GetBuffer, hin, and_self, Option.getD_some]
  rw [GetLength_eq T _ _ p len hq (by simp only [store, Function.update_same]; exact hb)]
  have hcast : (len : Int) + n = ((len + n : Nat) : Int) := by push_cast; rfl
  rw [hcast, commit_eq T _ _ p len n src hq hn
    (by simp only [store, Function.update_same]; omega)]
  simp only [store, Function.update_same, Function.update_idem]

/-- The first append to a handle without buffer. -/
theorem ZXString.Cat_null (fuel : Nat) (T : CharT) (h : Heap) (addr c : Nat) (hc : c ≠ 0) :
    Cat fuel T h { this := addr, _m_pStr := none } [c, 0] =
      some ({ mem := Function.update h.mem h.next
                { nRef := 1, nCap := 1, nByteLen := ((0 + 1 : Nat) : Int) * T.sizeof,
                  pStr := [c, 0] },
              next := h.next + 1, freed := h.freed, garbage := h.garbage },
            { this := addr, _m_pStr := some h.next }) := by
  have hlen : Len [c, 0] = 1 := by simp [Len, hc]
  have h10 : ((1 : Nat) : Int) ≠ 0 := by norm_num
  simp only [Cat, _Cat, hlen, h10, ne_eq, not_false_eq_true, if_true, ZXString.IsEmpty,
    GetBuffer, fresh_none, Option.getD_some]
  have := commit_eq T
    { mem := Function.update h.mem h.next
        { nRef := -1, nCap := if (0 : Int) < ((1 : Nat) : Int) then ((1 : Nat) : Int) else 0,
          nByteLen := 0,
          pStr := poke (raw h h.next
            (if (0 : Int) < ((1 : Nat) : Int) then ((1 : Nat) : Int) else 0)) 0 0 },
      next := h.next + 1, freed := h.freed, garbage := h.garbage }
    { this := addr, _m_pStr := some h.next } h.next 0 1 [c, 0] rfl (by simp)
    (by simp [length_poke, length_raw])
  simp only [Nat.cast_zero, Function.update_same, Function.update_idem] at this
  rw [this]
  simp [raw, poke, List.range_succ]

/-- Below a power of two the next length needs no larger power. -/
theorem ZXString.clog_succ_of_lt (k : Nat) (hk : k < 2 ^ Nat.clog 2 k) :
    Nat.clog 2 (k + 1) = Nat.clog 2 k :=
  le_antisymm ((Nat.le_pow_iff_clog_le (by norm_num)).mp hk)
    (Nat.clog_mono_right 2 (Nat.le_succ k))

/-- At a power of two the next length needs the next power. -/
theorem ZXString.clog_succ_of_eq (k : Nat) (hk1 : 1 ≤ k) (hk : k = 2 ^ Nat.clog 2 k) :
    Nat.clog 2 (k + 1) = Nat.clog 2 k + 1 := by
  apply le_antisymm
  · apply (Nat.le_pow_iff_clog_le (by norm_num)).mp
    rw [pow_succ, ← hk]; omega
  · apply (Nat.pow_lt_iff_lt_clog (by norm_num)).mp
    rw [← hk]; omega

/-- One more single-element append keeps the shape of the grown state and allocates
exactly when the number of elements passes a power of two. -/
theorem ZXString.Grown.step (fuel : Nat) (T : CharT) (h : Heap) (self : ZXString)
    (cs : List Nat) (c : Nat) (hg : Grown T h self cs) (hcs : cs ≠ [])
    (h0 : ∀ x ∈ cs, x ≠ 0) (hc : c ≠ 0) (hf : 1 ≤ fuel) :
    ∃ h' self', Cat fuel T h self [c, 0] = some (h', self') ∧ Grown T h' self' (cs ++ [c]) ∧
      self'.this = self.this ∧
      h'.next + Nat.clog 2 cs.length = h.next + Nat.clog 2 (cs.length + 1) := by
  obtain ⟨q, hq, hqn, hr, hcap, hbl, hl, hcon⟩ := hg
  have hk1 : 1 ≤ cs.length := List.length_pos.mpr hcs
  have hlen : Len [c, 0] = 1 := by simp [Len, hc]
  have hle := Nat.le_pow_clog (by norm_num : 1 < 2) cs.length
  have hne : ZXString.IsEmpty h self = false := by
    obtain ⟨x, xs, rfl⟩ := List.exists_cons_of_ne_nil hcs
    have hx : x ≠ 0 := h0 x (by simp)
    simp only [ZXString.IsEmpty, hq]
    cases hP : (h.mem q).pStr with
    | nil => simp [hP] at hcon
    | cons y ys =>
      simp only [hP, List.length_cons, List.take_succ_cons, List.cons.injEq] at hcon
      simp [hcon.1, hx]
  have hcapN : (h.mem q).nCap = ((2 ^ Nat.clog 2 cs.length : Nat) : Int) := by
    rw [hcap]; push_cast; rfl
  rcases Nat.lt_or_ge cs.length (2 ^ Nat.clog 2 cs.length) with hlt | hge
  · -- room left: in place
    have hcat := Cat_inplace fuel T h self q cs.length 1 [c, 0] hq hl hbl hne hr
      (by rw [hcapN]; exact_mod_cast hlt) (by omega) (by simp)
    refine ⟨_, _, by rw [Cat, hlen]; exact hcat, ?_, rfl, ?_⟩
    · refine ⟨q, hq, hqn, ?_, ?_, ?_, ?_, ?_⟩
      · simp
      · simp [hcap, clog_succ_of_lt _ hlt]
      · simp
      · simp only [Function.update_same, List.length_append, List.length_take,
          List.length_cons, List.length_drop, List.length_nil]
        omega
      · simp only [Function.update_same, List.length_append, List.length_cons, List.length_nil]
        rw [hcon, List.append_assoc, List.take_append]
        simp
    · simp [clog_succ_of_lt _ hlt]
  · -- full: one doubling
    have heq : cs.length = 2 ^ Nat.clog 2 cs.length := le_antisymm hle hge
    obtain ⟨j, ⟨hj1, hj2⟩, hcat⟩ := Cat_realloc fuel T h self q cs.length 1 [c, 0] hq hqn hl hbl
      (by rw [hcapN]; exact_mod_cast hle) hne (by rw [hcapN]; exact_mod_cast (by omega : 1 ≤ 2 ^ Nat.clog 2 cs.length))
      (Or.inr (by rw [hcapN, ← heq]; omega)) (by omega) (by simp)
      (by rw [hcapN, ← heq]; push_cast; omega)
    rw [hcapN, ← heq] at hj1 hj2
    have hj : j = 1 := by
      rcases Nat.lt_or_ge j 1 with hj0 | hj1'
      · interval_cases j; simp at hj1
      · rcases Nat.lt_or_ge 1 j with hj2' | hj2'
        · have := hj2 1 hj2'
          simp at this
          omega
        · omega
    subst hj
    have hqne : q ≠ h.next := by omega
    refine ⟨_, { this := self.this, _m_pStr := some h.next }, by rw [Cat, hlen]; exact hcat,
      ?_, rfl, ?_⟩
    · refine ⟨h.next, rfl, by simp, ?_, ?_, ?_, ?_, ?_⟩
      · simp [Function.update_noteq hqne.symm]
      · simp [Function.update_noteq hqne.symm, hcap, clog_succ_of_eq _ hk1 heq, pow_succ]
      · simp [Function.update_noteq hqne.symm]
      · simp only [Function.update_noteq hqne.symm, Function.update_same, List.length_append,
          List.length_take, List.length_cons, List.length_drop, List.length_nil, length_raw]
        rw [hcapN, ← heq]
        push_cast
        omega
      · simp only [Function.update_noteq hqne.symm, Function.update_same, List.length_append,
          List.length_cons, List.length_nil]
        rw [hcon, List.append_assoc, List.take_append]
        simp
    · simp only [clog_succ_of_eq _ hk1 heq]
      omega

/-- Single-element appends from a grown state lead to a grown state. -/
theorem ZXString.Grown.appendEach (fuel : Nat) (T : CharT) (hf : 1 ≤ fuel) (ds : List Nat) :
    ∀ (h : Heap) (self : ZXString) (cs : List Nat), Grown T h self cs → cs ≠ [] →
      (∀ x ∈ cs, x ≠ 0) → (∀ x ∈ ds, x ≠ 0) →
      ∃ h' self', ZXString.appendEach fuel T ds h self = some (h', self') ∧
        Grown T h' self' (cs ++ ds) ∧ self'.this = self.this ∧
        h'.next + Nat.clog 2 cs.length = h.next + Nat.clog 2 (cs.length + ds.length) := by
  induction ds with
  | nil =>
    intro h self cs hg _ _ _
    exact ⟨h, self, rfl, by simpa using hg, rfl, by simp⟩
  | cons d ds ih =>
    intro h self cs hg hcs h0 hd
    obtain ⟨h1, s1, e1, g1, t1, n1⟩ := Grown.step fuel T h self cs d hg hcs h0
      (hd d (by simp)) hf
    obtain ⟨h2, s2, e2, g2, t2, n2⟩ := ih h1 s1 (cs ++ [d]) g1 (by simp)
      (by
        intro x hx
        rcases List.mem_append.mp hx with hx | hx
        · exact h0 x hx
        · simp at hx; subst hx; exact hd x (by simp))
      (fun x hx => hd x (by simp [hx]))
    refine ⟨h2, s2, ?_, ?_, by rw [t2, t1], ?_⟩
    · simp only [ZXString.appendEach, e1, e2]
    · simpa using g2
    · simp only [List.length_append, List.length_cons, List.length_nil, Nat.zero_add] at n2 ⊢
      have : cs.length + (ds.length + 1) = cs.length + 1 + ds.length := by omega
      rw [this]
      omega

/-- C10: starting from a handle without buffer, `k ≥ 1` successive appends of one
non-zero element each succeed and call the allocator exactly `⌈log₂ k⌉ + 1` times,
which is at most `⌊log₂ k⌋ + 2`; afterwards the capacity of the block is the least
power of two that is at least `k`, and the handle holds the `k` elements. -/
theorem ZXString.amortized_growth (fuel : Nat) (T : CharT) (h : Heap) (addr : Nat)
    (cs : List Nat)
    (hk : cs ≠ []) (h0 : ∀ x ∈ cs, x ≠ 0) (hf : 1 ≤ fuel) :
    ∃ h' self', appendEach fuel T cs h { this := addr, _m_pStr := none } = some (h', self') ∧
      h'.next = h.next + (Nat.clog 2 cs.length + 1) ∧
      h'.next ≤ h.next + (Nat.log 2 cs.length + 2) ∧
      (∃ q, self'._m_pStr = some q ∧ (h'.mem q).nCap = 2 ^ Nat.clog 2 cs.length) ∧
      cs.length ≤ 2 ^ Nat.clog 2 cs.length ∧
      (∀ e, cs.length ≤ 2 ^ e → 2 ^ Nat.clog 2 cs.length ≤ 2 ^ e) ∧
      GetLength T h' self' = cs.length ∧ content T h' self' = cs := by
  obtain ⟨c, ds, rfl⟩ := List.exists_cons_of_ne_nil hk
  have hc : c ≠ 0 := h0 c (by simp)
  have hg1 : Grown T
      { mem := Function.update h.mem h.next
          { nRef := 1, nCap := 1, nByteLen := ((0 + 1 : Nat) : Int) * T.sizeof, pStr := [c, 0] },
        next := h.next + 1, freed := h.freed, garbage := h.garbage }
      { this := addr, _m_pStr := some h.next } [c] := by
    refine ⟨h.next, rfl, by simp, ?_, ?_, ?_, ?_, ?_⟩ <;> simp
  obtain ⟨h', self', e, ⟨q, g1, g2, g3, g4, g5, g6, g7⟩, -, n⟩ :=
    Grown.appendEach fuel T hf ds _ _ [c] hg1 (by simp) (by simpa using hc)
      (fun x hx => h0 x (by simp [hx]))
  have hlen : ([c] ++ ds).length = (c :: ds).length := by simp
  simp only [List.singleton_append] at g4 g5 g7
  simp only [List.length_singleton, Nat.clog_one_right, Nat.add_zero] at n
  have hnext : h'.next = h.next + (Nat.clog 2 (c :: ds).length + 1) := by
    simp only [List.length_cons, Nat.add_comm ds.length 1]; omega
  have hlog : Nat.clog 2 (c :: ds).length ≤ Nat.log 2 (c :: ds).length + 1 :=
    (Nat.le_pow_iff_clog_le (by norm_num)).mp
      (le_of_lt (Nat.lt_pow_succ_log_self (by norm_num) _))
  refine ⟨h', self', ?_, hnext, by omega, ⟨q, g1, g4⟩, Nat.le_pow_clog (by norm_num) _, ?_, ?_, ?_⟩
  · simp only [ZXString.appendEach, Cat_null fuel T h addr c hc, e]
  · intro e he
    exact Nat.pow_le_pow_right (by norm_num) ((Nat.le_pow_iff_clog_le (by norm_num)).mp he)
  · exact GetLength_eq T h' self' q _ g1 g5
  · simp only [content, g1, GetLength_eq T h' self' q _ g1 g5, Int.toNat_ofNat, g7]

/-- Witness of C10: three appends to a handle without buffer. -/
theorem ZXString.amortized_growth_witness :
    ∃ h' self', appendEach 1 .char [97, 98, 99] heap0 { this := 0, _m_pStr := none } =
        some (h', self') ∧
      h'.next = heap0.next + (Nat.clog 2 ([97, 98, 99] : List Nat).length + 1) ∧
      h'.next ≤ heap0.next + (Nat.log 2 ([97, 98, 99] : List Nat).length + 2) ∧
      (∃ q, self'._m_pStr = some q ∧
        (h'.mem q).nCap = 2 ^ Nat.clog 2 ([97, 98, 99] : List Nat).length) ∧
      ([97, 98, 99] : List Nat).length ≤ 2 ^ Nat.clog 2 ([97, 98, 99] : List Nat).length ∧
      (∀ e, ([97, 98, 99] : List Nat).length ≤ 2 ^ e →
        2 ^ Nat.clog 2 ([97, 98, 99] : List Nat).length ≤ 2 ^ e) ∧
      GetLength .char h' self' = ([97, 98, 99] : List Nat).length ∧
      content .char h' self' = [97, 98, 99] :=
  ZXString.amortized_growth 1 .char heap0 0 [97, 98, 99] (by decide) (by decide) (by decide)

/-- Three single-element appends to a handle without buffer: three allocations, and a
block of capacity 4 holding the three elements. -/
theorem ZXString.three_appends :
    (appendEach 1 .char [97, 98, 99] heap0 { this := 0, _m_pStr := none }).map
      (fun r => (r.1.next, r.1.freed, r.2, r.1.mem 2)) =
      some (3, [1, 0], { this := 0, _m_pStr := some 2 },
        { nRef := 1, nCap := 4, nByteLen := 3, pStr := [97, 98, 99, 0, 7] }) := by
  decide

/-! ## Ancestor check -/

/-- An ancestor of `c` is `c` itself or an ancestor of its parent. -/
theorem CRTTI.ancestor_succ_iff (m : Nat → Option Nat) (c y : Nat) :
    (∃ k, ancestor m k c = some y) ↔
      c = y ∨ ∃ p, m c = some p ∧ ∃ k, ancestor m k p = some y := by
  constructor
  · rintro ⟨k, hk⟩
    cases k with
    | zero => left; simpa [ancestor] using hk
    | succ k =>
      right
      simp only [ancestor] at hk
      cases hp : m c with
      | none => simp [hp] at hk
      | some p => exact ⟨p, rfl, k, by simpa [hp] using hk⟩
  · rintro (rfl | ⟨p, hp, k, hk⟩)
    · exact ⟨0, rfl⟩
    · exact ⟨k + 1, by simp [ancestor, hp, hk]⟩

/-- On a chain that ends within `n` steps the loop of `IsKindOf` returns within `n`
iterations, with 1 exactly when the candidate is on the chain. -/
theorem CRTTI.IsKindOf_loop_spec (m : Nat → Option Nat) (pRTTI : Option Nat) (n : Nat) :
    ∀ (c fuel : Nat), ancestor m n c = none → n ≤ fuel →
      ∃ r, IsKindOf.loop m fuel (some c) pRTTI = some r ∧ (r = 0 ∨ r = 1) ∧
        (r = 1 ↔ ∃ y, pRTTI = some y ∧ ∃ k, ancestor m k c = some y) := by
  induction n with
  | zero => intro c fuel h; simp [ancestor] at h
  | succ n ih =>
    intro c fuel hn hf
    obtain ⟨f, rfl⟩ : ∃ f, fuel = f + 1 := ⟨fuel - 1, by omega⟩
    by_cases hc : some c = pRTTI
    · refine ⟨1, ?_, Or.inr rfl, ?_⟩
      · rw [IsKindOf.loop]; simp [hc]
      · simp only [true_iff]
        exact ⟨c, hc.symm, 0, rfl⟩
    · have hc' : (some c : Option Nat) ≠ pRTTI := hc
      cases hp : m c with
      | none =>
        refine ⟨0, ?_, Or.inl rfl, ?_⟩
        · rw [IsKindOf.loop]; simp [hc', hp]
        · simp only [zero_ne_one, false_iff]
          rintro ⟨y, rfl, hk⟩
          rcases (ancestor_succ_iff m c y).mp hk with rfl | ⟨p, hp', -⟩
          · exact hc rfl
          · simp [hp] at hp'
      | some p =>
        have hn' : ancestor m n p = none := by simpa [ancestor, hp] using hn
        obtain ⟨r, h1, h2, h3⟩ := ih p f hn' (by omega)
        refine ⟨r, ?_, h2, ?_⟩
        · rw [IsKindOf.loop]; simp [hc', hp, h1]
        · rw [h3]
          constructor
          · rintro ⟨y, rfl, hk⟩
            exact ⟨y, rfl, (ancestor_succ_iff m c y).mpr (Or.inr ⟨p, hp, hk⟩)⟩
          · rintro ⟨y, rfl, hk⟩
            rcases (ancestor_succ_iff m c y).mp hk with rfl | ⟨p', hp', hk'⟩
            · exact absurd rfl hc
            · rw [hp] at hp'; cases hp'
              exact ⟨y, rfl, hk'⟩

/-- C11: for a descriptor `x` whose parent chain ends (`n` steps from `x` lead to the
null parent of a root) and every candidate, `IsKindOf` returns, with 0 or 1, and 1
exactly when the candidate is `x` itself or reached from `x` by parent steps.  So
`IsKindOf(x, x)` and `IsKindOf(child, grandparent)` are 1, and the result is 0 for a
null candidate and for a descriptor that is not on the chain of `x`. -/
theorem CRTTI.IsKindOf_iff_ancestor (m_pPrev : Nat → Option Nat) (x : Nat) (pRTTI : Option Nat) (n fuel : Nat)
    (hfin : ancestor m_pPrev n x = none) (hf : n ≤ fuel) :
    (∃ r, IsKindOf fuel m_pPrev x pRTTI = some r ∧ (r = 0 ∨ r = 1) ∧
      (r = 1 ↔ ∃ y, pRTTI = some y ∧ ∃ k, ancestor m_pPrev k x = some y)) ∧
    IsKindOf fuel m_pPrev x (some x) = some 1 ∧
    IsKindOf fuel m_pPrev x none = some 0 ∧
    (∀ p g, m_pPrev x = some p → m_pPrev p = some g →
      IsKindOf fuel m_pPrev x (some g) = some 1) ∧
    (∀ y, (∀ k, ancestor m_pPrev k x ≠ some y) →
      IsKindOf fuel m_pPrev x (some y) = some 0) := by
  have key : ∀ q : Option Nat, ∃ r, IsKindOf fuel m_pPrev x q = some r ∧ (r = 0 ∨ r = 1) ∧
      (r = 1 ↔ ∃ y, q = some y ∧ ∃ k, ancestor m_pPrev k x = some y) :=
    fun q => CRTTI.IsKindOf_loop_spec m_pPrev q n x fuel hfin hf
  have yes : ∀ y, (∃ k, ancestor m_pPrev k x = some y) →
      IsKindOf fuel m_pPrev x (some y) = some 1 := by
    intro y hy
    obtain ⟨r, h1, -, h3⟩ := key (some y)
    rw [h1, h3.mpr ⟨y, rfl, hy⟩]
  have no : ∀ q : Option Nat, (¬ ∃ y, q = some y ∧ ∃ k, ancestor m_pPrev k x = some y) →
      IsKindOf fuel m_pPrev x q = some 0 := by
    intro q hq
    obtain ⟨r, h1, h2, h3⟩ := key q
    rcases h2 with rfl | rfl
    · exact h1
    · exact absurd (h3.mp rfl) hq
  refine ⟨key pRTTI, yes x ⟨0, rfl⟩, no none (by simp), ?_, ?_⟩
  · intro p g hp hg
    exact yes g ⟨2, by simp [ancestor, hp, hg]⟩
  · intro y hy
    apply no
    rintro ⟨y', hy', k, hk⟩
    cases hy'
    exact hy k hk

/-- Witness of C11: the chain `0 → 1 → 2` with the grandparent as candidate. -/
theorem CRTTI.IsKindOf_iff_ancestor_witness :
    (∃ r, IsKindOf 3 chain3 0 (some 2) = some r ∧ (r = 0 ∨ r = 1) ∧
      (r = 1 ↔ ∃ y, some 2 = some y ∧ ∃ k, ancestor chain3 k 0 = some y)) ∧
    IsKindOf 3 chain3 0 (some 0) = some 1 ∧
    IsKindOf 3 chain3 0 none = some 0 ∧
    (∀ p g, chain3 0 = some p → chain3 p = some g →
      IsKindOf 3 chain3 0 (some g) = some 1) ∧
    (∀ y, (∀ k, ancestor chain3 k 0 ≠ some y) →
      IsKindOf 3 chain3 0 (some y) = some 0) :=
  CRTTI.IsKindOf_iff_ancestor chain3 0 (some 2) 3 3 (by decide) (by decide)


/-- On the chain `0 → 1 → 2`: the grandparent of `0` is an ancestor, a descriptor off
the chain is not, and a child is not an ancestor of its parent. -/
theorem CRTTI.IsKindOf_chain3 :
    IsKindOf 3 chain3 0 (some 2) = some 1 ∧ IsKindOf 3 chain3 0 (some 7) = some 0 ∧
      IsKindOf 3 chain3 1 (some 0) = some 0 := by
  decide

/-! ## Copy assignment -/

/-- C12: `b = a` for distinct handles, where `a` owns the block `p` with reference
count `r ≥ 1` and `b` is not attached to it, allocates nothing, attaches `b` to `p`,
so that `b` has the length and content of `a`, and sets the count of `p` to `r + 1`;
the previous block of `b`, if it had one, loses one reference and is freed when its
count reaches zero, and every other block stays as it is.  If `a` owns no buffer, `b`
releases its buffer as its destructor would and owns none afterwards.  If `a` and `b`
are the same object nothing changes. -/
theorem ZXString.assign_shares (T : CharT) (h : Heap) (a b : ZXString) :
    (∀ p r, b.this ≠ a.this → a._m_pStr = some p → (h.mem p).nRef = r → 1 ≤ r →
      b._m_pStr ≠ some p →
      (assign T h b a).2 = { this := b.this, _m_pStr := some p } ∧
      (assign T h b a).1.next = h.next ∧
      (assign T h b a).1.mem p = { h.mem p with nRef := r + 1 } ∧
      GetLength T (assign T h b a).1 (assign T h b a).2 = GetLength T h a ∧
      content T (assign T h b a).1 (assign T h b a).2 = content T h a ∧
      (b._m_pStr = none → (assign T h b a).1.freed = h.freed ∧
        ∀ q, q ≠ p → (assign T h b a).1.mem q = h.mem q) ∧
      (∀ p', b._m_pStr = some p' →
        (assign T h b a).1.mem p' = { h.mem p' with nRef := (h.mem p').nRef - 1 } ∧
        (assign T h b a).1.freed =
          (if (h.mem p').nRef - 1 ≤ 0 then p' :: h.freed else h.freed) ∧
        ∀ q, q ≠ p → q ≠ p' → (assign T h b a).1.mem q = h.mem q)) ∧
    (b.this ≠ a.this → a._m_pStr = none →
      (assign T h b a).2 = { this := b.this, _m_pStr := none } ∧
      (assign T h b a).1 = destroy h b) ∧
    (b.this = a.this → assign T h b a = (h, b)) := by
  refine ⟨?_, ?_, ?_⟩
  · intro p r hab hq hr hr1 hbp
    have h1 : ¬ ((h.mem p).nRef = -1) := by omega
    cases hb : b._m_pStr with
    | none =>
      subst hr
      simp [assign, hab, hq, h1, hb, store, GetLength, content]
      intro q hqp
      simp [Function.update_noteq hqp]
    | some p' =>
      have hpp : p' ≠ p := by
        intro e; apply hbp; rw [hb, e]
      have hpp' : p ≠ p' := fun e => hpp e.symm
      subst hr
      simp only [assign, hab, hq, h1, hb, store, _Release, _Free, if_false, GetLength, content,
        Function.update_noteq hpp, Function.update_same]
      refine ⟨trivial, ?_, ?_, ?_, ?_, ?_, ?_⟩
      · split <;> rfl
      · split <;> simp [Function.update_noteq hpp']
      · split <;> simp [Function.update_noteq hpp']
      · split <;> simp [Function.update_noteq hpp']
      · simp
      · intro p'' hp''
        cases hp''
        refine ⟨?_, ?_, ?_⟩
        · split <;> simp
        · split <;> rfl
        · intro q hq1 hq2
          split <;> simp [Function.update_noteq hq1, Function.update_noteq hq2]
  · intro hab hq
    cases hb : b._m_pStr <;> simp [assign, hab, hq, hb, destroy]
    cases b; simp_all
  · intro hab
    simp [assign, hab]

/-- Sharing on `heap1`: the handle `null1` assigned from `owner0` is attached to the
block at `0`, whose count becomes 2, and no block is allocated or freed. -/
theorem ZXString.assign_shares_heap1 :
    (assign .char heap1 null1 owner0).2 = { this := 1, _m_pStr := some 0 } ∧
      ((assign .char heap1 null1 owner0).1.mem 0).nRef = 2 ∧
      (assign .char heap1 null1 owner0).1.next = 1 ∧
      (assign .char heap1 null1 owner0).1.freed = [] := by
  decide

/-- The elements before the first terminator. -/
theorem ZStrUtil.take_Len (P : List Nat) : P.take (Len P) = cstr P := by
  induction P with
  | nil => simp [Len, cstr]
  | cons c cs ih =>
    by_cases hc : c = 0
    · simp [Len, cstr, hc]
    · simp [Len, cstr, hc, ih]

/-- `GetBuffer` leaves alone a block the handle is not attached to: it stays as it is,
is not freed, and the handle is not attached to it afterwards. -/
theorem ZXString.GetBuffer_frame (T : CharT) (h : Heap) (self : ZXString) (n : Int) (b : Bool)
    (p0 : Nat) (hs : ∀ p, self._m_pStr = some p → p < h.next) (hp0 : p0 < h.next)
    (hne : self._m_pStr ≠ some p0) :
    (GetBuffer T h self n b).1.mem p0 = h.mem p0 ∧
      (GetBuffer T h self n b).2._m_pStr ≠ some p0 ∧
      (GetBuffer T h self n b).1.freed.count p0 = h.freed.count p0 := by
  have hn0 : h.next ≠ p0 := by omega
  cases hq : self._m_pStr with
  | none =>
    refine ⟨?_, ?_, ?_⟩ <;> simp only [GetBuffer, hq, fresh_none]
    · simp [Function.update_noteq hn0.symm]
    · simp [hn0]
  | some p =>
    have hpn : p ≠ h.next := by have := hs p hq; omega
    have hpp : p0 ≠ p := by
      intro e; apply hne; rw [hq, e]
    simp only [GetBuffer, hq]
    split
    · refine ⟨by simp [store, Function.update_noteq hpp], ?_, rfl⟩
      rw [hq]; simpa using hpp.symm
    · rw [fresh_some _ _ _ _ _ _ _ hpn]
      refine ⟨by simp [Function.update_noteq hpp, Function.update_noteq hn0.symm],
        by simp [hn0], ?_⟩
      simp only
      split
      · simp [List.count_cons, hpp.symm]
      · rfl

/-- C13: let the block `p` of `a` be checked out for writing (reference count `-1`)
and `b` be another handle, not attached to `p`.  After `b = a` the handle `b` is
attached to a block other than `p` with reference count 1, whose content is the
storage of `a` up to its first terminator, followed by a terminator; the block `p`
is as it was, with count `-1` and the same elements, and has not been freed. -/
theorem ZXString.assign_checked_out (T : CharT) (h : Heap) (a b : ZXString) (p : Nat)
    (hq : a._m_pStr = some p) (hp : p < h.next) (hr : (h.mem p).nRef = -1)
    (hab : b.this ≠ a.this) (hbp : b._m_pStr ≠ some p) (hv : Valid h b) :
    ∃ q, (assign T h b a).2 = { this := b.this, _m_pStr := some q } ∧ q ≠ p ∧
      ((assign T h b a).1.mem q).nRef = 1 ∧
      GetLength T (assign T h b a).1 (assign T h b a).2 = Len (h.mem p).pStr ∧
      content T (assign T h b a).1 (assign T h b a).2 = cstr (h.mem p).pStr ∧
      elemAt (assign T h b a).1 (assign T h b a).2 (Len (h.mem p).pStr) = some 0 ∧
      (assign T h b a).1.mem p = h.mem p ∧
      (assign T h b a).1.freed.count p = h.freed.count p := by
  have hne1 : ((Len (h.mem p).pStr : Nat) : Int) ≠ -1 := by omega
  have hassign : assign T h b a =
      (ReleaseBuffer T (copyIn (GetBuffer T h b (Len (h.mem p).pStr) false).1
          (GetBuffer T h b (Len (h.mem p).pStr) false).2 0 (h.mem p).pStr
          (Len (h.mem p).pStr)) (GetBuffer T h b (Len (h.mem p).pStr) false).2
          (Len (h.mem p).pStr),
        (GetBuffer T h b (Len (h.mem p).pStr) false).2) := by
    simp only [assign, hab, if_false, hq, hr, if_true, assignPtr, Assign, hne1]
  obtain ⟨q, hG2, hroom⟩ := GetBuffer_room T h b (Len (h.mem p).pStr) false hv (by omega)
  obtain ⟨f1, f2, f3⟩ := GetBuffer_frame T h b (Len (h.mem p).pStr) false p
    (by
      intro p' hp'
      simp only [Valid, hp'] at hv
      exact hv.1) hp hbp
  have hqp : q ≠ p := by
    intro e; apply f2; rw [hG2, e]
  have hcommit := commit_eq T (GetBuffer T h b (Len (h.mem p).pStr) false).1
    (GetBuffer T h b (Len (h.mem p).pStr) false).2 q 0 (Len (h.mem p).pStr) (h.mem p).pStr
    (by rw [hG2]) (Len_le_length _) (by omega)
  simp only [Nat.zero_add, Nat.cast_zero] at hcommit
  rw [hassign, hcommit]
  refine ⟨q, hG2, hqp, ?_⟩
  simp only [GetLength, content, elemAt, hG2, Function.update_same,
    Function.update_noteq hqp.symm, CharT.mul_sizeof_ediv, Int.toNat_ofNat, f1, f3,
    List.take_zero, List.nil_append, take_Len, true_and, and_true]
  have hlen : (cstr (h.mem p).pStr).length = Len (h.mem p).pStr := by
    rw [← take_Len]; simp [Len_le_length]
  refine ⟨?_, ?_⟩
  · rw [← hlen, List.take_append_of_le_length (le_refl _), List.take_length]
  · have h0 : (0 : Int) ≤ ((Len (h.mem p).pStr : Nat) : Int) := by omega
    simp only [h0, if_true]
    rw [List.get?_eq_getElem?, ← hlen, List.getElem?_append_right (le_refl _)]
    simp

/-- Witness of C13: the block of `heap1` checked out by `GetBuffer`, copied to a handle
without buffer. -/
theorem ZXString.assign_checked_out_witness :
    ∃ q, (assign .char (GetBuffer .char heap1 owner0 2 false).1 null1 owner0).2 =
        { this := null1.this, _m_pStr := some q } ∧ q ≠ 0 ∧
      ((assign .char (GetBuffer .char heap1 owner0 2 false).1 null1 owner0).1.mem q).nRef = 1 ∧
      GetLength .char (assign .char (GetBuffer .char heap1 owner0 2 false).1 null1 owner0).1
        (assign .char (GetBuffer .char heap1 owner0 2 false).1 null1 owner0).2 =
        Len ((GetBuffer .char heap1 owner0 2 false).1.mem 0).pStr ∧
      content .char (assign .char (GetBuffer .char heap1 owner0 2 false).1 null1 owner0).1
        (assign .char (GetBuffer .char heap1 owner0 2 false).1 null1 owner0).2 =
        cstr ((GetBuffer .char heap1 owner0 2 false).1.mem 0).pStr ∧
      elemAt (assign .char (GetBuffer .char heap1 owner0 2 false).1 null1 owner0).1
        (assign .char (GetBuffer .char heap1 owner0 2 false).1 null1 owner0).2
        (Len ((GetBuffer .char heap1 owner0 2 false).1.mem 0).pStr) = some 0 ∧
      (assign .char (GetBuffer .char heap1 owner0 2 false).1 null1 owner0).1.mem 0 =
        (GetBuffer .char heap1 owner0 2 false).1.mem 0 ∧
      (assign .char (GetBuffer .char heap1 owner0 2 false).1 null1 owner0).1.freed.count 0 =
        (GetBuffer .char heap1 owner0 2 false).1.freed.count 0 :=
  ZXString.assign_checked_out .char (GetBuffer .char heap1 owner0 2 false).1 owner0 null1 0
    rfl (by decide) (by decide) (by decide) (by decide) (by decide)

/-! ## Concatenation -/

/-- The elements in use of a storage made of the old content, the appended elements, a
terminator and the rest. -/
theorem ZXString.take_block (A B C : List Nat) (z a b : Nat) (hA : A.length = a)
    (hB : B.length = b) : (A ++ B ++ z :: C).take (a + b) = A ++ B := by
  subst hA hB
  rw [← List.length_append, List.take_append_of_le_length (le_refl _), List.take_length]

/-- The terminator of such a storage. -/
theorem ZXString.get_block (A B C : List Nat) (z a b : Nat) (hA : A.length = a)
    (hB : B.length = b) : (A ++ B ++ z :: C).get? (a + b) = some z := by
  subst hA hB
  rw [List.get?_eq_getElem?, ← List.length_append,
    List.getElem?_append_right (le_refl _)]
  simp

/-- Appending `n > 0` elements to a non-empty well-formed handle on a committed block:
the content is extended by the elements, in place or in a fresh block. -/
theorem ZXString.Cat_nonempty_content (fuel : Nat) (T : CharT) (h : Heap) (self : ZXString)
    (p n : Nat) (src : List Nat) (hq : self._m_pStr = some p) (hwf : WellFormed T h self)
    (hr : 1 ≤ (h.mem p).nRef) (hne : ZXString.IsEmpty h self = false) (hn0 : 0 < n)
    (hn : n ≤ src.length) (hf : GetLength T h self + n ≤ fuel) :
    ∃ h' self', _Cat fuel T h self (some src) n = some (h', self') ∧
      content T h' self' = content T h self ++ src.take n ∧
      GetLength T h' self' = GetLength T h self + n ∧
      elemAt h' self' (GetLength T h self + n) = some 0 ∧
      WellFormed T h' self' := by
  obtain ⟨len, hp, hl, hbl, hle, ht, hgl⟩ := hwf.unpack hq
  have hpos := WellFormed.len_pos hq hne ht
  have hcon : content T h self = (h.mem p).pStr.take len := by
    simp only [content, hq, hgl, Int.toNat_ofNat]
  have hlenP : len ≤ (h.mem p).pStr.length := by omega
  have hs := T.sizeof_pos
  have hA : ((h.mem p).pStr.take len).length = len := by simp; omega
  have hB : (src.take n).length = n := by simp; omega
  rw [hgl] at hf ⊢
  rw [hcon]
  have h0 : (0 : Int) ≤ (len : Int) + (n : Int) := by omega
  have hcast : (len : Int) + n = ((len + n : Nat) : Int) := by push_cast; rfl
  have hmod : ((len + n : Nat) : Int) * (T.sizeof : Int) % (T.sizeof : Int) = 0 :=
    Int.mul_emod_left _ _
  by_cases hfit : (h.mem p).nRef = 1 ∧ (len : Int) + n ≤ (h.mem p).nCap
  · have hcat := Cat_inplace fuel T h self p len n src hq hl hbl hne hfit.1 hfit.2 hn0 hn
    refine ⟨_, _, hcat, ?_⟩
    simp only [GetLength, content, elemAt, WellFormed, hq, Function.update_same,
      CharT.mul_sizeof_ediv, Int.toNat_ofNat, h0, if_true, hcast, hmod]
    refine ⟨?_, trivial, ?_, hp, ?_, by positivity, trivial, ?_, ?_⟩
    · exact take_block _ _ _ _ _ _ hA hB
    · exact get_block _ _ _ _ _ _ hA hB
    · simp only [List.length_append, List.length_take, List.length_cons, List.length_drop,
        Nat.min_eq_left hlenP, Nat.min_eq_left hn]
      omega
    · have : ((len + n : Nat) : Int) ≤ (h.mem p).nCap := by rw [← hcast]; exact hfit.2
      exact Int.mul_le_mul_of_nonneg_right this (by omega)
    · exact get_block _ _ _ _ _ _ hA hB
  · have hno : 2 ≤ (h.mem p).nRef ∨ (h.mem p).nCap < (len : Int) + n := by
      by_cases h1 : (h.mem p).nRef = 1
      · right
        by_contra hc
        exact hfit ⟨h1, by omega⟩
      · left; omega
    obtain ⟨j, ⟨hj1, -⟩, hcat⟩ := Cat_realloc fuel T h self p len n src hq hp hl hbl hle hne
      (by omega) hno hn0 hn (by omega)
    have hpn : p ≠ h.next := by omega
    refine ⟨_, _, hcat, ?_⟩
    have hcapnn : (0 : Int) ≤ (h.mem p).nCap * 2 ^ j := by omega
    simp only [GetLength, content, elemAt, WellFormed, Function.update_same,
      Function.update_noteq hpn.symm, CharT.mul_sizeof_ediv, Int.toNat_ofNat, h0, if_true,
      hcast, hmod]
    refine ⟨?_, trivial, ?_, by omega, ?_, by positivity, trivial, ?_, ?_⟩
    · exact take_block _ _ _ _ _ _ hA hB
    · exact get_block _ _ _ _ _ _ hA hB
    · simp only [List.length_append, List.length_take, List.length_cons, List.length_drop,
        Nat.min_eq_left hlenP, Nat.min_eq_left hn, length_raw]
      omega
    · have : ((len + n : Nat) : Int) ≤ (h.mem p).nCap * 2 ^ j := by rw [← hcast]; exact hj1
      exact Int.mul_le_mul_of_nonneg_right this (by omega)
    · exact get_block _ _ _ _ _ _ hA hB

/-- C16: for a well-formed handle with content `c`, without buffer or on a committed
block (owned alone or shared), and a source `x` of `n` elements: `_Cat` with `n = 0`
returns the heap and the handle as they are; on a handle for which `IsEmpty()` holds
it leaves the state `Assign(x, n)` leaves; and on a handle for which it does not hold
it leaves the content `c` followed by the `n` elements of `x`, written from offset
`|c|` on, with `GetLength() = |c| + n` and a terminator after them. -/
theorem ZXString.Cat_cases (fuel : Nat) (T : CharT) (h : Heap) (self : ZXString)
    (hwf : WellFormed T h self) (hr : ∀ p, self._m_pStr = some p → 1 ≤ (h.mem p).nRef) :
    (∀ s : Option (List Nat), _Cat fuel T h self s 0 = some (h, self)) ∧
    (∀ (src : List Nat) (n : Int), ZXString.IsEmpty h self = true → 0 < n →
      _Cat fuel T h self (some src) n = some (Assign T h self (some src) n)) ∧
    (∀ (src : List Nat) (n : Nat), ZXString.IsEmpty h self = false → 0 < n →
      n ≤ src.length → GetLength T h self + n ≤ fuel →
      ∃ h' self', _Cat fuel T h self (some src) n = some (h', self') ∧
        content T h' self' = content T h self ++ src.take n ∧
        GetLength T h' self' = GetLength T h self + n ∧
        elemAt h' self' (GetLength T h self + n) = some 0) := by
  refine ⟨?_, ?_, ?_⟩
  · intro s
    simp [_Cat]
  · intro src n he hn
    have h0 : n ≠ 0 := by omega
    have h1 : n ≠ -1 := by omega
    simp [_Cat, Assign, he, h0, h1]
  · intro src n hne hn0 hn hf
    cases hq : self._m_pStr with
    | none => simp [ZXString.IsEmpty, hq] at hne
    | some p =>
      obtain ⟨h', self', e1, e2, e3, e4, -⟩ := Cat_nonempty_content fuel T h self p n src hq hwf
        (hr p hq) hne hn0 hn hf
      exact ⟨h', self', e1, e2, e3, e4⟩

/-- The number of doublings is determined by the capacity and the required length. -/
theorem ZXString.grow_least (c r : Int) (j j' : Nat)
    (h1 : r ≤ c * 2 ^ j) (h2 : ∀ i < j, c * 2 ^ i < r)
    (h1' : r ≤ c * 2 ^ j') (h2' : ∀ i < j', c * 2 ^ i < r) : j = j' := by
  rcases Nat.lt_trichotomy j j' with hlt | heq | hgt
  · have := h2' j hlt; omega
  · exact heq
  · have := h2 j' hgt; omega

/-- From a capacity that is not positive the doubling loop never reaches a larger
required length. -/
theorem ZXString.grow_stuck (fuel : Nat) (c r : Int) (hc : c ≤ 0) (hr : c < r) :
    _Cat.grow fuel c r = none := by
  induction fuel generalizing c with
  | zero => simp [_Cat.grow, hr]
  | succ f ih =>
    simp only [_Cat.grow, hr, if_true]
    exact ih (c * 2) (by omega) (by omega)

/-- C17: for a well-formed handle for which `IsEmpty()` does not hold and `n > 0`, the
capacity is at least 1 and the doubling loop of `_Cat` ends, for every fuel from the
required length `GetLength() + n` on, at `nCap * 2 ^ j` for the least `j` with
`nCap * 2 ^ j ≥ GetLength() + n`; that capacity is what `_Cat` passes to `GetBuffer`.
From a capacity that is not positive the loop does not end. -/
theorem ZXString.Cat_doubling (T : CharT) (h : Heap) (self : ZXString) (p : Nat) (n : Int)
    (hq : self._m_pStr = some p) (hwf : WellFormed T h self)
    (hne : ZXString.IsEmpty h self = false) (hn : 0 < n) :
    1 ≤ (h.mem p).nCap ∧
    (∃ j : Nat, GetLength T h self + n ≤ (h.mem p).nCap * 2 ^ j ∧
      (∀ i < j, (h.mem p).nCap * 2 ^ i < GetLength T h self + n) ∧
      (∀ fuel : Nat, GetLength T h self + n ≤ fuel →
        _Cat.grow fuel (h.mem p).nCap (GetLength T h self + n) =
          some ((h.mem p).nCap * 2 ^ j)) ∧
      (∀ (fuel : Nat) (s : Option (List Nat)), GetLength T h self + n ≤ fuel →
        _Cat fuel T h self s n =
          some (ReleaseBuffer T
            (copyIn (GetBuffer T h self ((h.mem p).nCap * 2 ^ j) true).1
              (GetBuffer T h self ((h.mem p).nCap * 2 ^ j) true).2
              (GetLength T (GetBuffer T h self ((h.mem p).nCap * 2 ^ j) true).1
                (GetBuffer T h self ((h.mem p).nCap * 2 ^ j) true).2) (s.getD []) n)
            (GetBuffer T h self ((h.mem p).nCap * 2 ^ j) true).2 (GetLength T h self + n),
            (GetBuffer T h self ((h.mem p).nCap * 2 ^ j) true).2))) ∧
    (∀ (fuel : Nat) (c r : Int), c ≤ 0 → c < r → _Cat.grow fuel c r = none) := by
  obtain ⟨len, hp, hl, hbl, hle, ht, hgl⟩ := hwf.unpack hq
  have hpos := WellFormed.len_pos hq hne ht
  have hc : 1 ≤ (h.mem p).nCap := by omega
  refine ⟨hc, ?_, fun fuel c r => grow_stuck fuel c r⟩
  obtain ⟨j, hj, h1, h2⟩ := grow_spec (GetLength T h self + n).toNat (h.mem p).nCap
    (GetLength T h self + n) hc (by rw [hgl]; omega)
  have hgrow : ∀ fuel : Nat, GetLength T h self + n ≤ fuel →
      _Cat.grow fuel (h.mem p).nCap (GetLength T h self + n) =
        some ((h.mem p).nCap * 2 ^ j) := by
    intro fuel hf
    obtain ⟨j', hj', h1', h2'⟩ := grow_spec fuel (h.mem p).nCap (GetLength T h self + n) hc
      (by omega)
    rw [hj', grow_least _ _ j j' h1 h2 h1' h2']
  refine ⟨j, h1, h2, hgrow, ?_⟩
  intro fuel s hf
  have hn0 : n ≠ 0 := by omega
  simp only [_Cat, hn0, ne_eq, not_false_eq_true, if_true, hne, Bool.false_eq_true, if_false,
    hq, hgrow fuel hf]

/-- Witness of C16: the handle of `heap1`. -/
theorem ZXString.Cat_cases_witness :
    (∀ s : Option (List Nat), _Cat 5 .char heap1 owner0 s 0 = some (heap1, owner0)) ∧
    (∀ (src : List Nat) (n : Int), ZXString.IsEmpty heap1 owner0 = true → 0 < n →
      _Cat 5 .char heap1 owner0 (some src) n = some (Assign .char heap1 owner0 (some src) n)) ∧
    (∀ (src : List Nat) (n : Nat), ZXString.IsEmpty heap1 owner0 = false → 0 < n →
      n ≤ src.length → GetLength .char heap1 owner0 + n ≤ (5 : Nat) →
      ∃ h' self', _Cat 5 .char heap1 owner0 (some src) n = some (h', self') ∧
        content .char h' self' = content .char heap1 owner0 ++ src.take n ∧
        GetLength .char h' self' = GetLength .char heap1 owner0 + n ∧
        elemAt h' self' (GetLength .char heap1 owner0 + n) = some 0) :=
  ZXString.Cat_cases 5 .char heap1 owner0 (by decide)
    (by
      intro p hp
      have hp0 : p = 0 := by simpa [owner0] using hp.symm
      subst hp0
      decide)

/-- Appending "c" to the handle of `heap1`, which holds "ab" in a block of capacity 2:
a fresh block of capacity 4 with the content "abc", and the old block freed. -/
theorem ZXString.Cat_heap1 :
    (Cat 5 .char heap1 owner0 [99, 0]).map
        (fun r => (r.2, r.1.mem 1, r.1.freed, content .char r.1 r.2)) =
      some ({ this := 0, _m_pStr := some 1 },
        { nRef := 1, nCap := 4, nByteLen := 3, pStr := [97, 98, 99, 0, 7] }, [0],
        [97, 98, 99]) := by
  decide

/-- Witness of C17: one element appended to the handle of `heap1`. -/
theorem ZXString.Cat_doubling_witness :
    1 ≤ (heap1.mem 0).nCap ∧
    (∃ j : Nat, GetLength .char heap1 owner0 + 1 ≤ (heap1.mem 0).nCap * 2 ^ j ∧
      (∀ i < j, (heap1.mem 0).nCap * 2 ^ i < GetLength .char heap1 owner0 + 1) ∧
      (∀ fuel : Nat, GetLength .char heap1 owner0 + 1 ≤ fuel →
        _Cat.grow fuel (heap1.mem 0).nCap (GetLength .char heap1 owner0 + 1) =
          some ((heap1.mem 0).nCap * 2 ^ j)) ∧
      (∀ (fuel : Nat) (s : Option (List Nat)), GetLength .char heap1 owner0 + 1 ≤ fuel →
        _Cat fuel .char heap1 owner0 s 1 =
          some (ReleaseBuffer .char
            (copyIn (GetBuffer .char heap1 owner0 ((heap1.mem 0).nCap * 2 ^ j) true).1
              (GetBuffer .char heap1 owner0 ((heap1.mem 0).nCap * 2 ^ j) true).2
              (GetLength .char (GetBuffer .char heap1 owner0 ((heap1.mem 0).nCap * 2 ^ j) true).1
                (GetBuffer .char heap1 owner0 ((heap1.mem 0).nCap * 2 ^ j) true).2)
              (s.getD []) 1)
            (GetBuffer .char heap1 owner0 ((heap1.mem 0).nCap * 2 ^ j) true).2
            (GetLength .char heap1 owner0 + 1),
            (GetBuffer .char heap1 owner0 ((heap1.mem 0).nCap * 2 ^ j) true).2))) ∧
    (∀ (fuel : Nat) (c r : Int), c ≤ 0 → c < r → _Cat.grow fuel c r = none) :=
  ZXString.Cat_doubling .char heap1 owner0 0 1 rfl (by decide) (by decide) (by decide)

/-! ## Acquire on a fresh block -/

theorem ZStrUtil.CharT.ediv_nonneg (T : CharT) (b : Int) (hb : 0 ≤ b) :
    0 ≤ b / (T.sizeof : Int) :=
  Int.ediv_nonneg hb (by have := T.sizeof_pos; omega)

/-- C18 (amended): when `GetBuffer(m, b)` cannot reuse the buffer in place it attaches the
handle to a fresh block, for either element width. Its capacity is at least `m` and, when
an old buffer existed, at least the old byte length divided by the element size, which for
the narrow width is the old byte length. With `b` set the old byte length is carried over,
fits the new capacity and the block starts with the old content and its terminator; without
`b`, and when no old buffer existed, the byte length is `0` with a terminator at offset
`0`. -/
theorem ZXString.GetBuffer_fresh_block (T : CharT) (h : Heap) (self : ZXString) (m : Int) (b : Bool) :
    (∀ p, self._m_pStr = some p → p < h.next →
      ¬ ((h.mem p).nRef ≤ 1 ∧ (h.mem p).nCap ≥ m) → 0 ≤ (h.mem p).nByteLen →
      (GetBuffer T h self m b).2 = { this := self.this, _m_pStr := some h.next } ∧
      (GetBuffer T h self m b).1.next = h.next + 1 ∧
      m ≤ ((GetBuffer T h self m b).1.mem h.next).nCap ∧
      (h.mem p).nByteLen / T.sizeof ≤ ((GetBuffer T h self m b).1.mem h.next).nCap ∧
      (T = .char → (h.mem p).nByteLen ≤ ((GetBuffer T h self m b).1.mem h.next).nCap) ∧
      (b = true →
        ((GetBuffer T h self m b).1.mem h.next).nByteLen = (h.mem p).nByteLen ∧
        (WellFormed T h self →
          (h.mem p).nByteLen ≤ ((GetBuffer T h self m b).1.mem h.next).nCap * T.sizeof ∧
          ((GetBuffer T h self m b).1.mem h.next).pStr.take
            ((GetLength T h self).toNat + 1) = content T h self ++ [0])) ∧
      (b = false →
        ((GetBuffer T h self m b).1.mem h.next).nByteLen = 0 ∧
        ((GetBuffer T h self m b).1.mem h.next).pStr.get? 0 = some 0)) ∧
    (self._m_pStr = none →
      (GetBuffer T h self m b).2 = { this := self.this, _m_pStr := some h.next } ∧
      (GetBuffer T h self m b).1.next = h.next + 1 ∧
      m ≤ ((GetBuffer T h self m b).1.mem h.next).nCap ∧
      ((GetBuffer T h self m b).1.mem h.next).nByteLen = 0 ∧
      ((GetBuffer T h self m b).1.mem h.next).pStr.get? 0 = some 0) := by
  have hpoke : ∀ c : Int, 0 ≤ c → (poke (raw h h.next c) 0 0).get? 0 = some 0 := by
    intro c hc
    have hlen : 0 < (raw h h.next c).length := by rw [length_raw]; omega
    simp only [poke, le_refl, if_true, Int.toNat_zero, List.get?_eq_getElem?]
    rw [List.getElem?_set_self hlen]
  refine ⟨?_, ?_⟩
  · intro p hq hp hno hb0
    have hne : p ≠ h.next := by omega
    have hc0 := T.ediv_nonneg _ hb0
    have hG : GetBuffer T h self m b =
        GetBuffer.fresh T h self (some p) ((h.mem p).nByteLen / T.sizeof) m b := by
      simp only [GetBuffer, hq, hno, if_false]
    rw [hG, fresh_some _ _ _ _ _ _ _ hne]
    simp only [Function.update_noteq hne.symm, Function.update_same]
    refine ⟨trivial, trivial, by split <;> omega, by split <;> omega, ?_, ?_, ?_⟩
    · intro hT
      subst hT
      simp only [CharT.sizeof, Nat.cast_one, Int.ediv_one]
      split <;> omega
    · intro hb
      subst hb
      simp only [if_true, true_and]
      intro hwf
      obtain ⟨len, -, hl, hbl, hle, ht, hgl⟩ := hwf.unpack hq
      have hs := T.sizeof_pos
      constructor
      · have : (h.mem p).nByteLen / (T.sizeof : Int) ≤
            (if (h.mem p).nByteLen / (T.sizeof : Int) < m then m
              else (h.mem p).nByteLen / (T.sizeof : Int)) := by split <;> omega
        rw [hbl, CharT.mul_sizeof_ediv] at this ⊢
        exact Int.mul_le_mul_of_nonneg_right this (by omega)
      · rw [hbl, CharT.mul_sizeof_ediv, memcpy_retain T _ _ len (by omega)
          (by rw [length_raw]; split <;> omega)]
        simp only [content, hq, hgl, Int.toNat_ofNat]
        rw [List.take_append_of_le_length (by simp; omega), List.take_take, Nat.min_self]
        have hlt : len < (h.mem p).pStr.length := by omega
        rw [List.take_succ, ← List.get?_eq_getElem?, ht]
        rfl
    · intro hb
      subst hb
      simp only [Bool.false_eq_true, if_false, true_and]
      exact hpoke _ (by split <;> omega)
  · intro hq
    simp only [GetBuffer, hq, fresh_none, Function.update_same]
    refine ⟨trivial, trivial, by split <;> omega, trivial, ?_⟩
    exact hpoke _ (by split <;> omega)

/-- C18 (as stated, refuted): for the wide element width the block allocated by
`GetBuffer(4, true)` on a well-formed wide string "abc" of byte length `6`, which it cannot
reuse in place, has capacity `4`, less than the old byte length. -/
theorem ZXString.GetBuffer_wide_capacity :
    WellFormed .wchar_t heapW owner0 ∧
      ¬ ((heapW.mem 0).nRef ≤ 1 ∧ (heapW.mem 0).nCap ≥ 4) ∧
      (GetBuffer .wchar_t heapW owner0 4 true).2._m_pStr = some 1 ∧
      (GetBuffer .wchar_t heapW owner0 4 true).1.next = heapW.next + 1 ∧
      (heapW.mem 0).nByteLen = 6 ∧
      ((GetBuffer .wchar_t heapW owner0 4 true).1.mem 1).nCap = 4 ∧
      ¬ ((heapW.mem 0).nByteLen ≤ ((GetBuffer .wchar_t heapW owner0 4 true).1.mem 1).nCap) := by
  decide

/-- The wide string "abc" grown to four elements: capacity `4`, at least the old length
`6 / 2` in elements, byte length `6` carried over, content and terminator copied. -/
theorem ZXString.GetBuffer_fresh_block_witness :
    (WellFormed .wchar_t heapW owner0 ∧
      ¬ ((heapW.mem 0).nRef ≤ 1 ∧ (heapW.mem 0).nCap ≥ 4)) ∧
    ((4 : Int) ≤ ((GetBuffer .wchar_t heapW owner0 4 true).1.mem heapW.next).nCap ∧
      (heapW.mem 0).nByteLen / CharT.wchar_t.sizeof ≤
        ((GetBuffer .wchar_t heapW owner0 4 true).1.mem heapW.next).nCap ∧
      ((GetBuffer .wchar_t heapW owner0 4 true).1.mem heapW.next).nByteLen =
        (heapW.mem 0).nByteLen ∧
      ((GetBuffer .wchar_t heapW owner0 4 true).1.mem heapW.next).pStr.take
        ((GetLength .wchar_t heapW owner0).toNat + 1) =
        content .wchar_t heapW owner0 ++ [0]) ∧
    content .wchar_t heapW owner0 = [97, 98, 99] :=
  have H := (ZXString.GetBuffer_fresh_block .wchar_t heapW owner0 4 true).1 0 rfl (by decide) (by decide)
    (by decide)
  ⟨by decide, ⟨H.2.2.1, H.2.2.2.1, (H.2.2.2.2.2.1 rfl).1, ((H.2.2.2.2.2.1 rfl).2 (by decide)).2⟩,
    by decide⟩

/-! ## The write cycle and the block invariants -/

/-- The two ways `GetBuffer` ends: on the block the handle has, which it owns alone, or
on a fresh block, the old one released as the destructor would. -/
theorem ZXString.GetBuffer_shape (T : CharT) (h : Heap) (self : ZXString) (m : Int) (b : Bool)
    (hp : ∀ p, self._m_pStr = some p → p < h.next) :
    ∃ q, (GetBuffer T h self m b).2 = { this := self.this, _m_pStr := some q } ∧
      ((self._m_pStr = some q ∧ (h.mem q).nRef ≤ 1 ∧ m ≤ (h.mem q).nCap ∧
          (GetBuffer T h self m b).1 = store h q { h.mem q with nRef := -1 }) ∨
        (q = h.next ∧ (GetBuffer T h self m b).1.next = h.next + 1 ∧
          (GetBuffer T h self m b).1.freed = (destroy h self).freed ∧
          (∀ a, a ≠ h.next → (GetBuffer T h self m b).1.mem a = (destroy h self).mem a) ∧
          m ≤ ((GetBuffer T h self m b).1.mem h.next).nCap ∧
          (0 ≤ m → (((GetBuffer T h self m b).1.mem h.next).pStr.length : Int) =
            ((GetBuffer T h self m b).1.mem h.next).nCap + 1))) := by
  cases hq : self._m_pStr with
  | none =>
    refine ⟨h.next, ?_, Or.inr ?_⟩
    · simp only [GetBuffer, hq, fresh_none]
    · simp only [GetBuffer, hq, fresh_none, destroy, Function.update_same, length_poke,
        length_raw]
      refine ⟨trivial, trivial, trivial, ?_, by split <;> omega, ?_⟩
      · intro a ha
        rw [Function.update_noteq ha]
      · intro hm
        split <;> omega
  | some p =>
    have hlt := hp p hq
    have hne : p ≠ h.next := by omega
    by_cases hc : (h.mem p).nRef ≤ 1 ∧ (h.mem p).nCap ≥ m
    · refine ⟨p, ?_, Or.inl ⟨rfl, hc.1, hc.2, ?_⟩⟩
      · simp only [GetBuffer, hq, hc, and_self, if_true]
        cases self; simp_all
      · simp only [GetBuffer, hq, hc, and_self, if_true]
    · refine ⟨h.next, ?_, Or.inr ?_⟩
      · simp only [GetBuffer, hq, hc, if_false, fresh_some _ _ _ _ _ _ _ hne]
      · simp only [GetBuffer, hq, hc, if_false, fresh_some _ _ _ _ _ _ _ hne, destroy,
          _Release, store, _Free, Function.update_noteq hne.symm, Function.update_same]
        refine ⟨trivial, trivial, ?_, ?_, by split <;> omega, ?_⟩
        · split <;> rfl
        · intro a ha
          by_cases hap : a = p
          · subst hap
            simp only [Function.update_same]
            split <;> simp only [Function.update_same]
          · simp only [Function.update_noteq hap, Function.update_noteq ha]
            split <;> simp only [Function.update_noteq hap]
        · intro hm
          cases b <;>
            simp only [length_poke, length_memcpy, length_raw, reduceIte, Bool.false_eq_true] <;>
            split <;> omega

/-- Copying into the storage and committing touch the block of the handle only, and leave
it with reference count 1. -/
theorem ZXString.commit_shape (T : CharT) (h : Heap) (self : ZXString) (q : Nat)
    (off : Int) (src : List Nat) (k c : Int) (hq : self._m_pStr = some q) :
    (ReleaseBuffer T (copyIn h self off src k) self c).next = h.next ∧
      (ReleaseBuffer T (copyIn h self off src k) self c).freed = h.freed ∧
      (∀ a, a ≠ q → (ReleaseBuffer T (copyIn h self off src k) self c).mem a = h.mem a) ∧
      ((ReleaseBuffer T (copyIn h self off src k) self c).mem q).nRef = 1 ∧
      ((ReleaseBuffer T (copyIn h self off src k) self c).mem q).nCap = (h.mem q).nCap ∧
      ((ReleaseBuffer T (copyIn h self off src k) self c).mem q).pStr.length =
        (h.mem q).pStr.length ∧
      (c ≠ -1 →
        ((ReleaseBuffer T (copyIn h self off src k) self c).mem q).nByteLen = c * T.sizeof ∧
        ((ReleaseBuffer T (copyIn h self off src k) self c).mem q).pStr =
          poke (memcpy (h.mem q).pStr off src k) c 0) := by
  by_cases hc : c = -1
  · subst hc
    simp only [ReleaseBuffer, copyIn, hq, store, if_true, Function.update_same, length_memcpy,
      ne_eq, not_true_eq_false, false_implies, and_true, true_and]
    intro a ha
    simp only [Function.update_noteq ha]
  · simp only [ReleaseBuffer, copyIn, hq, store, hc, if_false, Function.update_same,
      length_memcpy, length_poke, ne_eq, not_false_eq_true, true_implies, and_true, true_and]
    intro a ha
    simp only [Function.update_noteq ha]

theorem ZXString.get?_poke (G : List Nat) (c : Int) (hc : 0 ≤ c) (hlt : c.toNat < G.length) :
    (poke G c 0).get? c.toNat = some 0 := by
  simp only [poke, hc, if_true, List.get?_eq_getElem?]
  rw [List.getElem?_set_self hlt]

/-- The write cycle, in place or on a fresh block: the handle ends on a block with
reference count 1, and the rest of the heap is as it was, or as the destructor of the
handle would leave it. -/
theorem ZXString.cycle_spec (T : CharT) (h : Heap) (self : ZXString) (m : Int) (b : Bool)
    (off : Int) (src : List Nat) (k c : Int)
    (hp : ∀ p, self._m_pStr = some p → p < h.next) :
    ∃ q, (cycle T h self m b off src k c).2 = { this := self.this, _m_pStr := some q } ∧
      ((cycle T h self m b off src k c).1.mem q).nRef = 1 ∧
      m ≤ ((cycle T h self m b off src k c).1.mem q).nCap ∧
      (c ≠ -1 → ((cycle T h self m b off src k c).1.mem q).nByteLen = c * T.sizeof ∧
        (0 ≤ c → c.toNat < ((cycle T h self m b off src k c).1.mem q).pStr.length →
          ((cycle T h self m b off src k c).1.mem q).pStr.get? c.toNat = some 0)) ∧
      ((self._m_pStr = some q ∧ (h.mem q).nRef ≤ 1 ∧
          (cycle T h self m b off src k c).1.next = h.next ∧
          (cycle T h self m b off src k c).1.freed = h.freed ∧
          (∀ a, a ≠ q → (cycle T h self m b off src k c).1.mem a = h.mem a) ∧
          ((cycle T h self m b off src k c).1.mem q).nCap = (h.mem q).nCap ∧
          ((cycle T h self m b off src k c).1.mem q).pStr.length = (h.mem q).pStr.length) ∨
        (q = h.next ∧ (cycle T h self m b off src k c).1.next = h.next + 1 ∧
          (cycle T h self m b off src k c).1.freed = (destroy h self).freed ∧
          (∀ a, a ≠ q → (cycle T h self m b off src k c).1.mem a = (destroy h self).mem a) ∧
          (0 ≤ m → (((cycle T h self m b off src k c).1.mem q).pStr.length : Int) =
            ((cycle T h self m b off src k c).1.mem q).nCap + 1))) := by
  obtain ⟨q, hq, hcase⟩ := GetBuffer_shape T h self m b hp
  have hq' : (GetBuffer T h self m b).2._m_pStr = some q := by rw [hq]
  obtain ⟨c1, c2, c3, c4, c5, c6, c7⟩ := commit_shape T (GetBuffer T h self m b).1
    (GetBuffer T h self m b).2 q off src k c hq'
  refine ⟨q, hq, c4, ?_, ?_, ?_⟩
  · rw [show ((cycle T h self m b off src k c).1.mem q).nCap =
      ((GetBuffer T h self m b).1.mem q).nCap from c5]
    rcases hcase with ⟨-, -, hm, e⟩ | ⟨e, -, -, -, hm, -⟩
    · rw [e]; simp only [store, Function.update_same]; exact hm
    · rw [e]; exact hm
  · intro hc
    refine ⟨(c7 hc).1, ?_⟩
    intro hc0 hlt
    simp only [cycle] at hlt ⊢
    rw [(c7 hc).2] at hlt ⊢
    rw [length_poke] at hlt
    exact get?_poke _ _ hc0 hlt
  · rcases hcase with ⟨e1, e2, -, e⟩ | ⟨e, e1, e2, e3, -, e4⟩
    · refine Or.inl ⟨e1, e2, ?_, ?_, ?_, ?_, ?_⟩
      · simp only [cycle]; rw [c1, e]; rfl
      · simp only [cycle]; rw [c2, e]; rfl
      · intro a ha
        simp only [cycle]; rw [c3 a ha, e]
        simp only [store, Function.update_noteq ha]
      · simp only [cycle]; rw [c5, e]
        simp only [store, Function.update_same]
      · simp only [cycle]; rw [c6, e]
        simp only [store, Function.update_same]
    · subst e
      refine Or.inr ⟨rfl, ?_, ?_, ?_, ?_⟩
      · simp only [cycle]; rw [c1, e1]
      · simp only [cycle]; rw [c2, e2]
      · intro a ha
        simp only [cycle]; rw [c3 a ha, e3 a ha]
      · intro hm
        simp only [cycle]; rw [c5, c6]
        exact e4 hm

/-- The block the handle is on after a write cycle that commits a length within the
length asked for. -/
theorem ZXString.cycle_block (T : CharT) (h : Heap) (self : ZXString) (m : Int) (b : Bool)
    (off : Int) (src : List Nat) (k c : Int) (hv : Valid h self) (hc0 : 0 ≤ c) (hcm : c ≤ m) :
    ∃ q, (cycle T h self m b off src k c).2 = { this := self.this, _m_pStr := some q } ∧
      q < (cycle T h self m b off src k c).1.next ∧
      ((cycle T h self m b off src k c).1.mem q).nRef = 1 ∧
      (((cycle T h self m b off src k c).1.mem q).pStr.length : Int) =
        ((cycle T h self m b off src k c).1.mem q).nCap + 1 ∧
      m ≤ ((cycle T h self m b off src k c).1.mem q).nCap ∧
      ((cycle T h self m b off src k c).1.mem q).nByteLen = c * T.sizeof ∧
      ((cycle T h self m b off src k c).1.mem q).pStr.get? c.toNat = some 0 := by
  have hp : ∀ p, self._m_pStr = some p → p < h.next := by
    intro p hq
    simp only [Valid, hq] at hv
    exact hv.1
  obtain ⟨q, hq, hr, hm, hc, hcase⟩ := cycle_spec T h self m b off src k c hp
  have hlen : (((cycle T h self m b off src k c).1.mem q).pStr.length : Int) =
      ((cycle T h self m b off src k c).1.mem q).nCap + 1 := by
    rcases hcase with ⟨e1, -, -, -, -, e5, e6⟩ | ⟨-, -, -, -, e4⟩
    · simp only [Valid, e1] at hv
      rw [e5, e6]; exact hv.2
    · exact e4 (by omega)
  have hlt : q < (cycle T h self m b off src k c).1.next := by
    rcases hcase with ⟨e1, -, e2, -⟩ | ⟨e, e1, -⟩
    · rw [e2]; exact hp q e1
    · rw [e1, e]; omega
  have hne : c ≠ -1 := by omega
  exact ⟨q, hq, hlt, hr, hlen, hm, (hc hne).1, (hc hne).2 hc0 (by omega)⟩

theorem ZXString.Assign_eq_cycle (T : CharT) (h : Heap) (self : ZXString) (src : List Nat)
    (n : Int) :
    Assign T h self (some src) n =
      cycle T h self (if n = -1 then (Len src : Int) else n) false 0 src
        (if n = -1 then (Len src : Int) else n) (if n = -1 then (Len src : Int) else n) := rfl

theorem ZXString.body_eq_cycle (T : CharT) (P : Int → Int × List Nat) (h : Heap)
    (s : ZXString) (i : Int) :
    _FormatV.body T P h s i =
      cycle T h s i false 0 (P i).2 (P i).2.length (if (P i).1 < 0 then 0 else (P i).1) := rfl

/-- Releasing a block changes its reference count and the record of freed blocks only. -/
theorem ZXString._Release_frame (h : Heap) (p : Nat) :
    (_Release h p).next = h.next ∧ (∀ a, a ∈ h.freed → a ∈ (_Release h p).freed) ∧
      ∀ a, ∃ r, (_Release h p).mem a = { h.mem a with nRef := r } := by
  refine ⟨?_, ?_, ?_⟩
  · simp only [_Release, store, _Free]; split <;> rfl
  · intro a ha
    simp only [_Release, store, _Free]; split
    · exact List.mem_cons_of_mem _ ha
    · exact ha
  · intro a
    by_cases hap : a = p
    · subst hap
      refine ⟨(h.mem a).nRef - 1, ?_⟩
      simp only [_Release, store, _Free]; split <;> simp only [Function.update_same]
    · refine ⟨(h.mem a).nRef, ?_⟩
      simp only [_Release, store, _Free]; split <;> simp only [Function.update_noteq hap]

theorem ZXString.destroy_frame (h : Heap) (self : ZXString) :
    (destroy h self).next = h.next ∧ (∀ a, a ∈ h.freed → a ∈ (destroy h self).freed) ∧
      ∀ a, ∃ r, (destroy h self).mem a = { h.mem a with nRef := r } := by
  cases hq : self._m_pStr with
  | none =>
    simp only [destroy, hq]
    exact ⟨trivial, fun _ ha => ha, fun a => ⟨(h.mem a).nRef, rfl⟩⟩
  | some p =>
    simp only [destroy, hq]
    exact _Release_frame h p

/-- The invariants of the live blocks do not depend on reference counts, and hold for
fewer live blocks when they hold for more. -/
theorem ZXString.HeapInv_frame {T : CharT} {h h' : Heap} (hI : HeapInv T h)
    (hn : h'.next = h.next) (hf : ∀ a, a ∈ h.freed → a ∈ h'.freed)
    (hm : ∀ a, ∃ r, h'.mem a = { h.mem a with nRef := r }) : HeapInv T h' := by
  intro a ha hfa
  obtain ⟨r, hr⟩ := hm a
  rw [hr]
  exact hI a (by omega) (fun hc => hfa (hf a hc))

theorem ZXString.Valid_frame {h h' : Heap} {x : ZXString} (hv : Valid h x)
    (hn : h.next ≤ h'.next) (hm : ∀ a, ∃ r, h'.mem a = { h.mem a with nRef := r }) :
    Valid h' x := by
  cases hq : x._m_pStr with
  | none => simp only [Valid, hq]
  | some p =>
    simp only [Valid, hq] at hv ⊢
    obtain ⟨r, hr⟩ := hm p
    rw [hr]
    exact ⟨by omega, hv.2⟩

/-- The block invariants from the facts a write cycle leaves. -/
theorem ZXString.BlockInv_of_commit {T : CharT} {d : _ZXStringData} {m c : Int}
    (hc0 : 0 ≤ c) (hcm : c ≤ m) (hm : m ≤ d.nCap) (hb : d.nByteLen = c * T.sizeof)
    (ht : d.pStr.get? c.toNat = some 0) : BlockInv T d := by
  have hs := T.sizeof_pos
  refine ⟨by omega, ?_, ?_, ?_⟩
  · rw [hb]; exact Int.mul_le_mul_of_nonneg_right (by omega) (by omega)
  · rw [hb, CharT.mul_sizeof_ediv]; exact hc0
  · rw [hb, CharT.mul_sizeof_ediv]; exact ht

/-- A write cycle on a valid handle that commits a length within the length asked for
keeps the invariants of the live blocks and leaves the handles valid. -/
theorem ZXString.HeapInv_cycle {T : CharT} {h : Heap} (hI : HeapInv T h) (self : ZXString)
    (m : Int) (b : Bool) (off : Int) (src : List Nat) (k c : Int) (hv : Valid h self)
    (hc0 : 0 ≤ c) (hcm : c ≤ m) :
    HeapInv T (cycle T h self m b off src k c).1 ∧
      Valid (cycle T h self m b off src k c).1 (cycle T h self m b off src k c).2 ∧
      WellFormed T (cycle T h self m b off src k c).1 (cycle T h self m b off src k c).2 ∧
      GetLength T (cycle T h self m b off src k c).1 (cycle T h self m b off src k c).2 = c ∧
      ∀ x, Valid h x → Valid (cycle T h self m b off src k c).1 x := by
  have hp : ∀ p, self._m_pStr = some p → p < h.next := by
    intro p hq
    simp only [Valid, hq] at hv
    exact hv.1
  obtain ⟨q, hq, hlt, hr, hlen, hm, hb, ht⟩ := cycle_block T h self m b off src k c hv hc0 hcm
  obtain ⟨q', hq', -, -, -, hcase⟩ := cycle_spec T h self m b off src k c hp
  have hqq : q' = q := by
    rw [hq] at hq'
    simpa using hq'.symm
  subst hqq
  have hs := T.sizeof_pos
  have hB : BlockInv T ((ZXString.cycle T h self m b off src k c).1.mem q') :=
    BlockInv_of_commit hc0 hcm hm hb ht
  obtain ⟨d1, d2, d3⟩ := destroy_frame h self
  refine ⟨?_, ?_, ?_, ?_, ?_⟩
  · intro a ha hfa
    by_cases haq : a = q'
    · rw [haq]; exact hB
    · rcases hcase with ⟨-, -, e1, e2, e3, -⟩ | ⟨e, e1, e2, e3, -⟩
      · rw [e3 a haq]
        exact hI a (by omega) (by rw [← e2]; exact hfa)
      · rw [e3 a haq]
        obtain ⟨r, hr⟩ := d3 a
        rw [hr]
        exact hI a (by omega) (fun hc => hfa (by rw [e2]; exact d2 a hc))
  · simp only [Valid, hq]
    exact ⟨hlt, hlen⟩
  · simp only [WellFormed, hq]
    refine ⟨hlt, hlen, ?_, ?_, hB.2.1, hB.2.2.2⟩
    · rw [hb]; exact Int.mul_nonneg hc0 (by omega)
    · rw [hb]; exact Int.mul_emod_left _ _
  · simp only [GetLength, hq, hb, CharT.mul_sizeof_ediv]
  · intro x hx
    cases hxq : x._m_pStr with
    | none => simp only [Valid, hxq]
    | some a =>
      simp only [Valid, hxq] at hx ⊢
      by_cases haq : a = q'
      · rw [haq]; exact ⟨hlt, hlen⟩
      · rcases hcase with ⟨-, -, e1, e2, e3, -⟩ | ⟨e, e1, e2, e3, -⟩
        · rw [e3 a haq, e1]; exact hx
        · rw [e3 a haq, e1]
          obtain ⟨r, hr⟩ := d3 a
          rw [hr]
          exact ⟨by omega, hx.2⟩

/-- Copy assignment between valid handles keeps the invariants of the live blocks and
leaves the handles valid. -/
theorem ZXString.HeapInv_assign {T : CharT} {h : Heap} (hI : HeapInv T h) (self s : ZXString)
    (hv : Valid h self) (hs : Valid h s) :
    HeapInv T (assign T h self s).1 ∧ Valid (assign T h self s).1 (assign T h self s).2 ∧
      ∀ x, Valid h x → Valid (assign T h self s).1 x := by
  by_cases hts : self.this = s.this
  · simp only [assign, hts, if_true]
    exact ⟨hI, by rw [← hts] at *; exact hv, fun x hx => hx⟩
  · cases hq : s._m_pStr with
    | none =>
      have e : assign T h self s = (destroy h self, { self with _m_pStr := none }) := by
        simp only [assign, hts, if_false, hq, destroy]
        cases hp : self._m_pStr with
        | none => cases self; simp_all
        | some p => rfl
      obtain ⟨d1, d2, d3⟩ := destroy_frame h self
      rw [e]
      exact ⟨HeapInv_frame hI d1 d2 d3, by simp only [Valid],
        fun x hx => Valid_frame hx (by rw [d1]) d3⟩
    | some q =>
      by_cases hr : (h.mem q).nRef = -1
      · have e : assign T h self s =
            cycle T h self (Len (h.mem q).pStr) false 0 (h.mem q).pStr (Len (h.mem q).pStr)
              (Len (h.mem q).pStr) := by
          have : ((Len (h.mem q).pStr : Nat) : Int) ≠ -1 := by omega
          simp only [assign, hts, if_false, hq, hr, if_true, assignPtr, Assign_eq_cycle, this]
        rw [e]
        obtain ⟨c1, c2, -, -, c5⟩ := HeapInv_cycle hI self (Len (h.mem q).pStr) false 0
          (h.mem q).pStr (Len (h.mem q).pStr) (Len (h.mem q).pStr) hv (by omega) (le_refl _)
        exact ⟨c1, c2, c5⟩
      · have e : assign T h self s =
            (destroy (store h q { h.mem q with nRef := (h.mem q).nRef + 1 }) self,
              { self with _m_pStr := some q }) := by
          simp only [assign, hts, if_false, hq, hr, destroy]
        obtain ⟨d1, d2, d3⟩ :=
          destroy_frame (store h q { h.mem q with nRef := (h.mem q).nRef + 1 }) self
        have hm : ∀ a, ∃ r, (destroy (store h q { h.mem q with nRef := (h.mem q).nRef + 1 })
            self).mem a = { h.mem a with nRef := r } := by
          intro a
          obtain ⟨r, hr⟩ := d3 a
          rw [hr]
          by_cases haq : a = q
          · subst haq
            exact ⟨r, by simp only [store, Function.update_same]⟩
          · exact ⟨r, by simp only [store, Function.update_noteq haq]⟩
        rw [e]
        have hs' : Valid h { self with _m_pStr := some q } := by
          simp only [Valid, hq] at hs ⊢
          exact hs
        exact ⟨HeapInv_frame hI d1 d2 hm, Valid_frame hs' (by rw [d1]; exact le_refl _) hm,
          fun x hx => Valid_frame hx (by rw [d1]; exact le_refl _) hm⟩

/-- A live block with the invariants whose first element is not a terminator has a
capacity of at least one. -/
theorem ZXString.BlockInv.cap_pos {T : CharT} {d : _ZXStringData} (hB : BlockInv T d)
    (hne : (d.pStr.getD 0 0 == 0) = false) : 1 ≤ d.nCap := by
  obtain ⟨h1, h2, h3, h4⟩ := hB
  by_contra hc
  have hc0 : d.nCap = 0 := by omega
  have hs := T.sizeof_pos
  rw [hc0, zero_mul] at h2
  have hi : d.nByteLen / (T.sizeof : Int) ≤ 0 :=
    le_trans (Int.ediv_le_ediv (by omega) h2) (by simp)
  have hi0 : d.nByteLen / (T.sizeof : Int) = 0 := by omega
  rw [hi0] at h4
  cases hP : d.pStr with
  | nil => simp [hP] at h4
  | cons c cs => simp [hP] at h4 hne; omega

/-- Appending keeps the invariants of the live blocks: `_Cat(s, n)` with `n ≥ 0` on a
valid handle whose block is live returns, given fuel for the doubling loop. -/
theorem ZXString.HeapInv_Cat {T : CharT} {h : Heap} (hI : HeapInv T h) (fuel : Nat)
    (self : ZXString) (s : Option (List Nat)) (n : Int) (hv : Valid h self)
    (hl : Live h self) (hn : 0 ≤ n) (hf : GetLength T h self + n ≤ fuel) :
    ∃ r, _Cat fuel T h self s n = some r ∧ HeapInv T r.1 ∧ Valid r.1 r.2 := by
  by_cases hn0 : n = 0
  · exact ⟨(h, self), by simp [_Cat, hn0], hI, hv⟩
  · cases he : ZXString.IsEmpty h self with
    | true =>
      have e : _Cat fuel T h self s n = some (cycle T h self n false 0 (s.getD []) n n) := by
        simp only [_Cat, hn0, ne_eq, not_false_eq_true, if_true, he]
        rfl
      obtain ⟨c1, c2, -⟩ := HeapInv_cycle hI self n false 0 (s.getD []) n n hv hn (le_refl _)
      exact ⟨_, e, c1, c2⟩
    | false =>
      cases hq : self._m_pStr with
      | none => simp [ZXString.IsEmpty, hq] at he
      | some p =>
        simp only [Valid, hq] at hv
        simp only [Live, hq] at hl
        have hB := hI p hv.1 hl
        have hne : ((h.mem p).pStr.getD 0 0 == 0) = false := by
          simpa only [ZXString.IsEmpty, hq] using he
        have hcap := hB.cap_pos hne
        have hgl : GetLength T h self = (h.mem p).nByteLen / (T.sizeof : Int) := by
          simp only [GetLength, hq]
        have hg0 : 0 ≤ GetLength T h self := by rw [hgl]; exact hB.2.2.1
        obtain ⟨j, hj, hreq, -⟩ := grow_spec fuel (h.mem p).nCap (GetLength T h self + n) hcap
          (by omega)
        have e : _Cat fuel T h self s n = some (cycle T h self ((h.mem p).nCap * 2 ^ j) true
            (GetLength T (GetBuffer T h self ((h.mem p).nCap * 2 ^ j) true).1
              (GetBuffer T h self ((h.mem p).nCap * 2 ^ j) true).2)
            (s.getD []) n (GetLength T h self + n)) := by
          simp only [_Cat, hn0, ne_eq, not_false_eq_true, if_true, he, hq, hj]
          rfl
        have hv' : Valid h self := by simp only [Valid, hq]; exact hv
        obtain ⟨c1, c2, -⟩ := HeapInv_cycle hI self ((h.mem p).nCap * 2 ^ j) true
          (GetLength T (GetBuffer T h self ((h.mem p).nCap * 2 ^ j) true).1
            (GetBuffer T h self ((h.mem p).nCap * 2 ^ j) true).2)
          (s.getD []) n (GetLength T h self + n) hv' (by omega) hreq
        exact ⟨_, e, c1, c2⟩

/-- The loop of `_FormatV` ends within `k` passes when the size passes 1024 by then, and
keeps the invariants of the live blocks, for a primitive that returns less than the size
it is given. -/
theorem ZXString.HeapInv_loop (T : CharT) (P : Int → Int × List Nat) (hP : ∀ i, (P i).1 < i)
    (self : ZXString) (k : Nat) :
    ∀ (fuel : Nat) (i result : Int) (h : Heap) (s : ZXString) (tried : List Int),
      HeapInv T h → Valid h s → Valid h self → 0 < i → 1024 < i * 2 ^ k → k ≤ fuel →
      ∃ r, _FormatV.loop T P fuel i result h s tried = some r ∧ HeapInv T r.1 ∧
        Valid r.1 r.2.1 ∧ Valid r.1 self := by
  induction k with
  | zero =>
    intro fuel i result h s tried hI hs hv hi hk hf
    exact ⟨(h, s, tried), loop_stop T P fuel i result h s tried (Or.inr (by simpa using hk)),
      hI, hs, hv⟩
  | succ k ih =>
    intro fuel i result h s tried hI hs hv hi hk hf
    by_cases hstop : 0 ≤ result ∨ 1024 < i
    · exact ⟨(h, s, tried), loop_stop T P fuel i result h s tried hstop, hI, hs, hv⟩
    · push_neg at hstop
      obtain ⟨f, rfl⟩ : ∃ f, fuel = f + 1 := ⟨fuel - 1, by omega⟩
      rw [loop_succ T P f i result h s tried hstop.2 hstop.1, body_eq_cycle]
      obtain ⟨c1, c2, -, -, c5⟩ := HeapInv_cycle hI s i false 0 (P i).2 (P i).2.length
        (if (P i).1 < 0 then 0 else (P i).1) hs (by split <;> omega)
        (by have := hP i; split <;> omega)
      exact ih f (i * 2) _ _ _ _ c1 c2 (c5 self hv) (by omega)
        (by rw [show i * 2 * 2 ^ k = i * 2 ^ (k + 1) by ring]; exact hk) (by omega)

/-- `Format` returns and keeps the invariants of the live blocks, for a primitive that
returns less than the size it is given. -/
theorem ZXString.HeapInv_Format {T : CharT} {h : Heap} (hI : HeapInv T h)
    (P : Int → Int × List Nat) (hP : ∀ i, (P i).1 < i) (self : ZXString) (hv : Valid h self) :
    ∃ r, Format T P h self = some r ∧ HeapInv T r.1 ∧ Valid r.1 r.2 := by
  obtain ⟨⟨h1, s1, t1⟩, e, c1, c2, c3⟩ := HeapInv_loop T P hP self 7 1024 16 (-1) h
    { this := self.this + 1, _m_pStr := none } [] hI (by simp only [Valid]) hv (by norm_num)
    (by norm_num) (by norm_num)
  obtain ⟨a1, a2, -⟩ := HeapInv_assign c1 self s1 c3 c2
  obtain ⟨d1, d2, d3⟩ := destroy_frame (assign T h1 self s1).1 s1
  refine ⟨(destroy (assign T h1 self s1).1 s1, (assign T h1 self s1).2), ?_,
    HeapInv_frame a1 d1 d2 d3, Valid_frame a2 (by rw [d1]) d3⟩
  simp only [Format, _FormatV, _FormatV.run, e]

/-- `Assign(s, n)` with the length scanned or given as `n ≥ 0` keeps the invariants of the
live blocks. -/
theorem ZXString.HeapInv_Assign {T : CharT} {h : Heap} (hI : HeapInv T h) (self : ZXString)
    (s : Option (List Nat)) (n : Int) (hv : Valid h self) (hn : n = -1 ∨ 0 ≤ n) :
    HeapInv T (Assign T h self s n).1 ∧ Valid (Assign T h self s n).1 (Assign T h self s n).2 := by
  cases s with
  | none =>
    have e : Assign T h self none n = (destroy h self, { self with _m_pStr := none }) := by
      simp only [Assign, destroy]
      cases hp : self._m_pStr with
      | none => cases self; simp_all
      | some p => rfl
    obtain ⟨d1, d2, d3⟩ := destroy_frame h self
    rw [e]
    exact ⟨HeapInv_frame hI d1 d2 d3, by simp only [Valid]⟩
  | some src =>
    rw [Assign_eq_cycle]
    obtain ⟨c1, c2, -⟩ := HeapInv_cycle hI self (if n = -1 then (Len src : Int) else n) false 0
      src (if n = -1 then (Len src : Int) else n) (if n = -1 then (Len src : Int) else n) hv
      (by split <;> omega) (le_refl _)
    exact ⟨c1, c2⟩

/-- C14: if every live block has a capacity that is not negative, a byte length within
`nCap * sizeof(T)` and a terminator at element `nByteLen / sizeof(T)`, the same holds
of every live block after construction from a string, `Assign` (length scanned, or
given as `n ≥ 0`), copy assignment, `Cat` and `_Cat` with `n ≥ 0` (which return, given
fuel for the doubling loop), and `Format` with a primitive that returns less than the
size it is given (which returns).  The handles operated on are valid: null, or pointing
into an allocated block of `nCap + 1` elements; they are valid afterwards. -/
theorem ZXString.wellformed_invariant (T : CharT) (h : Heap) (hI : HeapInv T h) :
    (∀ (addr : Nat) (s : Option (List Nat)) (n : Int), n = -1 ∨ 0 ≤ n →
      HeapInv T (ofPtr T h addr s n).1 ∧
        Valid (ofPtr T h addr s n).1 (ofPtr T h addr s n).2) ∧
    (∀ (self : ZXString) (s : Option (List Nat)) (n : Int), Valid h self → n = -1 ∨ 0 ≤ n →
      HeapInv T (Assign T h self s n).1 ∧
        Valid (Assign T h self s n).1 (Assign T h self s n).2) ∧
    (∀ self a : ZXString, Valid h self → Valid h a →
      HeapInv T (assign T h self a).1 ∧ Valid (assign T h self a).1 (assign T h self a).2 ∧
        Valid (assign T h self a).1 a) ∧
    (∀ (fuel : Nat) (self : ZXString) (s : List Nat), Valid h self → Live h self →
      GetLength T h self + Len s ≤ fuel →
      ∃ r, Cat fuel T h self s = some r ∧ HeapInv T r.1 ∧ Valid r.1 r.2) ∧
    (∀ (fuel : Nat) (self : ZXString) (s : Option (List Nat)) (n : Int), Valid h self →
      Live h self → 0 ≤ n → GetLength T h self + n ≤ fuel →
      ∃ r, _Cat fuel T h self s n = some r ∧ HeapInv T r.1 ∧ Valid r.1 r.2) ∧
    (∀ (P : Int → Int × List Nat) (self : ZXString), Valid h self → (∀ i, (P i).1 < i) →
      ∃ r, Format T P h self = some r ∧ HeapInv T r.1 ∧ Valid r.1 r.2) := by
  refine ⟨?_, ?_, ?_, ?_, ?_, ?_⟩
  · intro addr s n hn
    exact HeapInv_Assign hI { this := addr, _m_pStr := none } s n (by simp only [Valid]) hn
  · intro self s n hv hn
    exact HeapInv_Assign hI self s n hv hn
  · intro self a hv ha
    obtain ⟨a1, a2, a3⟩ := HeapInv_assign hI self a hv ha
    exact ⟨a1, a2, a3 a ha⟩
  · intro fuel self s hv hl hf
    exact HeapInv_Cat hI fuel self (some s) (Len s) hv hl (by omega) hf
  · intro fuel self s n hv hl hn hf
    exact HeapInv_Cat hI fuel self s n hv hl hn hf
  · intro P self hv hP
    exact HeapInv_Format hI P hP self hv

/-- Witness of C14: the heap `heap1` satisfies the invariants, and still does after "c"
is assigned to its handle and after "c" is appended to it. -/
theorem ZXString.wellformed_invariant_witness :
    HeapInv .char heap1 ∧
      (HeapInv .char (Assign .char heap1 owner0 (some [99, 0]) (-1)).1 ∧
        Valid (Assign .char heap1 owner0 (some [99, 0]) (-1)).1
          (Assign .char heap1 owner0 (some [99, 0]) (-1)).2) ∧
      ∃ r, Cat 3 .char heap1 owner0 [99, 0] = some r ∧ HeapInv .char r.1 ∧ Valid r.1 r.2 :=
  ⟨by decide,
    (ZXString.wellformed_invariant .char heap1 (by decide)).2.1 owner0 (some [99, 0]) (-1)
      (by decide) (Or.inl rfl),
    (ZXString.wellformed_invariant .char heap1 (by decide)).2.2.2.1 3 owner0 [99, 0]
      (by decide) (by decide) (by decide)⟩

/-! ## Well-formed results -/

/-- A write cycle on a valid handle leaves the handles valid, whatever is committed. -/
theorem ZXString.cycle_valid (T : CharT) (h : Heap) (self : ZXString) (m : Int) (b : Bool)
    (off : Int) (src : List Nat) (k c : Int) (hv : Valid h self) (hm : 0 ≤ m) :
    Valid (cycle T h self m b off src k c).1 (cycle T h self m b off src k c).2 ∧
      h.next ≤ (cycle T h self m b off src k c).1.next ∧
      ∀ x, Valid h x → Valid (cycle T h self m b off src k c).1 x := by
  have hp : ∀ p, self._m_pStr = some p → p < h.next := by
    intro p hq
    simp only [Valid, hq] at hv
    exact hv.1
  obtain ⟨q, hq, -, -, -, hcase⟩ := cycle_spec T h self m b off src k c hp
  obtain ⟨d1, d2, d3⟩ := destroy_frame h self
  have hvq : q < (cycle T h self m b off src k c).1.next ∧
      (((cycle T h self m b off src k c).1.mem q).pStr.length : Int) =
        ((cycle T h self m b off src k c).1.mem q).nCap + 1 := by
    rcases hcase with ⟨e1, -, e2, -, -, e5, e6⟩ | ⟨e, e1, -, -, e4⟩
    · simp only [Valid, e1] at hv
      rw [e2, e5, e6]; exact hv
    · rw [e1, e]; exact ⟨by omega, by rw [← e]; exact e4 hm⟩
  refine ⟨by simp only [Valid, hq]; exact hvq, ?_, ?_⟩
  · rcases hcase with ⟨-, -, e2, -⟩ | ⟨-, e1, -⟩
    · rw [e2]
    · rw [e1]; omega
  · intro x hx
    cases hxq : x._m_pStr with
    | none => simp only [Valid, hxq]
    | some a =>
      simp only [Valid, hxq] at hx ⊢
      by_cases haq : a = q
      · rw [haq]; exact hvq
      · rcases hcase with ⟨-, -, e1, e2, e3, -⟩ | ⟨e, e1, e2, e3, -⟩
        · rw [e3 a haq, e1]; exact hx
        · rw [e3 a haq, e1]
          obtain ⟨r, hr⟩ := d3 a
          rw [hr]
          exact ⟨by omega, hx.2⟩

/-- A write cycle that commits a length within the length asked for leaves the handle
well-formed, with that length. -/
theorem ZXString.cycle_wf (T : CharT) (h : Heap) (self : ZXString) (m : Int) (b : Bool)
    (off : Int) (src : List Nat) (k c : Int) (hv : Valid h self) (hc0 : 0 ≤ c) (hcm : c ≤ m) :
    WellFormed T (cycle T h self m b off src k c).1 (cycle T h self m b off src k c).2 ∧
      GetLength T (cycle T h self m b off src k c).1 (cycle T h self m b off src k c).2 = c := by
  obtain ⟨q, hq, hlt, hr, hlen, hm, hb, ht⟩ := cycle_block T h self m b off src k c hv hc0 hcm
  have hs := T.sizeof_pos
  have hB := BlockInv_of_commit hc0 hcm hm hb ht
  refine ⟨?_, ?_⟩
  · simp only [WellFormed, hq]
    refine ⟨hlt, hlen, ?_, ?_, hB.2.1, hB.2.2.2⟩
    · rw [hb]; exact Int.mul_nonneg hc0 (by omega)
    · rw [hb]; exact Int.mul_emod_left _ _
  · simp only [GetLength, hq, hb, CharT.mul_sizeof_ediv]

/-- The elements in use after `c` elements of `src` are copied to the start of the storage
and the length `c` is committed. -/
theorem ZXString.copied_content (G src : List Nat) (c : Nat) (hc : c < G.length)
    (hs : c ≤ src.length) : (poke (memcpy G 0 src c) c 0).take c = src.take c := by
  simp only [poke, memcpy, le_refl, if_true, Int.toNat_zero, Int.toNat_ofNat,
    Int.ofNat_zero_le]
  rw [readN_eq_take _ _ hs, writeAt_eq _ _ _ (by simp; omega)]
  simp only [List.take_zero, List.nil_append, List.length_take, Nat.min_eq_left hs,
    Nat.zero_add]
  rw [List.set_append_right _ _ (by simp [Nat.min_eq_left hs]),
    List.take_append_of_le_length (by simp [Nat.min_eq_left hs])]
  simp [Nat.min_eq_left hs]

/-- The content after a write cycle that copies `c` elements to the start of the storage
and commits the length `c`. -/
theorem ZXString.cycle_content (T : CharT) (h : Heap) (self : ZXString) (m : Int) (b : Bool)
    (src : List Nat) (c : Nat) (hv : Valid h self) (hcm : (c : Int) ≤ m)
    (hs : c ≤ src.length) :
    content T (cycle T h self m b 0 src c c).1 (cycle T h self m b 0 src c c).2 =
      src.take c := by
  obtain ⟨q, hq, -, -, hlen, hm, hb, -⟩ := cycle_block T h self m b 0 src c c hv (by omega) hcm
  have hq' : (GetBuffer T h self m b).2._m_pStr = some q := by
    have : (cycle T h self m b 0 src c c).2 = (GetBuffer T h self m b).2 := rfl
    rw [← this, hq]
  obtain ⟨-, -, -, -, -, c6, c7⟩ := commit_shape T (GetBuffer T h self m b).1
    (GetBuffer T h self m b).2 q 0 src c c hq'
  have hne : (c : Int) ≠ -1 := by omega
  have hP : ((cycle T h self m b 0 src c c).1.mem q).pStr =
      poke (memcpy ((GetBuffer T h self m b).1.mem q).pStr 0 src c) c 0 := (c7 hne).2
  have hL : ((cycle T h self m b 0 src c c).1.mem q).pStr.length =
      ((GetBuffer T h self m b).1.mem q).pStr.length := c6
  simp only [content, GetLength, hq, hb, CharT.mul_sizeof_ediv, Int.toNat_ofNat]
  rw [hP]
  exact copied_content _ _ c (by rw [← hL]; omega) hs

theorem ZStrUtil.cstr_ne_zero (P : List Nat) : ∀ x ∈ cstr P, x ≠ 0 := by
  induction P with
  | nil => simp [cstr]
  | cons c cs ih =>
    intro x hx
    simp only [cstr] at hx
    split at hx
    · simp at hx
    · rcases List.mem_cons.mp hx with rfl | hx'
      · assumption
      · exact ih x hx'

/-- Copy assignment between valid handles leaves the handles valid. -/
theorem ZXString.assign_valid (T : CharT) (h : Heap) (self s : ZXString)
    (hv : Valid h self) (hs : Valid h s) :
    Valid (assign T h self s).1 (assign T h self s).2 ∧
      ∀ x, Valid h x → Valid (assign T h self s).1 x := by
  by_cases hts : self.this = s.this
  · simp only [assign, hts, if_true]
    exact ⟨by rw [← hts] at *; exact hv, fun x hx => hx⟩
  · cases hq : s._m_pStr with
    | none =>
      have e : assign T h self s = (destroy h self, { self with _m_pStr := none }) := by
        simp only [assign, hts, if_false, hq, destroy]
        cases hp : self._m_pStr with
        | none => cases self; simp_all
        | some p => rfl
      obtain ⟨d1, -, d3⟩ := destroy_frame h self
      rw [e]
      exact ⟨by simp only [Valid], fun x hx => Valid_frame hx (by rw [d1]) d3⟩
    | some q =>
      by_cases hr : (h.mem q).nRef = -1
      · have e : assign T h self s =
            cycle T h self (Len (h.mem q).pStr) false 0 (h.mem q).pStr (Len (h.mem q).pStr)
              (Len (h.mem q).pStr) := by
          have : ((Len (h.mem q).pStr : Nat) : Int) ≠ -1 := by omega
          simp only [assign, hts, if_false, hq, hr, if_true, assignPtr, Assign_eq_cycle, this]
        rw [e]
        obtain ⟨c1, -, c3⟩ := cycle_valid T h self (Len (h.mem q).pStr) false 0
          (h.mem q).pStr (Len (h.mem q).pStr) (Len (h.mem q).pStr) hv (by omega)
        exact ⟨c1, c3⟩
      · have e : assign T h self s =
            (destroy (store h q { h.mem q with nRef := (h.mem q).nRef + 1 }) self,
              { self with _m_pStr := some q }) := by
          simp only [assign, hts, if_false, hq, hr, destroy]
        obtain ⟨d1, -, d3⟩ :=
          destroy_frame (store h q { h.mem q with nRef := (h.mem q).nRef + 1 }) self
        have hm : ∀ a, ∃ r, (destroy (store h q { h.mem q with nRef := (h.mem q).nRef + 1 })
            self).mem a = { h.mem a with nRef := r } := by
          intro a
          obtain ⟨r, hr⟩ := d3 a
          rw [hr]
          by_cases haq : a = q
          · subst haq
            exact ⟨r, by simp only [store, Function.update_same]⟩
          · exact ⟨r, by simp only [store, Function.update_noteq haq]⟩
        rw [e]
        have hs' : Valid h { self with _m_pStr := some q } := by
          simp only [Valid, hq] at hs ⊢
          exact hs
        exact ⟨Valid_frame hs' (by rw [d1]; exact le_refl _) hm,
          fun x hx => Valid_frame hx (by rw [d1]; exact le_refl _) hm⟩

/-- The loop of `_FormatV` leaves the local handle and the handle of the call valid. -/
theorem ZXString.loop_valid (T : CharT) (P : Int → Int × List Nat) (self : ZXString)
    (fuel : Nat) :
    ∀ (i result : Int) (h : Heap) (s : ZXString) (tried : List Int)
      (r : Heap × ZXString × List Int),
      Valid h s → Valid h self → 0 < i → _FormatV.loop T P fuel i result h s tried = some r →
      Valid r.1 r.2.1 ∧ Valid r.1 self := by
  induction fuel with
  | zero =>
    intro i result h s tried r hs hv hi e
    by_cases hstop : 0 ≤ result ∨ 1024 < i
    · rw [loop_stop T P 0 i result h s tried hstop] at e
      cases e
      exact ⟨hs, hv⟩
    · push_neg at hstop
      have h1 : i ≤ 1024 := hstop.2
      have h2 : ¬ result ≥ 0 := by omega
      simp [_FormatV.loop, h1, h2] at e
  | succ f ih =>
    intro i result h s tried r hs hv hi e
    by_cases hstop : 0 ≤ result ∨ 1024 < i
    · rw [loop_stop T P (f + 1) i result h s tried hstop] at e
      cases e
      exact ⟨hs, hv⟩
    · push_neg at hstop
      rw [loop_succ T P f i result h s tried hstop.2 hstop.1, body_eq_cycle] at e
      obtain ⟨c1, -, c3⟩ := cycle_valid T h s i false 0 (P i).2 (P i).2.length
        (if (P i).1 < 0 then 0 else (P i).1) hs (by omega)
      exact ih (i * 2) _ _ _ _ r c1 (c3 self hv) (by omega) e

/-- The handle `Format` returns is valid. -/
theorem ZXString.Format_valid (T : CharT) (P : Int → Int × List Nat) (h : Heap)
    (self : ZXString) (hv : Valid h self) (r : Heap × ZXString)
    (e : Format T P h self = some r) : Valid r.1 r.2 := by
  simp only [Format, _FormatV, _FormatV.run] at e
  cases hL : _FormatV.loop T P 1024 16 (-1) h { this := self.this + 1, _m_pStr := none } [] with
  | none => simp [hL] at e
  | some r1 =>
    obtain ⟨h1, s1, t1⟩ := r1
    obtain ⟨c2, c3⟩ := loop_valid T P self 1024 16 (-1) h _ [] _ (by simp only [Valid]) hv
      (by norm_num) hL
    simp only [hL, Option.some.injEq] at e
    obtain ⟨a2, -⟩ := assign_valid T h1 self s1 c3 c2
    obtain ⟨d1, -, d3⟩ := destroy_frame (assign T h1 self s1).1 s1
    rw [← e]
    exact Valid_frame a2 (by rw [d1]) d3

theorem ZXString.WellFormed.valid {T : CharT} {h : Heap} {self : ZXString}
    (hwf : WellFormed T h self) : Valid h self := by
  cases hq : self._m_pStr with
  | none => simp only [Valid, hq]
  | some p =>
    simp only [WellFormed, hq] at hwf
    simp only [Valid, hq]
    exact ⟨hwf.1, hwf.2.1⟩

/-- `_Cat` keeps the content of a well-formed handle without zero element on a committed
block, and appends to it. -/
theorem ZXString.Cat_keeps_content (fuel : Nat) (T : CharT) (h : Heap) (self : ZXString)
    (src : List Nat) (n : Nat) (hwf : WellFormed T h self)
    (hc : ∀ x ∈ content T h self, x ≠ 0)
    (hr : ∀ p, self._m_pStr = some p → 1 ≤ (h.mem p).nRef) (hn : n ≤ src.length)
    (hf : GetLength T h self + n ≤ fuel) :
    ∃ h' self', _Cat fuel T h self (some src) n = some (h', self') ∧
      WellFormed T h' self' ∧ content T h' self' = content T h self ++ src.take n := by
  rcases Nat.eq_zero_or_pos n with h0 | hpos
  · subst h0
    exact ⟨h, self, by simp [_Cat], hwf, by simp⟩
  · cases he : ZXString.IsEmpty h self with
    | true =>
      have hg := (IsEmpty_iff_GetLength T h self hwf hc).mp he
      have hcon : content T h self = [] := by
        cases hq : self._m_pStr with
        | none => simp only [content, hq]
        | some p => simp only [content, hq, hg, Int.toNat_zero, List.take_zero]
      have hn0 : (n : Int) ≠ 0 := by omega
      have e : _Cat fuel T h self (some src) n = some (cycle T h self n false 0 src n n) := by
        simp only [_Cat, hn0, ne_eq, not_false_eq_true, if_true, he]
        rfl
      refine ⟨_, _, e, (cycle_wf T h self n false 0 src n n hwf.valid (by omega) (le_refl _)).1,
        ?_⟩
      rw [hcon, List.nil_append]
      exact cycle_content T h self n false src n hwf.valid (le_refl _) hn
    | false =>
      cases hq : self._m_pStr with
      | none => simp [ZXString.IsEmpty, hq] at he
      | some p =>
        obtain ⟨h', self', e1, e2, -, -, e5⟩ := Cat_nonempty_content fuel T h self p n src hq
          hwf (hr p hq) he hpos hn hf
        exact ⟨h', self', e1, e5, e2⟩

/-- Copy assignment from a well-formed handle on a committed block gives a well-formed
handle with the same content. -/
theorem ZXString.assign_keeps_content (T : CharT) (h : Heap) (self b : ZXString)
    (hwf : WellFormed T h self) (hab : b.this ≠ self.this)
    (hr : ∀ p, self._m_pStr = some p →
      1 ≤ (h.mem p).nRef ∧ (b._m_pStr = some p → 2 ≤ (h.mem p).nRef)) :
    WellFormed T (assign T h b self).1 (assign T h b self).2 ∧
      content T (assign T h b self).1 (assign T h b self).2 = content T h self := by
  cases hq : self._m_pStr with
  | none =>
    have e : (assign T h b self).2._m_pStr = none := by
      simp only [assign, hab, if_false, hq]
      cases hb : b._m_pStr <;> simp [hb]
    simp only [WellFormed, content, e, hq, and_self]
  | some p =>
    obtain ⟨a1, a2, ⟨r, -, a3⟩, -⟩ := assign_share T h self b p hab hq (hr p hq).1 (hr p hq).2
    simp only [WellFormed, hq] at hwf
    simp only [WellFormed, content, GetLength, a1, a2, a3, hq]
    exact ⟨hwf, trivial⟩

/-- `Assign` with the length scanned gives a well-formed handle whose content is the
string up to its terminator. -/
theorem ZXString.Assign_scanned_wf (T : CharT) (h : Heap) (x : ZXString) (s : List Nat)
    (hv : Valid h x) :
    WellFormed T (Assign T h x (some s) (-1)).1 (Assign T h x (some s) (-1)).2 ∧
      content T (Assign T h x (some s) (-1)).1 (Assign T h x (some s) (-1)).2 = cstr s := by
  rw [Assign_eq_cycle]
  simp only [if_true]
  refine ⟨(cycle_wf T h x (Len s) false 0 s (Len s) (Len s) hv (by omega) (le_refl _)).1, ?_⟩
  rw [cycle_content T h x (Len s) false s (Len s) hv (le_refl _) (Len_le_length s), take_Len]

/-- `Format` whose first success returns `r` gives a well-formed handle with the first `r`
elements written as content. -/
theorem ZXString.Format_wf (T : CharT) (P : Int → Int × List Nat) (h : Heap)
    (x : ZXString) (m : Nat) (hv : Valid h x) (hm : m ≤ 6)
    (hfail : ∀ k < m, (P (16 * 2 ^ k)).1 < 0) (hok : 0 ≤ (P (16 * 2 ^ m)).1)
    (hlt : (P (16 * 2 ^ m)).1 < 16 * 2 ^ m)
    (hw : (P (16 * 2 ^ m)).1 ≤ (P (16 * 2 ^ m)).2.length) :
    ∃ h' x', Format T P h x = some (h', x') ∧ WellFormed T h' x' ∧
      content T h' x' = (P (16 * 2 ^ m)).2.take (P (16 * 2 ^ m)).1.toNat := by
  obtain ⟨-, h', q, G, hF, hG, hblk⟩ := Format_spec T P h x m hv hm hfail (Or.inl hok)
  have hval := Format_valid T P h x hv _ hF
  simp only [Valid] at hval
  have hnl : ¬ (P (16 * 2 ^ m)).1 < 0 := by omega
  simp only [hnl, if_false] at hblk
  obtain ⟨r, hr⟩ : ∃ r : Nat, (P (16 * 2 ^ m)).1 = r := ⟨_, (Int.toNat_of_nonneg hok).symm⟩
  rw [hr] at hblk hlt hw
  have hrG : r < G.length := by omega
  obtain ⟨w1, w2⟩ := written_content G (P (16 * 2 ^ m)).2 r hrG (by omega)
  have hs := T.sizeof_pos
  refine ⟨h', _, hF, ?_, ?_⟩
  · simp only [WellFormed, hblk, CharT.mul_sizeof_ediv, Int.toNat_ofNat]
    refine ⟨hval.1, ?_, ?_, Int.mul_emod_left _ _, ?_, w2⟩
    · rw [length_poke, length_memcpy]; exact hG
    · exact Int.mul_nonneg (by omega) (by omega)
    · exact Int.mul_le_mul_of_nonneg_right (by omega) (by omega)
  · simp only [content, GetLength, hblk, CharT.mul_sizeof_ediv, hr, Int.toNat_ofNat]
    exact w1

/-! ## The two notions of emptiness -/

/-- C19 (amended): for a well-formed handle whose content has no zero element,
`IsEmpty()` holds exactly when `GetLength() = 0`, and `_Cat` on it, when its block is
committed, keeps the content and appends to it, whichever branch it takes.  Such handles
are what the operations produce: `Cat` of a terminated string onto such a handle, copy
assignment from such a handle, `Assign` with the length scanned on any valid handle, and
`Format` on any valid handle when the first `r` elements written by the successful
attempt, which become the content, have no zero element. -/
theorem ZXString.emptiness_agrees (T : CharT) (h : Heap) (self : ZXString)
    (hwf : WellFormed T h self) (hc : ∀ x ∈ content T h self, x ≠ 0) :
    (ZXString.IsEmpty h self = true ↔ GetLength T h self = 0) ∧
    (∀ (fuel : Nat) (src : List Nat) (n : Nat),
      (∀ p, self._m_pStr = some p → 1 ≤ (h.mem p).nRef) → n ≤ src.length →
      GetLength T h self + n ≤ fuel →
      ∃ h' self', _Cat fuel T h self (some src) n = some (h', self') ∧
        WellFormed T h' self' ∧ content T h' self' = content T h self ++ src.take n) ∧
    (∀ (fuel : Nat) (s : List Nat),
      (∀ p, self._m_pStr = some p → 1 ≤ (h.mem p).nRef) →
      GetLength T h self + Len s ≤ fuel →
      ∃ h' self', Cat fuel T h self s = some (h', self') ∧ WellFormed T h' self' ∧
        content T h' self' = content T h self ++ cstr s ∧
        ∀ x ∈ content T h' self', x ≠ 0) ∧
    (∀ b : ZXString, b.this ≠ self.this →
      (∀ p, self._m_pStr = some p →
        1 ≤ (h.mem p).nRef ∧ (b._m_pStr = some p → 2 ≤ (h.mem p).nRef)) →
      WellFormed T (assign T h b self).1 (assign T h b self).2 ∧
        content T (assign T h b self).1 (assign T h b self).2 = content T h self ∧
        ∀ x ∈ content T (assign T h b self).1 (assign T h b self).2, x ≠ 0) ∧
    (∀ (x : ZXString) (s : List Nat), Valid h x →
      WellFormed T (Assign T h x (some s) (-1)).1 (Assign T h x (some s) (-1)).2 ∧
        content T (Assign T h x (some s) (-1)).1 (Assign T h x (some s) (-1)).2 = cstr s ∧
        ∀ y ∈ content T (Assign T h x (some s) (-1)).1 (Assign T h x (some s) (-1)).2,
          y ≠ 0) ∧
    (∀ (P : Int → Int × List Nat) (x : ZXString) (m : Nat), Valid h x → m ≤ 6 →
      (∀ k < m, (P (16 * 2 ^ k)).1 < 0) → 0 ≤ (P (16 * 2 ^ m)).1 →
      (P (16 * 2 ^ m)).1 < 16 * 2 ^ m → (P (16 * 2 ^ m)).1 ≤ (P (16 * 2 ^ m)).2.length →
      (∀ y ∈ (P (16 * 2 ^ m)).2.take (P (16 * 2 ^ m)).1.toNat, y ≠ 0) →
      ∃ h' x', Format T P h x = some (h', x') ∧ WellFormed T h' x' ∧
        content T h' x' = (P (16 * 2 ^ m)).2.take (P (16 * 2 ^ m)).1.toNat ∧
        ∀ y ∈ content T h' x', y ≠ 0) := by
  refine ⟨IsEmpty_iff_GetLength T h self hwf hc, ?_, ?_, ?_, ?_, ?_⟩
  · intro fuel src n hr hn hf
    exact Cat_keeps_content fuel T h self src n hwf hc hr hn hf
  · intro fuel s hr hf
    obtain ⟨h', self', e1, e2, e3⟩ := Cat_keeps_content fuel T h self s (Len s) hwf hc hr
      (Len_le_length s) hf
    rw [take_Len] at e3
    refine ⟨h', self', e1, e2, e3, ?_⟩
    intro x hx
    rw [e3] at hx
    rcases List.mem_append.mp hx with h1 | h1
    · exact hc x h1
    · exact cstr_ne_zero s x h1
  · intro b hab hr
    obtain ⟨a1, a2⟩ := assign_keeps_content T h self b hwf hab hr
    exact ⟨a1, a2, by rw [a2]; exact hc⟩
  · intro x s hv
    obtain ⟨a1, a2⟩ := Assign_scanned_wf T h x s hv
    exact ⟨a1, a2, by rw [a2]; exact cstr_ne_zero s⟩
  · intro P x m hv hm hfail hok hlt hw hz
    obtain ⟨h', x', e1, e2, e3⟩ := Format_wf T P h x m hv hm hfail hok hlt hw
    exact ⟨h', x', e1, e2, e3, by rw [e3]; exact hz⟩

/-- Witness of C19 (amended): the handle of `heap1`, with content "ab"; "c" is appended
after the content. -/
theorem ZXString.emptiness_agrees_witness :
    (WellFormed .char heap1 owner0 ∧ content .char heap1 owner0 = [97, 98]) ∧
      (ZXString.IsEmpty heap1 owner0 = true ↔ GetLength .char heap1 owner0 = 0) ∧
      ∃ h' self', Cat 3 .char heap1 owner0 [99, 0] = some (h', self') ∧
        WellFormed .char h' self' ∧
        content .char h' self' = content .char heap1 owner0 ++ cstr [99, 0] ∧
        ∀ x ∈ content .char h' self', x ≠ 0 :=
  ⟨by decide, (ZXString.emptiness_agrees .char heap1 owner0 (by decide) (by decide)).1,
    (ZXString.emptiness_agrees .char heap1 owner0 (by decide) (by decide)).2.2.1 3 [99, 0]
      (by decide) (by decide)⟩

/-- C19 (as stated, refuted): `Format("%c", 0)`, whose output is the one element `0`,
leaves a well-formed handle with `GetLength() = 1` and content `[0]` for which
`IsEmpty()` holds; appending "a" to it takes the branch for an empty handle and leaves
the content "a", the element it held discarded. -/
theorem ZXString.Format_zero_char :
    ∃ r, Format .char (vsnprintf_s [0]) heap0 null0 = some r ∧
      WellFormed .char r.1 r.2 ∧ content .char r.1 r.2 = [0] ∧
      GetLength .char r.1 r.2 = 1 ∧ ZXString.IsEmpty r.1 r.2 = true ∧
      ¬ (ZXString.IsEmpty r.1 r.2 = true ↔ GetLength .char r.1 r.2 = 0) ∧
      (Cat 3 .char r.1 r.2 [97, 0]).map (fun r' => content .char r'.1 r'.2) = some [97] :=
  ⟨_, rfl, by decide⟩

/-! ## Reference counts of the reachable states -/

theorem ZXString.sharers_cons (x : ZXString) (rest : List ZXString) (p : Nat) :
    sharers (x :: rest) p = sharers rest p + (if x._m_pStr = some p then 1 else 0) := by
  simp only [sharers, List.countP_cons, decide_eq_true_eq]

theorem ZXString.sharers_perm {hs hs' : List ZXString} (hp : hs.Perm hs') (p : Nat) :
    sharers hs p = sharers hs' p :=
  hp.countP_eq _

theorem ZXString.sharers_pos {hs : List ZXString} {a : ZXString} {q : Nat} (ha : a ∈ hs)
    (hq : a._m_pStr = some q) : 0 < sharers hs q :=
  List.countP_pos_iff.mpr ⟨a, ha, by simp [hq]⟩

theorem ZXString.RcInv_perm {h : Heap} {hs hs' : List ZXString} (hp : hs.Perm hs')
    (hI : RcInv h hs) : RcInv h hs' := by
  intro p
  rw [← sharers_perm hp p]
  exact hI p

/-- The agreement only reads the allocation count, the blocks freed and the reference
counts. -/
theorem ZXString.RcInv_observe {h h' : Heap} {hs : List ZXString} (hI : RcInv h hs)
    (hn : h'.next = h.next) (hf : h'.freed = h.freed)
    (hm : ∀ a, a < h.next → (h'.mem a).nRef = (h.mem a).nRef) : RcInv h' hs := by
  intro p
  obtain ⟨i1, i2, i3⟩ := hI p
  rw [hn, hf]
  exact ⟨i1, fun hp => by rw [hm p hp]; exact i2 hp, i3⟩

/-- A handle without buffer counts for no block. -/
theorem ZXString.RcInv_null (h : Heap) (hs : List ZXString) (x : ZXString)
    (hx : x._m_pStr = none) : RcInv h (x :: hs) ↔ RcInv h hs := by
  have e : ∀ p, sharers (x :: hs) p = sharers hs p := by
    intro p
    rw [sharers_cons, hx]
    simp
  constructor
  · intro hI p
    rw [← e p]; exact hI p
  · intro hI p
    rw [e p]; exact hI p

theorem ZXString._Release_observe (h : Heap) (p0 : Nat) :
    (_Release h p0).next = h.next ∧ ((_Release h p0).mem p0).nRef = (h.mem p0).nRef - 1 ∧
      (∀ a, a ≠ p0 → (_Release h p0).mem a = h.mem a) ∧
      ∀ a, a ∈ (_Release h p0).freed ↔ (a = p0 ∧ (h.mem p0).nRef - 1 ≤ 0) ∨ a ∈ h.freed := by
  refine ⟨?_, ?_, ?_, ?_⟩
  · simp only [_Release, store, _Free]; split <;> rfl
  · simp only [_Release, store, _Free]; split <;> simp only [Function.update_same]
  · intro a ha
    simp only [_Release, store, _Free]; split <;> simp only [Function.update_noteq ha]
  · intro a
    simp only [_Release, store, _Free]
    split
    · next hc => simp only [List.mem_cons, hc, and_true]
    · next hc => simp only [hc, and_false, false_or]

/-- The destructor of a handle alive keeps the agreement, for the handles left. -/
theorem ZXString.RcInv_destroy {h : Heap} {x : ZXString} {rest : List ZXString}
    (hI : RcInv h (x :: rest)) : RcInv (destroy h x) rest := by
  cases hq : x._m_pStr with
  | none =>
    simp only [destroy, hq]
    exact (RcInv_null h rest x hq).mp hI
  | some p0 =>
    simp only [destroy, hq]
    obtain ⟨r1, r2, r3, r4⟩ := _Release_observe h p0
    obtain ⟨k1, k2, k3⟩ := hI p0
    have hs0 : sharers (x :: rest) p0 = sharers rest p0 + 1 := by
      rw [sharers_cons, hq]; simp
    have hlt : p0 < h.next := by
      by_contra hc
      have := k3 (by omega)
      omega
    have hn := k2 hlt
    intro p
    obtain ⟨i1, i2, i3⟩ := hI p
    by_cases hp : p = p0
    · subst hp
      rw [r1, r2, r4]
      refine ⟨?_, fun _ => by omega, fun hc => by omega⟩
      constructor
      · rintro (⟨-, hc⟩ | hc)
        · exact ⟨hlt, by omega⟩
        · have := (k1.mp hc).2; omega
      · rintro ⟨-, hc⟩
        exact Or.inl ⟨rfl, by omega⟩
    · have hs1 : sharers (x :: rest) p = sharers rest p := by
        rw [sharers_cons, hq]
        have : ¬ (some p0 = some p) := fun e => hp (Option.some.inj e).symm
        simp [this]
      rw [r1, r3 p hp, r4, ← hs1]
      refine ⟨?_, i2, i3⟩
      constructor
      · rintro (⟨hc, -⟩ | hc)
        · exact absurd hc hp
        · exact i1.mp hc
      · intro hc
        exact Or.inr (i1.mpr hc)

/-- A handle attached to a freshly allocated block with reference count 1 keeps the
agreement. -/
theorem ZXString.RcInv_fresh {h h' : Heap} {rest : List ZXString} (hI : RcInv h rest)
    (t : Nat) (hn : h'.next = h.next + 1) (hf : h'.freed = h.freed)
    (h1 : (h'.mem h.next).nRef = 1) (hm : ∀ a, a ≠ h.next → h'.mem a = h.mem a) :
    RcInv h' ({ this := t, _m_pStr := some h.next } :: rest) := by
  intro p
  obtain ⟨i1, i2, i3⟩ := hI p
  rw [sharers_cons, hn, hf]
  by_cases hp : p = h.next
  · subst hp
    have hz := i3 (le_refl _)
    simp only [if_true, hz, h1]
    refine ⟨?_, fun _ => by simp, fun hc => by omega⟩
    constructor
    · intro hc
      have := (i1.mp hc).1
      omega
    · rintro ⟨-, hc⟩
      omega
  · have : ¬ (some h.next = some p) := fun e => hp (Option.some.inj e).symm
    simp only [this, if_false, Nat.add_zero, hm p hp]
    refine ⟨?_, fun hc => i2 (by omega), fun hc => i3 (by omega)⟩
    constructor
    · intro hc
      exact ⟨by have := (i1.mp hc).1; omega, (i1.mp hc).2⟩
    · rintro ⟨hc1, hc2⟩
      exact i1.mpr ⟨by omega, hc2⟩

/-- A new handle attached to the block of a handle alive, with the count incremented,
keeps the agreement. -/
theorem ZXString.RcInv_share {h : Heap} {hs : List ZXString} (hI : RcInv h hs) (t q : Nat)
    (hq : 0 < sharers hs q) :
    RcInv (store h q { h.mem q with nRef := (h.mem q).nRef + 1 })
      ({ this := t, _m_pStr := some q } :: hs) := by
  intro p
  obtain ⟨i1, i2, i3⟩ := hI p
  rw [sharers_cons]
  simp only [store]
  by_cases hp : p = q
  · subst hp
    simp only [if_true, Function.update_same]
    refine ⟨?_, fun hc => by rw [i2 hc]; push_cast; rfl, fun hc => by have := i3 hc; omega⟩
    constructor
    · intro hc
      have := (i1.mp hc).2
      omega
    · rintro ⟨-, hc⟩
      omega
  · have : ¬ (some q = some p) := fun e => hp (Option.some.inj e).symm
    simp only [this, if_false, Nat.add_zero, Function.update_noteq hp]
    exact ⟨i1, i2, i3⟩

theorem ZXString.RcInv_ptr {h : Heap} {x : ZXString} {rest : List ZXString}
    (hI : RcInv h (x :: rest)) : ∀ p, x._m_pStr = some p → p < h.next := by
  intro p hq
  by_contra hc
  have h3 := (hI p).2.2 (by omega)
  rw [sharers_cons, hq] at h3
  simp at h3

/-- A write cycle on a handle alive keeps the agreement. -/
theorem ZXString.RcInv_cycle {h : Heap} {x : ZXString} {rest : List ZXString}
    (hI : RcInv h (x :: rest)) (T : CharT) (m : Int) (b : Bool) (off : Int) (src : List Nat)
    (k c : Int) :
    RcInv (cycle T h x m b off src k c).1 ((cycle T h x m b off src k c).2 :: rest) := by
  obtain ⟨q, hq, hr, -, -, hcase⟩ := cycle_spec T h x m b off src k c (RcInv_ptr hI)
  rw [hq]
  rcases hcase with ⟨e1, e2, e3, e4, e5, -⟩ | ⟨e, e1, e2, e3, -⟩
  · have hx : ({ this := x.this, _m_pStr := some q } : ZXString) = x := by
      cases x; simp_all
    rw [hx]
    have hlt := RcInv_ptr hI q e1
    have hn := (hI q).2.1 hlt
    have hpos : 0 < sharers (x :: rest) q := sharers_pos (List.mem_cons_self _ _) e1
    refine RcInv_observe hI e3 e4 ?_
    intro a _
    by_cases ha : a = q
    · rw [ha, hr]; omega
    · rw [e5 a ha]
  · obtain ⟨d1, -, -⟩ := destroy_frame h x
    have hD := RcInv_destroy hI
    have hF : RcInv (cycle T h x m b off src k c).1
        ({ this := x.this, _m_pStr := some (destroy h x).next } :: rest) :=
      RcInv_fresh hD x.this (by rw [e1, d1]) e2 (by rw [d1, ← e]; exact hr)
        (by intro a ha; rw [d1, ← e] at ha; exact e3 a ha)
    rw [d1, ← e] at hF
    exact hF

/-- `Assign` on a handle alive keeps the agreement. -/
theorem ZXString.RcInv_Assign {h : Heap} {x : ZXString} {rest : List ZXString}
    (hI : RcInv h (x :: rest)) (T : CharT) (s : Option (List Nat)) (n : Int) :
    RcInv (Assign T h x s n).1 ((Assign T h x s n).2 :: rest) := by
  cases s with
  | none =>
    have e : Assign T h x none n = (destroy h x, { x with _m_pStr := none }) := by
      simp only [Assign, destroy]
      cases hp : x._m_pStr with
      | none => cases x; simp_all
      | some p => rfl
    rw [e]
    exact (RcInv_null _ rest _ rfl).mpr (RcInv_destroy hI)
  | some src =>
    rw [Assign_eq_cycle]
    exact RcInv_cycle hI T _ _ _ _ _ _

/-- Copy assignment between handles alive keeps the agreement. -/
theorem ZXString.RcInv_assign {h : Heap} {x : ZXString} {rest : List ZXString}
    (hI : RcInv h (x :: rest)) (T : CharT) (a : ZXString) (ha : a ∈ x :: rest) :
    RcInv (assign T h x a).1 ((assign T h x a).2 :: rest) := by
  by_cases hts : x.this = a.this
  · simp only [assign, hts, if_true]
    exact hI
  · cases hq : a._m_pStr with
    | none =>
      have e : assign T h x a = (destroy h x, { x with _m_pStr := none }) := by
        simp only [assign, hts, if_false, hq, destroy]
        cases hp : x._m_pStr with
        | none => cases x; simp_all
        | some p => rfl
      rw [e]
      exact (RcInv_null _ rest _ rfl).mpr (RcInv_destroy hI)
    | some q =>
      have hpos : 0 < sharers (x :: rest) q := sharers_pos ha hq
      have hlt : q < h.next := by
        by_contra hc
        have := (hI q).2.2 (by omega)
        omega
      have hn := (hI q).2.1 hlt
      have hr : ¬ (h.mem q).nRef = -1 := by omega
      have e : assign T h x a =
          (destroy (store h q { h.mem q with nRef := (h.mem q).nRef + 1 }) x,
            { x with _m_pStr := some q }) := by
        simp only [assign, hts, if_false, hq, hr, destroy]
      rw [e]
      exact RcInv_destroy (RcInv_perm (List.Perm.swap _ _ _) (RcInv_share hI x.this q hpos))

/-- `_Cat` on a handle alive keeps the agreement when it returns. -/
theorem ZXString.RcInv_Cat {h : Heap} {x : ZXString} {rest : List ZXString}
    (hI : RcInv h (x :: rest)) (fuel : Nat) (T : CharT) (s : Option (List Nat)) (n : Int)
    (r : Heap × ZXString) (e : _Cat fuel T h x s n = some r) : RcInv r.1 (r.2 :: rest) := by
  by_cases hn0 : n = 0
  · simp only [_Cat, hn0, ne_eq, not_true_eq_false, if_false, Option.some.injEq] at e
    rw [← e]; exact hI
  · cases he : ZXString.IsEmpty h x with
    | true =>
      have e' : _Cat fuel T h x s n = some (cycle T h x n false 0 (s.getD []) n n) := by
        simp only [_Cat, hn0, ne_eq, not_false_eq_true, if_true, he]
        rfl
      rw [e', Option.some.injEq] at e
      rw [← e]
      exact RcInv_cycle hI T _ _ _ _ _ _
    | false =>
      cases hq : x._m_pStr with
      | none => simp [ZXString.IsEmpty, hq] at he
      | some p =>
        cases hg : _Cat.grow fuel (h.mem p).nCap (GetLength T h x + n) with
        | none =>
          simp [_Cat, hn0, he, hq, hg] at e
        | some nCap =>
          have e' : _Cat fuel T h x s n = some (cycle T h x nCap true
              (GetLength T (GetBuffer T h x nCap true).1 (GetBuffer T h x nCap true).2)
              (s.getD []) n (GetLength T h x + n)) := by
            simp only [_Cat, hn0, ne_eq, not_false_eq_true, if_true, he, hq, hg]
            rfl
          rw [e', Option.some.injEq] at e
          rw [← e]
          exact RcInv_cycle hI T _ _ _ _ _ _

/-- The loop of `_FormatV` keeps the agreement, its local handle counted as alive. -/
theorem ZXString.RcInv_loop (T : CharT) (P : Int → Int × List Nat) (hs : List ZXString)
    (fuel : Nat) :
    ∀ (i result : Int) (h : Heap) (s : ZXString) (tried : List Int)
      (r : Heap × ZXString × List Int),
      RcInv h (s :: hs) → _FormatV.loop T P fuel i result h s tried = some r →
      RcInv r.1 (r.2.1 :: hs) := by
  induction fuel with
  | zero =>
    intro i result h s tried r hI e
    by_cases hstop : 0 ≤ result ∨ 1024 < i
    · rw [loop_stop T P 0 i result h s tried hstop] at e
      cases e
      exact hI
    · push_neg at hstop
      have h1 : i ≤ 1024 := hstop.2
      have h2 : ¬ result ≥ 0 := by omega
      simp [_FormatV.loop, h1, h2] at e
  | succ f ih =>
    intro i result h s tried r hI e
    by_cases hstop : 0 ≤ result ∨ 1024 < i
    · rw [loop_stop T P (f + 1) i result h s tried hstop] at e
      cases e
      exact hI
    · push_neg at hstop
      rw [loop_succ T P f i result h s tried hstop.2 hstop.1, body_eq_cycle] at e
      exact ih (i * 2) _ _ _ _ r (RcInv_cycle hI T _ _ _ _ _ _) e

/-- `Format` on a handle alive keeps the agreement when it returns. -/
theorem ZXString.RcInv_Format {h : Heap} {x : ZXString} {rest : List ZXString}
    (hI : RcInv h (x :: rest)) (T : CharT) (P : Int → Int × List Nat)
    (r : Heap × ZXString) (e : Format T P h x = some r) : RcInv r.1 (r.2 :: rest) := by
  simp only [Format, _FormatV, _FormatV.run] at e
  cases hL : _FormatV.loop T P 1024 16 (-1) h { this := x.this + 1, _m_pStr := none } [] with
  | none => simp [hL] at e
  | some r1 =>
    obtain ⟨h1, s1, t1⟩ := r1
    have c1 := RcInv_loop T P (x :: rest) 1024 16 (-1) h _ [] _
      ((RcInv_null h (x :: rest) _ rfl).mpr hI) hL
    simp only [hL, Option.some.injEq] at e
    have c2 := RcInv_assign (RcInv_perm (List.Perm.swap _ _ _) c1) T s1
      (List.mem_cons_of_mem _ (List.mem_cons_self _ _))
    rw [← e]
    exact RcInv_destroy (RcInv_perm (List.Perm.swap _ _ _) c2)

/-- Every state reached from no handles has reference counts that agree with the handles
alive. -/
theorem ZXString.Reachable_RcInv {T : CharT} {h : Heap} {hs : List ZXString}
    (hR : Reachable T h hs) : RcInv h hs := by
  induction hR with
  | start h hn hf =>
    intro p
    simp [sharers, hn, hf]
  | constructed h hs addr _ _ ih => exact (RcInv_null h hs _ rfl).mpr ih
  | fromPtr h hs addr s n _ _ ih =>
    exact RcInv_Assign ((RcInv_null h hs { this := addr, _m_pStr := none } rfl).mpr ih) T s n
  | copied h hs addr a _ _ ha ih =>
    exact RcInv_assign ((RcInv_null h hs { this := addr, _m_pStr := none } rfl).mpr ih) T a
      (List.mem_cons_of_mem _ ha)
  | assigned h hs x rest s n _ hp ih => exact RcInv_Assign (RcInv_perm hp ih) T s n
  | copyFrom h hs x rest a _ hp ha ih =>
    exact RcInv_assign (RcInv_perm hp ih) T a (hp.mem_iff.mp ha)
  | appended h hs x rest fuel s n r _ hp e ih => exact RcInv_Cat (RcInv_perm hp ih) fuel T s n r e
  | formatted h hs x rest P r _ hp e ih => exact RcInv_Format (RcInv_perm hp ih) T P r e
  | destroyed h hs x rest _ hp ih => exact RcInv_destroy (RcInv_perm hp ih)

/-- The block `GetBuffer` returns has the sentinel count, and `ReleaseBuffer` sets the
count back to 1. -/
theorem ZXString.GetBuffer_sentinel (T : CharT) (h : Heap) (x : ZXString) (m : Int) (b : Bool)
    (hp : ∀ p, x._m_pStr = some p → p < h.next) :
    ∃ q, (GetBuffer T h x m b).2._m_pStr = some q ∧
      ((GetBuffer T h x m b).1.mem q).nRef = -1 ∧
      ∀ c, ((ReleaseBuffer T (GetBuffer T h x m b).1 (GetBuffer T h x m b).2 c).mem q).nRef =
        1 := by
  have key : ∃ q, (GetBuffer T h x m b).2._m_pStr = some q ∧
      ((GetBuffer T h x m b).1.mem q).nRef = -1 := by
    cases hq : x._m_pStr with
    | none =>
      exact ⟨h.next, by simp only [GetBuffer, hq, fresh_none],
        by simp only [GetBuffer, hq, fresh_none, Function.update_same]⟩
    | some p =>
      have hne : p ≠ h.next := by have := hp p hq; omega
      by_cases hc : (h.mem p).nRef ≤ 1 ∧ (h.mem p).nCap ≥ m
      · exact ⟨p, by simp only [GetBuffer, hq, hc, and_self, if_true],
          by simp only [GetBuffer, hq, hc, and_self, if_true, store, Function.update_same]⟩
      · exact ⟨h.next, by simp only [GetBuffer, hq, hc, if_false, fresh_some _ _ _ _ _ _ _ hne],
          by simp only [GetBuffer, hq, hc, if_false, fresh_some _ _ _ _ _ _ _ hne,
            Function.update_noteq hne.symm, Function.update_same]⟩
  obtain ⟨q, k1, k2⟩ := key
  refine ⟨q, k1, k2, ?_⟩
  intro c
  simp only [ReleaseBuffer, k1, store]
  split <;> simp only [Function.update_same]

/-- C15: in every state reached from no handles by completed handle operations
(default construction, construction from a string, copy construction, `Assign`, copy
assignment, `_Cat`, `Format`, destruction, each on any handle alive), every live block
has a reference count of at least 1, equal to the number of handles attached to it;
every allocated block with no handle attached was freed; no allocated block has the
count `-1`; and every handle alive points, if at all, to a live block.  The count `-1` is
on the block `GetBuffer` returns until `ReleaseBuffer` sets it to 1. -/
theorem ZXString.refcount_sharers (T : CharT) (h : Heap) (hs : List ZXString)
    (hR : Reachable T h hs) :
    (∀ p, p < h.next → p ∉ h.freed →
      1 ≤ (h.mem p).nRef ∧ (h.mem p).nRef = sharers hs p) ∧
    (∀ p, p < h.next → sharers hs p = 0 → p ∈ h.freed) ∧
    (∀ p, p < h.next → (h.mem p).nRef ≠ -1) ∧
    (∀ x ∈ hs, ∀ p, x._m_pStr = some p → p < h.next ∧ p ∉ h.freed) ∧
    (∀ x ∈ hs, ∀ (m : Int) (b : Bool),
      ∃ q, (GetBuffer T h x m b).2._m_pStr = some q ∧
        ((GetBuffer T h x m b).1.mem q).nRef = -1 ∧
        ∀ c, ((ReleaseBuffer T (GetBuffer T h x m b).1 (GetBuffer T h x m b).2 c).mem
          q).nRef = 1) := by
  have hI := Reachable_RcInv hR
  have hlive : ∀ x ∈ hs, ∀ p, x._m_pStr = some p → p < h.next ∧ p ∉ h.freed := by
    intro x hx p hq
    obtain ⟨i1, -, i3⟩ := hI p
    have hpos := sharers_pos hx hq
    refine ⟨?_, ?_⟩
    · by_contra hc
      have := i3 (by omega)
      omega
    · intro hc
      have := (i1.mp hc).2
      omega
  refine ⟨?_, ?_, ?_, hlive, ?_⟩
  · intro p hp hf
    obtain ⟨i1, i2, -⟩ := hI p
    have h0 : sharers hs p ≠ 0 := fun e => hf (i1.mpr ⟨hp, e⟩)
    have := i2 hp
    exact ⟨by omega, this⟩
  · intro p hp h0
    exact ((hI p).1).mpr ⟨hp, h0⟩
  · intro p hp
    have := (hI p).2.1 hp
    omega
  · intro x hx m b
    exact GetBuffer_sentinel T h x m b (fun p hq => (hlive x hx p hq).1)

/-- Witness of C15: a handle constructed from "a" and a copy of it share the block at
address `0`, whose count is 2. -/
theorem ZXString.refcount_sharers_witness :
    Reachable .char (copy .char (ofPtr .char heap0 0 (some [97, 0]) (-1)).1 1
        (ofPtr .char heap0 0 (some [97, 0]) (-1)).2).1
      [(copy .char (ofPtr .char heap0 0 (some [97, 0]) (-1)).1 1
        (ofPtr .char heap0 0 (some [97, 0]) (-1)).2).2,
        (ofPtr .char heap0 0 (some [97, 0]) (-1)).2] ∧
    ((copy .char (ofPtr .char heap0 0 (some [97, 0]) (-1)).1 1
        (ofPtr .char heap0 0 (some [97, 0]) (-1)).2).1.mem 0).nRef = 2 ∧
    (1 ≤ ((copy .char (ofPtr .char heap0 0 (some [97, 0]) (-1)).1 1
        (ofPtr .char heap0 0 (some [97, 0]) (-1)).2).1.mem 0).nRef ∧
      ((copy .char (ofPtr .char heap0 0 (some [97, 0]) (-1)).1 1
        (ofPtr .char heap0 0 (some [97, 0]) (-1)).2).1.mem 0).nRef =
        sharers [(copy .char (ofPtr .char heap0 0 (some [97, 0]) (-1)).1 1
          (ofPtr .char heap0 0 (some [97, 0]) (-1)).2).2,
          (ofPtr .char heap0 0 (some [97, 0]) (-1)).2] 0) :=
  have hR : Reachable .char (copy .char (ofPtr .char heap0 0 (some [97, 0]) (-1)).1 1
        (ofPtr .char heap0 0 (some [97, 0]) (-1)).2).1
      [(copy .char (ofPtr .char heap0 0 (some [97, 0]) (-1)).1 1
        (ofPtr .char heap0 0 (some [97, 0]) (-1)).2).2,
        (ofPtr .char heap0 0 (some [97, 0]) (-1)).2] :=
    Reachable.copied _ _ 1 _
      (Reachable.fromPtr heap0 [] 0 (some [97, 0]) (-1) (Reachable.start heap0 rfl rfl)
        (by simp))
      (by decide) (by simp)
  ⟨hR, by decide, (ZXString.refcount_sharers .char _ _ hR).1 0 (by decide) (by decide)⟩
